import Mathlib

/-!
Verification of the incremental dependency-graph execution engine
(`src/flow`): the runtime type checker (`type_util.py`), the graph
algorithms (`graph_algorithms.py`), the per-node record
(`internal_graph_node.py`) and the graph driver (`process_graph.py`).

Python values are embedded as a JSON-like inductive `PyVal`, machine
floats are embedded as rationals (only order comparisons occur in the
engine), exceptions as an explicit `Exc` sum carried in `Except`, and
the observable side effects (processor instantiation, `process` calls,
`finalize` calls, file-system writes) as an explicit event trace.
`matches` is a reserved word in Lean, so the type checker is embedded
as `pyMatches`.
-/

namespace VideoFlow

/-- Python values of the JSON-ish shapes the engine handles.
`bool` is kept separate from `int` because Python distinguishes them,
but note that Python `isinstance(True, int)` is `True`; the embedding
of `isinstance` below accounts for that. -/
inductive PyVal where
  | none : PyVal
  | bool (b : Bool) : PyVal
  | int (n : Int) : PyVal
  | float (q : Rat) : PyVal
  | str (s : String) : PyVal
  | list (xs : List PyVal) : PyVal
  | tuple (xs : List PyVal) : PyVal
  | set (xs : List PyVal) : PyVal
  | dict (xs : List (PyVal × PyVal)) : PyVal

mutual

/-- Structural equality of embedded Python values. -/
def pyEq : PyVal → PyVal → Bool
  | .none, .none => true
  | .bool a, .bool b => a == b
  | .int a, .int b => a == b
  | .float a, .float b => a == b
  | .str a, .str b => a == b
  | .list a, .list b => pyEqList a b
  | .tuple a, .tuple b => pyEqList a b
  | .set a, .set b => pyEqList a b
  | .dict a, .dict b => pyEqPairs a b
  | _, _ => false

/-- Elementwise equality of value lists. -/
def pyEqList : List PyVal → List PyVal → Bool
  | [], [] => true
  | a :: as1, b :: bs => pyEq a b && pyEqList as1 bs
  | _, _ => false

/-- Elementwise equality of key-value pair lists. -/
def pyEqPairs : List (PyVal × PyVal) → List (PyVal × PyVal) → Bool
  | [], [] => true
  | (k1, v1) :: as1, (k2, v2) :: bs =>
      pyEq k1 k2 && pyEq v1 v2 && pyEqPairs as1 bs
  | _, _ => false

end

/-- Type descriptors accepted by `type_util.matches`: primitives,
`Any`, parametrised containers, fixed tuples and unions. -/
inductive PyType where
  | anyT : PyType
  | boolT : PyType
  | intT : PyType
  | floatT : PyType
  | strT : PyType
  | listT (arg : Option PyType) : PyType
  | setT (arg : Option PyType) : PyType
  | dictT (k v : PyType) : PyType
  | tupleT (args : List PyType) : PyType
  | unionT (args : List PyType) : PyType

/-- Every type descriptor has positive size (termination helper). -/
theorem PyType.sizeOf_pos (t : PyType) : 0 < sizeOf t := by
  cases t <;> simp

/-- Python `isinstance(obj, int)`: `True` both for `int` values and for
`bool` values, because `bool` is a subclass of `int` in Python. -/
def isInstInt : PyVal → Bool
  | .int _ => true
  | .bool _ => true
  | _ => false

/-- Python `isinstance(obj, bool)`. -/
def isInstBool : PyVal → Bool
  | .bool _ => true
  | _ => false

/-- Python `isinstance(obj, float)`: `float` instances only
(an `int` is not an instance of `float`). -/
def isInstFloat : PyVal → Bool
  | .float _ => true
  | _ => false

/-- Python `isinstance(obj, str)`. -/
def isInstStr : PyVal → Bool
  | .str _ => true
  | _ => false

/-- Python `isinstance(obj, (list, tuple))`, used by the tuple branch of
`matches`. -/
def isInstListOrTuple : PyVal → Bool
  | .list _ => true
  | .tuple _ => true
  | _ => false

/-- The elements of a `list` or `tuple` value (`zip` iterates them). -/
def seqElems : PyVal → List PyVal
  | .list xs => xs
  | .tuple xs => xs
  | _ => []

mutual

/-- Embedding of `type_util.matches(obj, typ)`.

Branches follow the source order: the `typ is float` special case is
tested first; then simple types are handled through Python
`isinstance`; then `Union`, `tuple` (which also accepts lists of the
right length, a JSON coercion), `list`/`set` (exact instance check,
element check only when an argument is given) and `dict`. -/
def pyMatches (v : PyVal) : PyType → Bool
  | .floatT => (isInstInt v || isInstFloat v) && !(isInstBool v)
  | .anyT => true
  | .boolT => isInstBool v
  | .intT => isInstInt v
  | .strT => isInstStr v
  | .unionT args => pyMatchesAny v args
  | .tupleT args =>
      if isInstListOrTuple v then
        if (seqElems v).length = args.length then
          pyMatchesZip (seqElems v) args
        else false
      else false
  | .listT a =>
      match v with
      | .list xs =>
          match a with
          | Option.none => true
          | Option.some t => pyMatchesAll xs t
      | _ => false
  | .setT a =>
      match v with
      | .set xs =>
          match a with
          | Option.none => true
          | Option.some t => pyMatchesAll xs t
      | _ => false
  | .dictT k vt =>
      match v with
      | .dict xs => pyMatchesDict xs k vt
      | _ => false
termination_by t => (sizeOf t, 0, 0)

/-- Embedding of `all(matches(item, T) for item in xs)`. -/
def pyMatchesAll : List PyVal → PyType → Bool
  | [], _ => true
  | x :: xs, t => pyMatches x t && pyMatchesAll xs t
termination_by xs t => (sizeOf t, 1, sizeOf xs)

/-- Embedding of `all(matches(item, arg) for item, arg in zip(obj, args))`. -/
def pyMatchesZip : List PyVal → List PyType → Bool
  | x :: xs, t :: ts => pyMatches x t && pyMatchesZip xs ts
  | _, _ => true
termination_by xs ts => (sizeOf ts, 1, sizeOf xs)

/-- Embedding of `any(matches(obj, arg) for arg in args)`. -/
def pyMatchesAny : PyVal → List PyType → Bool
  | _v, [] => false
  | v, t :: ts => pyMatches v t || pyMatchesAny v ts
termination_by _ ts => (sizeOf ts, 1, 0)

/-- Embedding of `all(matches(k, K) and matches(v, V) for k, v in obj.items())`. -/
def pyMatchesDict : List (PyVal × PyVal) → PyType → PyType → Bool
  | [], _, _ => true
  | (k, v) :: xs, kt, vt =>
      (pyMatches k kt && pyMatches v vt) && pyMatchesDict xs kt vt
termination_by xs kt vt => (sizeOf kt + sizeOf vt, 1, sizeOf xs)
decreasing_by
  all_goals simp_wf
  · have h := PyType.sizeOf_pos vt
    apply Prod.Lex.left
    omega
  · have h := PyType.sizeOf_pos kt
    apply Prod.Lex.left
    omega
  · apply Prod.Lex.right
    apply Prod.Lex.right
    omega

end

/-- The §4.2 rule for `Integer` as the spec words it:
"integer, not boolean". Modelled from the spec for comparison with
the implementation. -/
def specIntegerRule : PyVal → Bool
  | .int _ => true
  | _ => false

/-!
### graph_algorithms.py

A node is a natural number.  A Python `dict[int, set[int]]` is an
association list with distinct keys; a Python `set[int]` is a list
without duplicates.  Iteration order of a Python set is unspecified, so
the worklist below pops from the head; the claims proved about the
algorithms do not depend on that choice.
-/

/-- Embedding of `dependencies.get(node, set())`: dict lookup with default. -/
def depsGet : List (Nat × List Nat) → Nat → List Nat
  | [], _ => []
  | (k, ds) :: rest, n => if k = n then ds else depsGet rest n

/-- Adding an element to a Python set: no-op when already present. -/
def insertOnce (x : Nat) (l : List Nat) : List Nat :=
  if x ∈ l then l else x :: l

theorem mem_insertOnce {x y : Nat} {l : List Nat} :
    y ∈ insertOnce x l ↔ y = x ∨ y ∈ l := by
  unfold insertOnce
  split
  · next h => constructor
              · exact fun hy => Or.inr hy
              · rintro (rfl | hy) <;> [exact h; exact hy]
  · simp

theorem nodup_insertOnce {x : Nat} {l : List Nat} (h : l.Nodup) :
    (insertOnce x l).Nodup := by
  unfold insertOnce
  split
  · exact h
  · next hx => exact List.Nodup.cons hx h

/-- All nodes mentioned by a dependency dict together with a set of
start nodes: the universe the reachability worklist can ever touch. -/
def depsUniverse (deps : List (Nat × List Nat)) (start : List Nat) : List Nat :=
  (start ++ deps.map Prod.fst ++ (deps.map Prod.snd).flatten).dedup

/-- The body of `_get_dependencies`: add to `to_check` every dependency
of the popped node that is not yet visited. -/
def addUnvisited (visited : List Nat) (toCheck : List Nat)
    (ds : List Nat) : List Nat :=
  ds.foldl (fun acc d => if d ∈ visited then acc else insertOnce d acc) toCheck

theorem addUnvisited_nil (visited toCheck : List Nat) :
    addUnvisited visited toCheck [] = toCheck := rfl

theorem addUnvisited_cons (visited toCheck : List Nat) (d : Nat)
    (ds : List Nat) :
    addUnvisited visited toCheck (d :: ds) =
      if d ∈ visited then addUnvisited visited toCheck ds
      else addUnvisited visited (insertOnce d toCheck) ds := by
  by_cases hd : d ∈ visited <;> simp [addUnvisited, hd]

theorem mem_addUnvisited {visited : List Nat} {y : Nat} :
    ∀ {ds toCheck : List Nat},
    (y ∈ addUnvisited visited toCheck ds ↔
      y ∈ toCheck ∨ (y ∈ ds ∧ y ∉ visited)) := by
  intro ds
  induction ds with
  | nil => simp [addUnvisited_nil]
  | cons d ds ih =>
      intro toCheck
      rw [addUnvisited_cons]
      by_cases hd : d ∈ visited
      · rw [if_pos hd, ih]
        constructor
        · rintro (h | h)
          · exact Or.inl h
          · exact Or.inr ⟨List.mem_cons_of_mem _ h.1, h.2⟩
        · rintro (h | ⟨hmem, hnv⟩)
          · exact Or.inl h
          · rcases List.mem_cons.mp hmem with rfl | h2
            · exact absurd hd hnv
            · exact Or.inr ⟨h2, hnv⟩
      · rw [if_neg hd, ih, mem_insertOnce]
        constructor
        · rintro ((rfl | h) | h)
          · exact Or.inr ⟨List.mem_cons_self _ _, hd⟩
          · exact Or.inl h
          · exact Or.inr ⟨List.mem_cons_of_mem _ h.1, h.2⟩
        · rintro (h | ⟨hmem, hnv⟩)
          · exact Or.inl (Or.inr h)
          · rcases List.mem_cons.mp hmem with rfl | h2
            · exact Or.inl (Or.inl rfl)
            · exact Or.inr ⟨h2, hnv⟩

theorem nodup_addUnvisited {visited : List Nat} :
    ∀ {ds toCheck : List Nat}, toCheck.Nodup →
    (addUnvisited visited toCheck ds).Nodup := by
  intro ds
  induction ds with
  | nil => exact fun h => h
  | cons d ds ih =>
      intro toCheck h
      rw [addUnvisited_cons]
      split
      · exact ih h
      · exact ih (nodup_insertOnce h)

theorem length_filter_le_of_imp (l : List Nat) (p q : Nat → Bool)
    (h : ∀ x, p x = true → q x = true) :
    (l.filter p).length ≤ (l.filter q).length := by
  induction l with
  | nil => simp
  | cons a l ih =>
      simp only [List.filter_cons]
      by_cases hp : p a = true
      · rw [if_pos hp, if_pos (h a hp)]
        simpa using ih
      · rw [if_neg hp]
        split
        · exact Nat.le_succ_of_le ih
        · exact ih

theorem filter_not_mem_cons_le (univ visited : List Nat) (node : Nat) :
    (univ.filter fun x => decide (x ∉ node :: visited)).length ≤
      (univ.filter fun x => decide (x ∉ visited)).length := by
  apply length_filter_le_of_imp
  intro x hx
  simp only [decide_eq_true_eq, List.mem_cons] at hx ⊢
  exact fun hmem => hx (Or.inr hmem)

theorem filter_not_mem_cons_lt {univ visited : List Nat} {node : Nat}
    (hu : node ∈ univ) (hv : node ∉ visited) :
    (univ.filter fun x => decide (x ∉ node :: visited)).length <
      (univ.filter fun x => decide (x ∉ visited)).length := by
  induction univ with
  | nil => cases hu
  | cons a univ ih =>
      simp only [List.filter_cons]
      rcases eq_or_ne a node with rfl | hne
      · have h1 : ¬(decide (a ∉ a :: visited) = true) := by simp
        have h2 : decide (a ∉ visited) = true := by simpa using hv
        rw [if_neg h1, if_pos h2]
        exact Nat.lt_succ_of_le (filter_not_mem_cons_le univ visited a)
      · have hnu : node ∈ univ := by
          rcases List.mem_cons.mp hu with h | h
          · exact absurd h.symm hne
          · exact h
        by_cases hav : a ∈ visited
        · have h1 : ¬(decide (a ∉ node :: visited) = true) := by
            simp only [decide_eq_true_eq, List.mem_cons, not_not]
            exact Or.inr hav
          have h2 : ¬(decide (a ∉ visited) = true) := by simpa using hav
          rw [if_neg h1, if_neg h2]
          exact ih hnu
        · have h1 : decide (a ∉ node :: visited) = true := by
            simp only [decide_eq_true_eq, List.mem_cons]
            push_neg
            exact ⟨hne, hav⟩
          have h2 : decide (a ∉ visited) = true := by simpa using hav
          rw [if_pos h1, if_pos h2]
          exact Nat.succ_lt_succ (ih hnu)

/-- The `while to_check:` loop of `_get_dependencies`.  The propositional
arguments record the Python set invariants (the worklist has no
duplicates, is disjoint from the visited set, and both stay inside the
universe of nodes mentioned by the dict), which drive termination:
every iteration moves one universe element into `visited`. -/
def getDepsAux (deps : List (Nat × List Nat)) (univ : List Nat)
    (hU : ∀ n y, y ∈ depsGet deps n → y ∈ univ) :
    (visited : List Nat) → (toCheck : List Nat) →
    toCheck.Nodup → (∀ x ∈ toCheck, x ∉ visited) →
    (∀ x ∈ toCheck, x ∈ univ) → List Nat
  | visited, [], _, _, _ => visited
  | visited, node :: rest, hnd, hdisj, htc =>
      getDepsAux deps univ hU (node :: visited)
        (addUnvisited (node :: visited) rest (depsGet deps node))
        (nodup_addUnvisited (List.nodup_cons.mp hnd).2)
        (by
          intro x hx
          rcases mem_addUnvisited.mp hx with hrest | ⟨_hd, hnv⟩
          · intro hmem
            rcases List.mem_cons.mp hmem with rfl | hmem2
            · exact (List.nodup_cons.mp hnd).1 hrest
            · exact hdisj x (List.mem_cons_of_mem _ hrest) hmem2
          · exact hnv)
        (by
          intro x hx
          rcases mem_addUnvisited.mp hx with hrest | ⟨hd, _⟩
          · exact htc x (List.mem_cons_of_mem _ hrest)
          · exact hU node x hd)
termination_by visited _ =>
  (univ.filter fun x => decide (x ∉ visited)).length
decreasing_by
  exact filter_not_mem_cons_lt (htc node (List.mem_cons_self _ _))
    (hdisj node (List.mem_cons_self _ _))

theorem depsGet_subset_flatten (deps : List (Nat × List Nat)) (n y : Nat)
    (hy : y ∈ depsGet deps n) : y ∈ (deps.map Prod.snd).flatten := by
  induction deps with
  | nil => cases hy
  | cons p rest ih =>
      obtain ⟨k, ds⟩ := p
      rw [depsGet] at hy
      simp only [List.map_cons, List.flatten_cons, List.mem_append]
      split at hy
      · exact Or.inl hy
      · exact Or.inr (ih hy)

theorem depsGet_mem_universe (deps : List (Nat × List Nat))
    (start : List Nat) :
    ∀ n y, y ∈ depsGet deps n → y ∈ depsUniverse deps start := by
  intro n y hy
  unfold depsUniverse
  rw [List.mem_dedup]
  exact List.mem_append.mpr (Or.inr (depsGet_subset_flatten deps n y hy))

/-- Embedding of `_get_dependencies(start_nodes, dependencies)`. -/
def getDependencies (deps : List (Nat × List Nat)) (start : List Nat) :
    List Nat :=
  getDepsAux deps (depsUniverse deps start)
    (depsGet_mem_universe deps start) [] start.dedup
    (List.nodup_dedup start)
    (by intro x _ h; cases h)
    (by
      intro x hx
      unfold depsUniverse
      rw [List.mem_dedup]
      exact List.mem_append.mpr
        (Or.inl (List.mem_append.mpr (Or.inl (List.mem_dedup.mp hx)))))

/-- The exception surface of the engine (§7 of the spec).  Every error
the engine raises or catches is a Python `Exception` subclass; the
constructors record the taxonomy discriminator.  `userError` stands for
an arbitrary exception raised by a user-supplied `process`. -/
inductive Exc where
  | unicityViolation
  | cycleDetected
  | unknownInput
  | upstreamNotComputed (id : Nat)
  | typeMismatch
  | prepMissingPersist
  | keyError
  | recursionLimit
  | userError (code : Nat)
deriving DecidableEq, Repr

/-- Embedding of `nodes = keys ∪ union(values)` of the dict, as
collected at the top of `_topo_sort`. -/
def allNodes (deps : List (Nat × List Nat)) : List Nat :=
  (deps.map Prod.fst ++ (deps.map Prod.snd).flatten).dedup

/-- The in-degree assigned by `_topo_sort`: one unit per direct
dependency of the node (zero for nodes that are not keys). -/
def indeg0 (deps : List (Nat × List Nat)) (n : Nat) : Int :=
  ((depsGet deps n).length : Int)

/-- The reverse-dependency adjacency of `_topo_sort`: all keys whose
dependency set contains `d`, in dict order. -/
def revAdj (deps : List (Nat × List Nat)) (d : Nat) : List Nat :=
  (deps.filter fun p => decide (d ∈ p.2)).map Prod.fst

/-- The `for neighbor in reverse_graph[node]:` body: decrement each
neighbor's in-degree, enqueue it when the count reaches exactly zero. -/
def processNeighbors : (indeg : Nat → Int) → (queue : List Nat) →
    (nbs : List Nat) → (Nat → Int) × List Nat
  | indeg, queue, [] => (indeg, queue)
  | indeg, queue, nb :: nbs =>
      let indeg2 := fun x => if x = nb then indeg x - 1 else indeg x
      let queue2 := if indeg2 nb = 0 then queue ++ [nb] else queue
      processNeighbors indeg2 queue2 nbs

/-- Pointwise decrement of an integer map on the members of a list. -/
def decrAt (indeg : Nat → Int) (nbs : List Nat) : Nat → Int :=
  fun x => if x ∈ nbs then indeg x - 1 else indeg x

theorem decrAt_nil (f : Nat → Int) : decrAt f [] = f := by
  funext x
  simp [decrAt]

theorem decrAt_cons {s : Nat} {S : List Nat} (hs : s ∉ S) (f : Nat → Int) :
    decrAt f (s :: S) = decrAt (fun x => if x = s then f x - 1 else f x) S := by
  funext x
  simp only [decrAt, List.mem_cons]
  by_cases hx1 : x ∈ S
  · have hxne : x ≠ s := by
      intro h
      exact hs (h ▸ hx1)
    rw [if_pos (Or.inr hx1), if_pos hx1, if_neg hxne]
  · rcases eq_or_ne x s with rfl | hne
    · rw [if_pos (Or.inl rfl), if_neg hx1, if_pos rfl]
    · rw [if_neg (by
        rintro (h | h)
        · exact hne h
        · exact hx1 h), if_neg hx1, if_neg hne]

theorem filter_eq_one_congr {s : Nat} {S : List Nat} (hs : s ∉ S)
    (f : Nat → Int) :
    (S.filter fun x => (if x = s then f x - 1 else f x) == 1)
      = S.filter fun x => f x == 1 := by
  apply List.filter_congr
  intro x hx
  rw [if_neg (by
    intro h
    exact hs (h ▸ hx))]

theorem processNeighbors_closed :
    ∀ (nbs : List Nat), nbs.Nodup → ∀ (indeg : Nat → Int) (queue : List Nat),
    processNeighbors indeg queue nbs =
      (decrAt indeg nbs, queue ++ nbs.filter fun nb => indeg nb == 1) := by
  intro nbs
  induction nbs with
  | nil =>
      intro _ indeg queue
      simp [processNeighbors, decrAt_nil]
  | cons nb nbs ih =>
      intro hnd indeg queue
      obtain ⟨hnb, hnds⟩ := List.nodup_cons.mp hnd
      rw [processNeighbors]
      rw [ih hnds]
      simp only [Prod.mk.injEq]
      refine ⟨(decrAt_cons hnb indeg).symm, ?_⟩
      rw [filter_eq_one_congr hnb indeg]
      by_cases hone : indeg nb = 1
      · rw [if_pos (by simp [hone]), List.filter_cons,
            if_pos (by simpa using hone), List.append_assoc]
        rfl
      · rw [if_neg (by simp; omega), List.filter_cons,
            if_neg (by simpa using hone)]

/-- Remaining in-degree weight: the termination measure of the Kahn
loop is this weight plus the queue length. -/
def degWeight (nodes : List Nat) (indeg : Nat → Int) : Nat :=
  (nodes.map fun n => (indeg n).toNat).sum

theorem degWeight_cons (a : Nat) (nodes : List Nat) (f : Nat → Int) :
    degWeight (a :: nodes) f = (f a).toNat + degWeight nodes f := by
  simp [degWeight]

theorem degWeight_mono (nodes : List Nat) (f g : Nat → Int)
    (h : ∀ n, (g n).toNat ≤ (f n).toNat) :
    degWeight nodes g ≤ degWeight nodes f := by
  induction nodes with
  | nil => simp [degWeight]
  | cons a nodes ih =>
      rw [degWeight_cons, degWeight_cons]
      exact Nat.add_le_add (h a) ih

theorem degWeight_pointDec (s : Nat) (f : Nat → Int) :
    ∀ (nodes : List Nat), s ∈ nodes →
    degWeight nodes (fun x => if x = s then f x - 1 else f x)
      + (if f s == 1 then 1 else 0) ≤ degWeight nodes f := by
  intro nodes
  induction nodes with
  | nil => intro hs; cases hs
  | cons a nodes ih =>
      intro hs
      rw [degWeight_cons, degWeight_cons]
      have hhead : ((if a = s then f a - 1 else f a)).toNat
          + (if f s == 1 then 1 else 0) ≤ (f a).toNat
          ∨ (((if a = s then f a - 1 else f a)).toNat ≤ (f a).toNat
             ∧ s ∈ nodes) := by
        rcases eq_or_ne a s with rfl | hne
        · refine Or.inl ?_
          rw [if_pos rfl]
          by_cases h1 : f a = 1
          · simp [h1]
          · rw [if_neg (by simpa using h1)]
            omega
        · refine Or.inr ⟨by rw [if_neg hne], ?_⟩
          rcases List.mem_cons.mp hs with h | h
          · exact absurd h.symm hne
          · exact h
      rcases hhead with h | ⟨hle, hmem⟩
      · have htail : degWeight nodes (fun x => if x = s then f x - 1 else f x)
            ≤ degWeight nodes f := by
          apply degWeight_mono
          intro n
          split
          · omega
          · exact Nat.le_refl _
        omega
      · have := ih hmem
        omega

theorem degWeight_decrAt (nodes : List Nat) :
    ∀ (S : List Nat), S.Nodup → (∀ x ∈ S, x ∈ nodes) → ∀ (f : Nat → Int),
    degWeight nodes (decrAt f S) + (S.filter fun x => f x == 1).length
      ≤ degWeight nodes f := by
  intro S
  induction S with
  | nil =>
      intro _ _ f
      simp [decrAt_nil]
  | cons s S ih =>
      intro hnd hsub f
      obtain ⟨hs, hS⟩ := List.nodup_cons.mp hnd
      rw [decrAt_cons hs, List.filter_cons]
      have hih := ih hS (fun x hx => hsub x (List.mem_cons_of_mem _ hx))
        (fun x => if x = s then f x - 1 else f x)
      rw [filter_eq_one_congr hs f] at hih
      have hpt := degWeight_pointDec s f nodes (hsub s (List.mem_cons_self _ _))
      by_cases h1 : f s = 1
      · rw [if_pos (by simpa using h1)]
        simp only [List.length_cons]
        rw [if_pos (by simpa using h1)] at hpt
        omega
      · rw [if_neg (by simpa using h1)]
        rw [if_neg (by simpa using h1)] at hpt
        omega

theorem revAdj_nodup (deps : List (Nat × List Nat))
    (hk : (deps.map Prod.fst).Nodup) (d : Nat) : (revAdj deps d).Nodup := by
  unfold revAdj
  exact List.Nodup.sublist (List.Sublist.map Prod.fst (List.filter_sublist _)) hk

theorem revAdj_subset_allNodes (deps : List (Nat × List Nat)) (d : Nat) :
    ∀ x ∈ revAdj deps d, x ∈ allNodes deps := by
  intro x hx
  unfold revAdj at hx
  unfold allNodes
  rw [List.mem_dedup, List.mem_append]
  obtain ⟨p, hp, rfl⟩ := List.mem_map.mp hx
  exact Or.inl (List.mem_map_of_mem _ (List.mem_of_mem_filter hp))

/-- The `while queue:` loop of `_topo_sort`: pop the queue front, append
it to the topological order, decrement its reverse-neighbors and
enqueue those whose in-degree reaches zero.  The dict invariant
(distinct keys) makes the reverse adjacency duplicate-free, which the
termination measure relies on. -/
def kahnLoop (deps : List (Nat × List Nat))
    (hk : (deps.map Prod.fst).Nodup) :
    (queue : List Nat) → (indeg : Nat → Int) → (order : List Nat) → List Nat
  | [], _, order => order
  | node :: rest, indeg, order =>
      kahnLoop deps hk
        (processNeighbors indeg rest (revAdj deps node)).2
        (processNeighbors indeg rest (revAdj deps node)).1
        (order ++ [node])
termination_by queue indeg _ => queue.length + degWeight (allNodes deps) indeg
decreasing_by
  rw [processNeighbors_closed (revAdj deps node) (revAdj_nodup deps hk node)]
  simp only [List.length_cons, List.length_append]
  have := degWeight_decrAt (allNodes deps) (revAdj deps node)
    (revAdj_nodup deps hk node) (revAdj_subset_allNodes deps node) indeg
  omega

/-- Embedding of `_topo_sort(dependencies)`: Kahn topological sort;
raises the cycle error when the order misses nodes. -/
def topoSort (deps : List (Nat × List Nat))
    (hk : (deps.map Prod.fst).Nodup) : Except Exc (List Nat) :=
  let order := kahnLoop deps hk
    ((allNodes deps).filter fun n => indeg0 deps n == 0) (indeg0 deps) []
  if order.length = (allNodes deps).length then Except.ok order
  else Except.error Exc.cycleDetected

theorem getDepsAux_nodup (deps : List (Nat × List Nat)) (univ : List Nat)
    (hU : ∀ n y, y ∈ depsGet deps n → y ∈ univ) :
    ∀ (visited toCheck : List Nat) h1 h2 h3, visited.Nodup →
    (getDepsAux deps univ hU visited toCheck h1 h2 h3).Nodup := by
  intro visited toCheck h1 h2 h3
  induction visited, toCheck, h1, h2, h3 using getDepsAux.induct deps univ hU with
  | case1 visited h1 h2 h3 _ _ _ =>
      intro hv
      rw [getDepsAux]
      exact hv
  | case2 visited node rest hnd hdisj htc _ _ _ ih =>
      intro hv
      rw [getDepsAux]
      exact ih (List.Nodup.cons (hdisj node (List.mem_cons_self _ _)) hv)

theorem getDependencies_nodup (deps : List (Nat × List Nat))
    (start : List Nat) : (getDependencies deps start).Nodup := by
  unfold getDependencies
  exact getDepsAux_nodup _ _ _ _ _ _ _ _ List.nodup_nil

/-- Embedding of `topo_sort_subgraph(start_nodes, dependencies)`:
restrict the dict to the nodes reachable from `start`, then Kahn-sort
the restriction. -/
def topoSortSubgraph (start : List Nat) (deps : List (Nat × List Nat)) :
    Except Exc (List Nat) :=
  topoSort
    ((getDependencies deps start).map fun n =>
      (n, (depsGet deps n).filter fun d => decide (d ∈ getDependencies deps start)))
    (by
      have hmap : ∀ (l : List Nat), (l.map fun n =>
          (n, (depsGet deps n).filter fun d =>
            decide (d ∈ getDependencies deps start))).map Prod.fst = l := by
        intro l
        induction l with
        | nil => rfl
        | cons a l ih =>
            simp only [List.map_cons]
            rw [ih]
      rw [hmap]
      exact getDependencies_nodup deps start)

/-!
### internal_graph_node.py: the per-node record

Node records live in a heap keyed by the node id: Python object
references between `AddedNode`s become ids resolved through the heap,
which also models shared mutable state.
-/

/-- Version labels are `int | str` in the source. -/
inductive PVer where
  | int (n : Int)
  | str (s : String)
deriving DecidableEq, Repr

/-- Entry of `AddedNode.inputs`: a reference to another `AddedNode`
(`isinstance(input_val, AddedNode)`) or a literal value. -/
inductive InputVal where
  | ref (id : Nat)
  | lit (v : PyVal)

/-- Behavior of a processor class (`process_node.ProcessNode`): the
class-level `name()` plus the `process` and `validate_args` of the
instance its constructor would build (the constructor arguments are
already closed over).  User code may raise, hence `Except`. -/
structure ProcClass where
  pname : String
  processFn : List (String × PyVal) → Except Exc PyVal
  validateFn : List (String × PyVal) → Except Exc Unit

/-- Embedding of `AddedNode` (internal_graph_node.py).  The lazily
created `_lazy_node` instance is abstracted to the flag `lazy_inited`;
the instance behavior lives in `pclass`.  A result of Python `None` is
`PyVal.none`; "no result" is `result_timestamp = Option.none`. -/
structure NodeRec where
  id : Nat
  version : PVer
  pclass : ProcClass
  inputs : List (String × InputVal)
  invalidate_before : Rat
  manual_override : Option (PyVal → List (String × PyVal) → PyVal)
  dry_run : Bool
  passive : Bool
  default_arg_to_set : Option String
  was_overridden : Bool
  result : PyVal
  result_version : PVer
  result_timestamp : Option Rat
  time : Option Rat
  lazy_inited : Bool

/-- Embedding of `AddedNode.has_result()`. -/
def hasResult (n : NodeRec) : Bool :=
  n.result_timestamp.isSome

/-- Embedding of the `meta` sub-document written by `to_persist`:
`overriden` and `passive` keys are present only when set. -/
structure MetaDoc where
  output_ts : Option Rat
  time : Option Rat
  overriden : Option Bool
  passive : Option Bool

/-- Embedding of a persisted node document (§6.1 of the spec).  `Option`
fields model key presence, which `from_persist` tests with `in`;
`legacy_output_ts` is the obsolete record-level `output_ts` key. -/
structure PersistDoc where
  name : String
  output : PyVal
  version : Option PVer
  legacy_output_ts : Option (Option Rat)
  meta : Option MetaDoc

/-- Observable side effects of the engine: processor instantiation,
`process` invocation, `finalize` invocation, and the file-system
operations of `_save_to`.  `rename` is included because the spec's
atomic-write discipline would require it; the engine as written never
emits it. -/
inductive Ev where
  | instantiate (id : Nat)
  | processCall (id : Nat)
  | finalizeCall (id : Nat)
  | makedirs (dir : String)
  | writeFile (path : String) (doc : List (Nat × PersistDoc))
  | rename (src dst : String)

/-- Embedding of `AddedNode.to_persist()`. -/
def toPersist (n : NodeRec) : PersistDoc :=
  { name := n.pclass.pname
    output := n.result
    version := Option.some n.result_version
    legacy_output_ts := Option.none
    meta := Option.some
      { output_ts := n.result_timestamp
        time := n.time
        overriden := if n.was_overridden then Option.some true else Option.none
        passive := if n.passive then Option.some true else Option.none } }

/-- Embedding of `AddedNode.from_persist(saved_result)`.  A `name`
mismatch only logs a warning; loading proceeds regardless. -/
def fromPersist (n : NodeRec) (d : PersistDoc) : NodeRec :=
  let n1 := { n with result := d.output }
  let n2 := match d.version with
    | Option.some v => { n1 with result_version := v }
    | Option.none => n1
  let n3 := match d.legacy_output_ts with
    | Option.some ts => { n2 with result_timestamp := ts }
    | Option.none => n2
  match d.meta with
  | Option.some m =>
      let n4 := { n3 with result_timestamp := m.output_ts, time := m.time }
      match m.overriden with
      | Option.some b => { n4 with was_overridden := b }
      | Option.none => n4
  | Option.none => n3

/-- Embedding of `AddedNode.reset()`. -/
def resetNode (n : NodeRec) : NodeRec :=
  { n with result := PyVal.none
           result_timestamp := Option.none
           time := Option.none }

/-- Embedding of `AddedNode.release_resources()`: finalize and drop the
processor instance when it exists, then reset. -/
def releaseNode (n : NodeRec) : NodeRec × List Ev :=
  if n.lazy_inited then
    (resetNode { n with lazy_inited := false }, [Ev.finalizeCall n.id])
  else
    (resetNode n, [])

/-- Embedding of `AddedNode._needs_update()`, dependency scan: first
input that is a non-passive node reference with a result strictly newer
than `ts` triggers the update. -/
def needsUpdateInputs (look : Nat → Option NodeRec) (ts : Rat) :
    List (String × InputVal) → Bool
  | [] => false
  | (_, InputVal.lit _) :: rest => needsUpdateInputs look ts rest
  | (_, InputVal.ref u) :: rest =>
      match look u with
      | Option.some un =>
          match un.result_timestamp with
          | Option.some uts =>
              if (!un.passive) && decide (ts < uts) then true
              else needsUpdateInputs look ts rest
          | Option.none => needsUpdateInputs look ts rest
      | Option.none => needsUpdateInputs look ts rest

/-- Embedding of `AddedNode._needs_update()` (internal_graph_node.py):
passive, then missing result, then version mismatch, then
`invalidate_before`, then newer non-passive upstream. -/
def needsUpdate (look : Nat → Option NodeRec) (n : NodeRec) : Bool :=
  if n.passive then true
  else
    match n.result_timestamp with
    | Option.none => true
    | Option.some ts =>
        if n.result_version ≠ n.version then true
        else if ts < n.invalidate_before then true
        else needsUpdateInputs look ts n.inputs

/-- Staleness rule exactly as the claim words it, modelled from the
spec: six ordered rules, the upstream rule quantifying over the inputs
that are non-passive node references carrying a result. -/
def needsUpdateSpec (look : Nat → Option NodeRec) (n : NodeRec) : Bool :=
  if n.passive then true
  else if n.result_timestamp.isNone then true
  else if n.result_version ≠ n.version then true
  else if decide (n.result_timestamp.getD 0 < n.invalidate_before) then true
  else if n.inputs.any fun p =>
      match p.2 with
      | InputVal.ref u =>
          match look u with
          | Option.some un =>
              (!un.passive) && un.result_timestamp.isSome &&
                decide (n.result_timestamp.getD 0 < un.result_timestamp.getD 0)
          | Option.none => false
      | InputVal.lit _ => false
    then true
  else false


/-!
### process_graph.py: graph state and execution

The graph driver state: the heap of node records (dict order
preserved), the dependency map, the bound auto-save path, and the time
source.  `times` is the stream of values returned by successive
`time.time()` / `datetime.now().timestamp()` calls; `clock` counts how
many have been consumed.
-/

/-- State of a `ProcessGraph` together with its nodes. -/
structure GState where
  nodes : List (Nat × NodeRec)
  deps : List (Nat × List Nat)
  autoSavePath : Option String
  times : Nat → Rat
  clock : Nat

/-- Heap lookup by node id. -/
def lookupNode : List (Nat × NodeRec) → Nat → Option NodeRec
  | [], _ => Option.none
  | (k, v) :: rest, n => if k = n then Option.some v else lookupNode rest n

/-- Heap update by node id (mutation of a shared `AddedNode`). -/
def setNode : List (Nat × NodeRec) → Nat → NodeRec → List (Nat × NodeRec)
  | [], _, _ => []
  | (k, v) :: rest, n, nv =>
      if k = n then (k, nv) :: rest else (k, v) :: setNode rest n nv

/-- Embedding of the `AddedNode._node` property access: instantiate the
processor class on first touch. -/
def touchInstance (s : GState) (id : Nat) : GState × List Ev :=
  match lookupNode s.nodes id with
  | Option.none => (s, [])
  | Option.some n =>
      if n.lazy_inited then (s, [])
      else ({ s with nodes := setNode s.nodes id { n with lazy_inited := true } },
            [Ev.instantiate id])

/-- Embedding of `os.path.dirname`. -/
def dirName (p : String) : String :=
  String.intercalate "/" ((p.splitOn "/").dropLast)

/-- Module-level `DRY_RUN` flag of process_graph.py (`False` in the
source). -/
def DRY_RUN : Bool := false

/-- Embedding of `ProcessGraph.results_dict`: one persisted document
per node that has a result, in dict order. -/
def resultsDict (s : GState) : List (Nat × PersistDoc) :=
  (s.nodes.filter fun p => hasResult p.2).map fun p => (p.1, toPersist p.2)

/-- Embedding of `ProcessGraph._save_to(path)`: when not in dry-run,
ensure the directory exists, open the target path for writing and dump
the serialized results dict into it.  The whole document is rewritten;
no temporary file and no rename is involved. -/
def saveTo (s : GState) (path : String) : List Ev :=
  if DRY_RUN then []
  else [Ev.makedirs (dirName path), Ev.writeFile path (resultsDict s)]

/-- Embedding of `ProcessGraph._on_node_result`: auto-save when a
persistence path is bound. -/
def onNodeResult (s : GState) : List Ev :=
  match s.autoSavePath with
  | Option.some p => saveTo s p
  | Option.none => []

/-- Embedding of `ProcessGraph.release_resources()`: release every
node, in dict order. -/
def releaseAll (s : GState) : GState × List Ev :=
  ({ s with nodes := s.nodes.map fun p => (p.1, (releaseNode p.2).1) },
   s.nodes.flatMap fun p => (releaseNode p.2).2)

mutual

/-- Embedding of the input loop of `AddedNode._filled_in_inputs`:
resolve each input; a node reference must have a result
(`UpstreamNotComputed` otherwise) and contributes its overridden
result. -/
def fillInputs (fuel : Nat) (s : GState) :
    List (String × InputVal) → GState × List Ev × Except Exc (List (String × PyVal))
  | [] => (s, [], Except.ok [])
  | (nm, InputVal.lit v) :: rest =>
      match fillInputs fuel s rest with
      | (s2, ev2, Except.error e) => (s2, ev2, Except.error e)
      | (s2, ev2, Except.ok kws) => (s2, ev2, Except.ok ((nm, v) :: kws))
  | (nm, InputVal.ref u) :: rest =>
      match lookupNode s.nodes u with
      | Option.none => (s, [], Except.error Exc.keyError)
      | Option.some un =>
          if hasResult un then
            match overridenResult fuel s u with
            | (s1, ev1, Except.error e) => (s1, ev1, Except.error e)
            | (s1, ev1, Except.ok v) =>
                match fillInputs fuel s1 rest with
                | (s2, ev2, Except.error e) => (s2, ev1 ++ ev2, Except.error e)
                | (s2, ev2, Except.ok kws) =>
                    (s2, ev1 ++ ev2, Except.ok ((nm, v) :: kws))
          else (s, [], Except.error (Exc.upstreamNotComputed un.id))
termination_by inputs => (fuel, 1, inputs.length)

/-- Embedding of the `AddedNode._overriden_result` property: without an
override hook, the raw result; with one, the hook applied to the result
and the node's own filled-in inputs, setting the sticky
`was_overridden` flag when the value changed.  Python recursion depth
is finite; exceeding the fuel is a `RecursionError`. -/
def overridenResult (fuel : Nat) (s : GState) (uid : Nat) :
    GState × List Ev × Except Exc PyVal :=
  match lookupNode s.nodes uid with
  | Option.none => (s, [], Except.error Exc.keyError)
  | Option.some un =>
      match un.manual_override with
      | Option.none => (s, [], Except.ok un.result)
      | Option.some f =>
          match fuel with
          | 0 => (s, [], Except.error Exc.recursionLimit)
          | fuel2 + 1 =>
              match filledInInputs fuel2 s uid with
              | (s1, ev1, Except.error e) => (s1, ev1, Except.error e)
              | (s1, ev1, Except.ok kwargs) =>
                  match lookupNode s1.nodes uid with
                  | Option.none => (s1, ev1, Except.error Exc.keyError)
                  | Option.some un1 =>
                      let newRes := f un.result kwargs
                      if pyEq un1.result newRes then (s1, ev1, Except.ok newRes)
                      else
                        ({ s1 with nodes :=
                            setNode s1.nodes uid ({ un1 with was_overridden := true }) },
                         ev1, Except.ok newRes)
termination_by (fuel, 0, 0)

/-- Embedding of `AddedNode._filled_in_inputs`: resolve the inputs,
then access `self._node` (instantiating the processor on first touch)
and validate the resolved arguments. -/
def filledInInputs (fuel : Nat) (s : GState) (id : Nat) :
    GState × List Ev × Except Exc (List (String × PyVal)) :=
  match lookupNode s.nodes id with
  | Option.none => (s, [], Except.error Exc.keyError)
  | Option.some n =>
      match fillInputs fuel s n.inputs with
      | (s1, ev1, Except.error e) => (s1, ev1, Except.error e)
      | (s1, ev1, Except.ok kwargs) =>
          match touchInstance s1 id with
          | (s2, ev2) =>
              match n.pclass.validateFn kwargs with
              | Except.error e => (s2, ev1 ++ ev2, Except.error e)
              | Except.ok _ => (s2, ev1 ++ ev2, Except.ok kwargs)
termination_by (fuel, 2, 0)

end

/-- Embedding of `AddedNode._refresh_result()`: fill the inputs, read
the wall clock, run `process` (skipped under `dry_run`), store the
result with its metadata, and fire the result callback (which
auto-saves when a persistence path is bound). -/
def refreshResult (fuel : Nat) (s : GState) (id : Nat) :
    GState × List Ev × Except Exc Unit :=
  match filledInInputs fuel s id with
  | (s1, ev1, Except.error e) => (s1, ev1, Except.error e)
  | (s1, ev1, Except.ok kwargs) =>
      match lookupNode s1.nodes id with
      | Option.none => (s1, ev1, Except.error Exc.keyError)
      | Option.some n =>
          let tStart := s1.times s1.clock
          let s2 := { s1 with clock := s1.clock + 1 }
          if n.dry_run then
            let tEnd := s2.times s2.clock
            let stamp := s2.times (s2.clock + 1)
            let n2 := { n with result := PyVal.none
                               time := Option.some (tEnd - tStart)
                               result_timestamp := Option.some stamp
                               result_version := n.version }
            let s3 := { s2 with clock := s2.clock + 2
                                nodes := setNode s2.nodes id n2 }
            (s3, ev1 ++ onNodeResult s3, Except.ok ())
          else
            match n.pclass.processFn kwargs with
            | Except.error e => (s2, ev1 ++ [Ev.processCall id], Except.error e)
            | Except.ok v =>
                let tEnd := s2.times s2.clock
                let stamp := s2.times (s2.clock + 1)
                let n2 := { n with result := v
                                   time := Option.some (tEnd - tStart)
                                   result_timestamp := Option.some stamp
                                   result_version := n.version }
                let s3 := { s2 with clock := s2.clock + 2
                                    nodes := setNode s2.nodes id n2 }
                (s3, ev1 ++ [Ev.processCall id] ++ onNodeResult s3, Except.ok ())

/-- Embedding of `AddedNode.internal_run()`: refresh when stale, then
return the (possibly precomputed) result. -/
def internalRun (fuel : Nat) (s : GState) (id : Nat) :
    GState × List Ev × Except Exc PyVal :=
  match lookupNode s.nodes id with
  | Option.none => (s, [], Except.error Exc.keyError)
  | Option.some n =>
      if needsUpdate (lookupNode s.nodes) n then
        match refreshResult fuel s id with
        | (s1, ev, Except.error e) => (s1, ev, Except.error e)
        | (s1, ev, Except.ok _) =>
            match lookupNode s1.nodes id with
            | Option.none => (s1, ev, Except.error Exc.keyError)
            | Option.some n2 => (s1, ev, Except.ok n2.result)
      else (s, [], Except.ok n.result)

/-- Embedding of the loop of `ProcessGraph.run_upto`: run the sorted
nodes in order, keeping the last result. -/
def runList (fuel : Nat) (s : GState) :
    List Nat → PyVal → GState × List Ev × Except Exc PyVal
  | [], last => (s, [], Except.ok last)
  | id :: rest, _ =>
      match internalRun fuel s id with
      | (s1, ev1, Except.error e) => (s1, ev1, Except.error e)
      | (s1, ev1, Except.ok v) =>
          match runList fuel s1 rest v with
          | (s2, ev2, r) => (s2, ev1 ++ ev2, r)

/-- Embedding of `ProcessGraph.run_upto(final_nodes)`: topologically
sort the reachable subgraph, then run each node in order. -/
def runUpto (s : GState) (targets : List Nat) :
    GState × List Ev × Except Exc PyVal :=
  match topoSortSubgraph targets s.deps with
  | Except.error e => (s, [], Except.error e)
  | Except.ok order => runList (s.nodes.length + 1) s order PyVal.none


/-!
### process_graph.py: process_batch

User-supplied `prep_fn` / `post_fn` are arbitrary graph-state
transformers that may also raise; node execution is the engine's own
`internalRun`.  `BCall` instruments the control flow: one entry per
`prep_fn` call, per `self._run_only(node)` call, and per `post_fn`
call (recording the completed count at call time).
-/

/-- Embedding of `_BatchFailure`: the failed-node handle is its id. -/
structure BatchFailure where
  item_index : Nat
  item : PyVal
  failed_node : Nat
  exception : Exc

/-- Embedding of `_BatchStats`. -/
structure BatchStats where
  completed : Nat
  failures : List BatchFailure

/-- Control-flow log of `process_batch`: which hook and engine calls
were made, in order.  `postCall` records the completed count at the
moment `post_fn` is invoked. -/
inductive BCall where
  | prepCall (itemIndex : Nat)
  | runCall (nodeId : Nat) (itemIndex : Nat)
  | postCall (itemIndex : Nat) (completedSoFar : Nat)

/-- Type of the user-supplied `prep_fn` / `post_fn` hooks: a state
transformer over the graph that may raise. -/
def HookFn : Type :=
  Nat → PyVal → GState → GState × Except Exc Unit

/-- Accumulated state of a `process_batch` run. -/
structure BatchSt where
  g : GState
  stats : BatchStats
  errIdx : List Nat
  log : List BCall
  evs : List Ev

/-- Embedding of the inner `for item_index, item in enumerate(...)` loop
of `process_batch` for one node: skip poisoned items, clear and demand
the auto-save path around `prep_fn`, guard only the node-execution call
with the fault-tolerance `try`, count completion on the last node, and
call `post_fn`.  Returns the first uncaught exception, if any. -/
def batchItems (fuel : Nat) (prep : HookFn) (post : Option HookFn)
    (ft : Bool) (nodeId : Nat) (isLast : Bool) :
    List (Nat × PyVal) → BatchSt → BatchSt × Option Exc
  | [], st => (st, Option.none)
  | (idx, item) :: rest, st =>
      if idx ∈ st.errIdx then
        batchItems fuel prep post ft nodeId isLast rest st
      else
        let g1 := { st.g with autoSavePath := Option.none }
        match prep idx item g1 with
        | (g2, Except.error e) =>
            ({ st with g := g2, log := st.log ++ [BCall.prepCall idx] },
             Option.some e)
        | (g2, Except.ok _) =>
            let st1 := { st with g := g2, log := st.log ++ [BCall.prepCall idx] }
            if g2.autoSavePath.isNone then
              (st1, Option.some Exc.prepMissingPersist)
            else
              match internalRun fuel g2 nodeId with
              | (g3, ev, Except.error e) =>
                  let st2 := { st1 with g := g3
                                        evs := st1.evs ++ ev
                                        log := st1.log ++ [BCall.runCall nodeId idx] }
                  if ft then
                    batchItems fuel prep post ft nodeId isLast rest
                      { st2 with
                        errIdx := st2.errIdx ++ [idx]
                        stats := { st2.stats with failures :=
                          st2.stats.failures ++ [⟨idx, item, nodeId, e⟩] } }
                  else
                    (st2, Option.some e)
              | (g3, ev, Except.ok _) =>
                  let st2 := { st1 with g := g3
                                        evs := st1.evs ++ ev
                                        log := st1.log ++ [BCall.runCall nodeId idx] }
                  let st3 :=
                    if isLast then
                      { st2 with stats :=
                        { st2.stats with completed := st2.stats.completed + 1 } }
                    else st2
                  match post with
                  | Option.none =>
                      batchItems fuel prep post ft nodeId isLast rest st3
                  | Option.some pf =>
                      let st4 := { st3 with log :=
                        st3.log ++ [BCall.postCall idx st3.stats.completed] }
                      match pf idx item st4.g with
                      | (g4, Except.error e) =>
                          ({ st4 with g := g4 }, Option.some e)
                      | (g4, Except.ok _) =>
                          batchItems fuel prep post ft nodeId isLast rest
                            { st4 with g := g4 }

/-- Embedding of the outer node loop of `process_batch`: node-major
order, releasing resources after designated nodes. -/
def batchNodes (fuel : Nat) (prep : HookFn) (post : Option HookFn)
    (ft : Bool) (releaseAfter : Option (List Nat))
    (items : List (Nat × PyVal)) :
    List Nat → BatchSt → BatchSt × Option Exc
  | [], st => (st, Option.none)
  | nodeId :: restNodes, st =>
      match batchItems fuel prep post ft nodeId restNodes.isEmpty items st with
      | (st1, Option.some e) => (st1, Option.some e)
      | (st1, Option.none) =>
          let st2 :=
            match releaseAfter with
            | Option.some ras =>
                if nodeId ∈ ras then
                  match releaseAll st1.g with
                  | (g, ev) => { st1 with g := g, evs := st1.evs ++ ev }
                else st1
            | Option.none => st1
          batchNodes fuel prep post ft releaseAfter items restNodes st2

/-- Embedding of `ProcessGraph.process_batch`: topologically sort the
targets (cycle errors propagate), loop nodes breadth-first over the
items, and finally release resources unconditionally.  An exception
returned in the second component aborted the batch (Python `raise`);
a returned `BatchStats` is a normal completion. -/
def processBatch (s : GState) (items : List PyVal) (finalNodes : List Nat)
    (prep : HookFn) (post : Option HookFn)
    (releaseAfter : Option (List Nat)) (ft : Bool) :
    BatchSt × Except Exc BatchStats :=
  let st0 : BatchSt :=
    { g := s, stats := { completed := 0, failures := [] }
      errIdx := [], log := [], evs := [] }
  match topoSortSubgraph finalNodes s.deps with
  | Except.error e => (st0, Except.error e)
  | Except.ok order =>
      match batchNodes (s.nodes.length + 1) prep post ft releaseAfter
          items.enum order st0 with
      | (st1, Option.some e) => (st1, Except.error e)
      | (st1, Option.none) =>
          match releaseAll st1.g with
          | (g, ev) =>
              let st2 := { st1 with g := g, evs := st1.evs ++ ev }
              (st2, Except.ok st2.stats)



/-!
### Concrete fixtures used by witnesses and counterexamples
-/

/-- Processor class that validates anything and computes `None`. -/
def trivialClass : ProcClass :=
  { pname := "t"
    processFn := fun _ => Except.ok PyVal.none
    validateFn := fun _ => Except.ok () }

/-- Default-initialized node record, as `add_node` would create it with
all optional features off. -/
def mkNode (id : Nat) : NodeRec :=
  { id := id
    version := PVer.int 0
    pclass := trivialClass
    inputs := []
    invalidate_before := 0
    manual_override := Option.none
    dry_run := false
    passive := false
    default_arg_to_set := Option.none
    was_overridden := false
    result := PyVal.none
    result_version := PVer.int 0
    result_timestamp := Option.none
    time := Option.none
    lazy_inited := false }


/-- Modelled from the spec: the §5/§9 atomic-write discipline.  A write
of the results document to `path` is atomic when the document is first
written to a sibling temporary file (same directory, different name)
which is then renamed over the target. -/
def atomicWritePattern (evs : List Ev) (path : String) : Prop :=
  ∃ (pre : List Ev) (tmp : String) (doc : List (Nat × PersistDoc)),
    tmp ≠ path ∧ dirName tmp = dirName path ∧
    evs = pre ++ [Ev.writeFile tmp doc, Ev.rename tmp path]

/-- Graph fixture with one computed result and a bound auto-save path,
used for the persistence-write counterexample and witness. -/
def c5State : GState :=
  { nodes := [(1, { mkNode 1 with
                    result := PyVal.int 3,
                    result_timestamp := Option.some 7 })]
    deps := [(1, [])]
    autoSavePath := Option.some "out/results.json"
    times := fun _ => 0
    clock := 0 }


/-- Fixture for the dry-run claim: a `dry_run` node with a literal
input and no processor instance yet. -/
def c4Node : NodeRec :=
  { mkNode 1 with dry_run := true, inputs := [("a", InputVal.lit (PyVal.int 1))] }

/-- Graph fixture holding `c4Node` only. -/
def c4State : GState :=
  { nodes := [(1, c4Node)], deps := [(1, [])], autoSavePath := Option.none,
    times := fun _ => 0, clock := 0 }


/-- Direct-dependency relation of a dependency dict: `a` depends on
`b`. -/
def dependsOn (deps : List (Nat × List Nat)) (a b : Nat) : Prop :=
  b ∈ depsGet deps a

/-- Reachability from a set of start nodes along dependencies (each
start node reaches itself). -/
def ReachFrom (deps : List (Nat × List Nat)) (start : List Nat)
    (x : Nat) : Prop :=
  ∃ s ∈ start, Relation.ReflTransGen (dependsOn deps) s x

/-- Number of direct dependencies of `n` not yet placed in `o`. -/
def missingCount (deps : List (Nat × List Nat)) (o : List Nat)
    (n : Nat) : Nat :=
  ((depsGet deps n).filter fun d => decide (d ∉ o)).length


/-- Three-node chain fixture for the topological-sort witness. -/
def tdeps6 : List (Nat × List Nat) := [(1, []), (2, [1]), (3, [1, 2])]

/-!
## Theorems
-/

/-- C3 (code bug): the §4.2 type-checker matrix against the embedded
`type_util.matches`.  Five of the six cells hold, but
`matches(True, int)` evaluates to `True` in the source, because the
simple-type branch falls through to Python `isinstance` and
`isinstance(True, int)` is `True` (`bool` subclasses `int`).  The
claim, the spec matrix ("Integer: integer, not boolean") and the
function's own docstring ("int: ... (but not bool)") require `False`,
as the spec-modelled `specIntegerRule` records: the boolean-rejection
rule for the integer descriptor is not implemented. -/
theorem C3_matches_matrix_bool_int_divergence :
    pyMatches (PyVal.bool true) PyType.intT = true ∧
    specIntegerRule (PyVal.bool true) = false ∧
    pyMatches (PyVal.list [PyVal.int 1, PyVal.int 2])
      (PyType.tupleT [PyType.intT, PyType.intT]) = true ∧
    pyMatches (PyVal.tuple [PyVal.int 1, PyVal.int 2])
      (PyType.listT (Option.some PyType.intT)) = false ∧
    pyMatches (PyVal.int 1) PyType.boolT = false ∧
    pyMatches (PyVal.float 1) PyType.intT = false ∧
    pyMatches (PyVal.int 1) PyType.floatT = true ∧
    (∀ n : Int, pyMatches (PyVal.int n) PyType.intT = true) := by
  refine ⟨?_, rfl, ?_, ?_, ?_, ?_, ?_, ?_⟩
  · simp [pyMatches, isInstInt]
  · simp [pyMatches, pyMatchesZip, isInstListOrTuple, seqElems, isInstInt]
  · simp [pyMatches]
  · simp [pyMatches, isInstBool]
  · simp [pyMatches, isInstInt]
  · simp [pyMatches, isInstInt, isInstFloat, isInstBool]
  · intro n
    simp [pyMatches, isInstInt]

/-- C7 (confirmed): the persistence round-trip
`from_persist(to_persist(N))` leaves `result`, `result_version`,
`result_timestamp`, `compute_time` (`_time`), the
`was_overridden_in_dependancy` flag and the `passive` flag of a node
unchanged.  (`from_persist` never reads the `passive` key, so the
configuration flag is untouched; the `overriden` key is written only
when the flag is set, and restored only when present, which also
round-trips the unset flag.) -/
theorem C7_persist_roundtrip (n : NodeRec) :
    (fromPersist n (toPersist n)).result = n.result ∧
    (fromPersist n (toPersist n)).result_version = n.result_version ∧
    (fromPersist n (toPersist n)).result_timestamp = n.result_timestamp ∧
    (fromPersist n (toPersist n)).time = n.time ∧
    (fromPersist n (toPersist n)).was_overridden = n.was_overridden ∧
    (fromPersist n (toPersist n)).passive = n.passive := by
  cases h : n.was_overridden <;>
    simp [fromPersist, toPersist, h]


theorem needsUpdateInputs_eq_any (look : Nat → Option NodeRec) (ts : Rat) :
    ∀ l, needsUpdateInputs look ts l = l.any fun p =>
      match p.2 with
      | InputVal.ref u =>
          match look u with
          | Option.some un =>
              (!un.passive) && un.result_timestamp.isSome &&
                decide (ts < un.result_timestamp.getD 0)
          | Option.none => false
      | InputVal.lit _ => false := by
  intro l
  induction l with
  | nil => rfl
  | cons p rest ih =>
      obtain ⟨nm, iv⟩ := p
      cases iv with
      | lit v => simpa [needsUpdateInputs] using ih
      | ref u =>
          cases hlu : look u with
          | none => simp [needsUpdateInputs, hlu, ih]
          | some un =>
              cases hts : un.result_timestamp with
              | none => simp [needsUpdateInputs, hlu, hts, ih]
              | some uts =>
                  by_cases hc : ((!un.passive) && decide (ts < uts)) = true
                  · simp [needsUpdateInputs, hlu, hts, hc]
                  · have hc2 : ((!un.passive) && decide (ts < uts)) = false := by
                      revert hc
                      cases ((!un.passive) && decide (ts < uts)) <;> simp
                    simp [needsUpdateInputs, hlu, hts, ih, hc2]

/-- C2 (confirmed): `_needs_update` implements exactly the claim's
ordered six-step rule (first conjunct: equality with the spec-modelled
rule, in which a newer passive upstream is never a trigger and the
upstream comparison is strict).  Second conjunct, the claim's "in
particular": for a non-passive node with a result, matching versions
and a timestamp not before `invalidate_before`, no update is needed as
long as every upstream node reference is passive, or lacks a result,
or has a timestamp less than or equal to this node's — newer passive
upstreams and equal-timestamp upstreams do not retrigger. -/
theorem C2_needs_update_rule :
    (∀ (look : Nat → Option NodeRec) (n : NodeRec),
        needsUpdate look n = needsUpdateSpec look n) ∧
    (∀ (look : Nat → Option NodeRec) (n : NodeRec),
        n.passive = false → hasResult n = true →
        n.result_version = n.version →
        n.invalidate_before ≤ n.result_timestamp.getD 0 →
        (∀ p ∈ n.inputs, ∀ u, p.2 = InputVal.ref u →
          ∀ un, look u = Option.some un →
          un.passive = true ∨ un.result_timestamp = Option.none ∨
            un.result_timestamp.getD 0 ≤ n.result_timestamp.getD 0) →
        needsUpdate look n = false) := by
  have hmain : ∀ (look : Nat → Option NodeRec) (n : NodeRec),
      needsUpdate look n = needsUpdateSpec look n := by
    intro look n
    unfold needsUpdate needsUpdateSpec
    cases hp : n.passive
    · cases hts : n.result_timestamp with
      | none => simp
      | some ts =>
          simp only [Option.isNone_some, Bool.false_eq_true, if_false,
                     Option.getD_some]
          by_cases hv : n.result_version ≠ n.version
          · rw [if_pos hv, if_pos hv]
          · rw [if_neg hv, if_neg hv]
            by_cases hinv : ts < n.invalidate_before
            · rw [if_pos hinv, if_pos (by simpa using hinv)]
            · rw [if_neg hinv, if_neg (by simpa using hinv),
                  needsUpdateInputs_eq_any]
              split
              · next h => exact h
              · next h => simpa using h
    · simp
  refine ⟨hmain, ?_⟩
  intro look n hp hres hv hinv hup
  rw [hmain]
  unfold needsUpdateSpec
  rw [if_neg (by simp [hp])]
  cases hts : n.result_timestamp with
  | none => rw [hasResult, hts] at hres; simp at hres
  | some ts =>
      rw [if_neg (by simp), if_neg (by simp [hv]),
          if_neg (by
            rw [hts] at hinv
            simpa using hinv)]
      rw [if_neg ?hany]
      case hany =>
        rw [List.any_eq_true]
        rintro ⟨p, hmem, hpred⟩
        rcases p with ⟨nm, iv⟩
        cases iv with
        | lit v => simp at hpred
        | ref u =>
            have hpred2 : (match look u with
                | Option.some un =>
                    !un.passive && un.result_timestamp.isSome &&
                      decide ((Option.some ts).getD 0 < un.result_timestamp.getD 0)
                | Option.none => false) = true := hpred
            cases hlu : look u with
            | none => rw [hlu] at hpred2; simp at hpred2
            | some un =>
                rw [hlu] at hpred2
                simp only [Bool.and_eq_true, Bool.not_eq_true,
                           decide_eq_true_eq,
                           Option.isSome_iff_exists] at hpred2
                obtain ⟨⟨hpass, hsome⟩, hlt⟩ := hpred2
                rcases hup (nm, InputVal.ref u) hmem u rfl un hlu with
                  h | h | h
                · simp [h] at hpass
                · obtain ⟨w, hw⟩ := hsome
                  rw [h] at hw; cases hw
                · rw [hts] at h
                  simp only [Option.getD_some] at hlt h
                  exact absurd hlt (not_lt.mpr h)

/-- Upstream fixture for the C2 witness: a passive node with a much
newer result. -/
def passiveNewerUp : NodeRec :=
  { mkNode 1 with passive := true, result_timestamp := Option.some 99 }

/-- Upstream fixture for the C2 witness: a non-passive node whose
result carries exactly the downstream timestamp. -/
def equalTsUp : NodeRec :=
  { mkNode 2 with result_timestamp := Option.some 10 }

/-- Downstream fixture for the C2 witness. -/
def c2Node : NodeRec :=
  { mkNode 3 with
      inputs := [("a", InputVal.ref 1), ("b", InputVal.ref 2)]
      invalidate_before := 5
      result_timestamp := Option.some 10 }

/-- Heap fixture for the C2 witness. -/
def c2Look : Nat → Option NodeRec
  | 1 => Option.some passiveNewerUp
  | 2 => Option.some equalTsUp
  | _ => Option.none

/-- Witness for C2: the rule declares the concrete node fresh although
one upstream is passive with a newer timestamp and another has an equal
timestamp. -/
theorem C2_needs_update_rule_witness :
    needsUpdate c2Look c2Node = false :=
  C2_needs_update_rule.2 c2Look c2Node rfl rfl rfl
    (by norm_num [c2Node])
    (by
      intro p hp u hpu un hun
      rcases List.mem_cons.mp hp with rfl | hp2
      · cases hpu
        cases hun
        exact Or.inl rfl
      · rcases List.mem_cons.mp hp2 with rfl | hp3
        · cases hpu
          cases hun
          exact Or.inr (Or.inr (by norm_num [equalTsUp, c2Node, mkNode]))
        · cases hp3)


/-- C5 (counterexample): the graph does perform a persistence write for
the concrete state, but the write is not the claimed
write-tempfile-then-rename sequence: `_save_to` emits a `makedirs`
followed by a direct write of the target path, and no rename at all. -/
theorem C5_not_atomic_counterexample :
    saveTo c5State "out/results.json" =
      [Ev.makedirs (dirName "out/results.json"),
       Ev.writeFile "out/results.json" (resultsDict c5State)] ∧
    ¬ atomicWritePattern (saveTo c5State "out/results.json")
        "out/results.json" := by
  constructor
  · rfl
  · rintro ⟨pre, tmp, doc, hne, hdir, heq⟩
    have hsave : saveTo c5State "out/results.json" =
        [Ev.makedirs (dirName "out/results.json"),
         Ev.writeFile "out/results.json" (resultsDict c5State)] := rfl
    rw [hsave] at heq
    have hlen := congrArg List.length heq
    simp only [List.length_append, List.length_cons, List.length_nil] at hlen
    have hpre : pre = [] := List.eq_nil_of_length_eq_zero (by omega)
    subst hpre
    simp at heq

/-- C5 (amended): every persistence write the graph performs is a full
rewrite of the serialized results document, but it is written directly
to the target path (after an ensure-directory step), with no temporary
file and no rename; the atomic-write discipline the claim describes is
not implemented, so an interruption mid-write can leave a half-written
document. -/
theorem C5_save_direct_full_rewrite :
    (∀ (s : GState) (path : String),
        saveTo s path =
          [Ev.makedirs (dirName path), Ev.writeFile path (resultsDict s)]) ∧
    (∀ (s : GState) (p : String), s.autoSavePath = Option.some p →
        onNodeResult s = saveTo s p) ∧
    (∀ (s : GState) (path : String),
        ¬ atomicWritePattern (saveTo s path) path) := by
  refine ⟨fun s path => rfl, ?_, ?_⟩
  · intro s p hp
    unfold onNodeResult
    rw [hp]
  · intro s path
    rintro ⟨pre, tmp, doc, hne, hdir, heq⟩
    have hsave : saveTo s path =
        [Ev.makedirs (dirName path), Ev.writeFile path (resultsDict s)] := rfl
    rw [hsave] at heq
    have hlen := congrArg List.length heq
    simp only [List.length_append, List.length_cons, List.length_nil] at hlen
    have hpre : pre = [] := List.eq_nil_of_length_eq_zero (by omega)
    subst hpre
    simp at heq

/-- Witness for C5: the auto-save callback on the concrete state is
exactly the direct (non-atomic) save. -/
theorem C5_save_direct_full_rewrite_witness :
    onNodeResult c5State = saveTo c5State "out/results.json" :=
  C5_save_direct_full_rewrite.2.1 c5State "out/results.json" (by rfl)


/-- C4 (code bug): executing a stale `dry_run` node does skip `process`
(the run returns `None` with no `processCall` event), but it does NOT
leave the processor uninstantiated: `_refresh_result` unconditionally
computes `_filled_in_inputs`, which accesses the `_node` property to
call `validate_args`, and that property instantiates `node_class`.  The
claim — and the `dry_run` field's own comment, "will not initialize
node constructors" — say the processor is never instantiated; the
evaluation below shows the `instantiate` event fired and the lazy
instance live. -/
theorem C4_dry_run_still_instantiates :
    (internalRun 2 c4State 1).2.1 = [Ev.instantiate 1] ∧
    (internalRun 2 c4State 1).2.2 = Except.ok PyVal.none ∧
    (∀ id, Ev.processCall id ∉ (internalRun 2 c4State 1).2.1) ∧
    (lookupNode (internalRun 2 c4State 1).1.nodes 1).map
      (fun n => n.lazy_inited) = Option.some true := by
  refine ⟨?_, ?_, ?_, ?_⟩
  · simp [internalRun, needsUpdate, c4State, c4Node, mkNode, refreshResult,
          filledInInputs, fillInputs, touchInstance, trivialClass, lookupNode,
          setNode, onNodeResult, hasResult]
  · simp [internalRun, needsUpdate, c4State, c4Node, mkNode, refreshResult,
          filledInInputs, fillInputs, touchInstance, trivialClass, lookupNode,
          setNode, onNodeResult, hasResult]
  · intro id
    simp [internalRun, needsUpdate, c4State, c4Node, mkNode, refreshResult,
          filledInInputs, fillInputs, touchInstance, trivialClass, lookupNode,
          setNode, onNodeResult, hasResult]
  · simp [internalRun, needsUpdate, c4State, c4Node, mkNode, refreshResult,
          filledInInputs, fillInputs, touchInstance, trivialClass, lookupNode,
          setNode, onNodeResult, hasResult]


theorem getDepsAux_spec (deps : List (Nat × List Nat)) (univ : List Nat)
    (hU : ∀ n y, y ∈ depsGet deps n → y ∈ univ) (P : Nat → Prop)
    (hstep : ∀ x, P x → ∀ d ∈ depsGet deps x, P d) :
    ∀ (visited toCheck : List Nat) h1 h2 h3,
    (∀ x ∈ visited, P x) → (∀ x ∈ toCheck, P x) →
    (∀ x ∈ visited, ∀ d ∈ depsGet deps x, d ∈ visited ∨ d ∈ toCheck) →
    (∀ x ∈ visited, x ∈ getDepsAux deps univ hU visited toCheck h1 h2 h3) ∧
    (∀ x ∈ toCheck, x ∈ getDepsAux deps univ hU visited toCheck h1 h2 h3) ∧
    (∀ x ∈ getDepsAux deps univ hU visited toCheck h1 h2 h3, P x) ∧
    (∀ x ∈ getDepsAux deps univ hU visited toCheck h1 h2 h3,
      ∀ d ∈ depsGet deps x, d ∈ getDepsAux deps univ hU visited toCheck h1 h2 h3) := by
  intro visited toCheck h1 h2 h3
  induction visited, toCheck, h1, h2, h3 using getDepsAux.induct deps univ hU with
  | case1 visited h1 h2 h3 _ _ _ =>
      intro hPv _ hclosed
      rw [getDepsAux]
      refine ⟨fun x hx => hx, fun x hx => (by cases hx), hPv, ?_⟩
      intro x hx d hd
      rcases hclosed x hx d hd with h | h
      · exact h
      · cases h
  | case2 visited node rest hnd hdisj htc _ _ _ ih =>
      intro hPv hPt hclosed
      rw [getDepsAux]
      have hPnode : P node := hPt node (List.mem_cons_self _ _)
      have hPv2 : ∀ x ∈ node :: visited, P x := by
        intro x hx
        rcases List.mem_cons.mp hx with rfl | hx2
        · exact hPnode
        · exact hPv x hx2
      have hPt2 : ∀ x ∈ addUnvisited (node :: visited) rest (depsGet deps node),
          P x := by
        intro x hx
        rcases mem_addUnvisited.mp hx with hx2 | ⟨hx2, _⟩
        · exact hPt x (List.mem_cons_of_mem _ hx2)
        · exact hstep node hPnode x hx2
      have hclosed2 : ∀ x ∈ node :: visited, ∀ d ∈ depsGet deps x,
          d ∈ node :: visited ∨
            d ∈ addUnvisited (node :: visited) rest (depsGet deps node) := by
        intro x hx d hd
        rcases List.mem_cons.mp hx with hxe | hx2
        · subst hxe
          by_cases hdv : d ∈ x :: visited
          · exact Or.inl hdv
          · exact Or.inr (mem_addUnvisited.mpr (Or.inr ⟨hd, hdv⟩))
        · rcases hclosed x hx2 d hd with h | h
          · exact Or.inl (List.mem_cons_of_mem _ h)
          · rcases List.mem_cons.mp h with hde | h2
            · subst hde
              exact Or.inl (List.mem_cons_self _ _)
            · exact Or.inr (mem_addUnvisited.mpr (Or.inl h2))
      obtain ⟨ihv, iht, ihP, ihc⟩ := ih hPv2 hPt2 hclosed2
      refine ⟨?_, ?_, ihP, ihc⟩
      · intro x hx
        exact ihv x (List.mem_cons_of_mem _ hx)
      · intro x hx
        rcases List.mem_cons.mp hx with rfl | hx2
        · exact ihv x (List.mem_cons_self _ _)
        · exact iht x (mem_addUnvisited.mpr (Or.inl hx2))

/-- Specification of `_get_dependencies`: the worklist computes exactly
the nodes reachable from the start set along dependency edges. -/
theorem getDependencies_spec (deps : List (Nat × List Nat))
    (start : List Nat) :
    ∀ x, x ∈ getDependencies deps start ↔ ReachFrom deps start x := by
  intro x
  have hmain := getDepsAux_spec deps (depsUniverse deps start)
    (depsGet_mem_universe deps start) (ReachFrom deps start)
    (by
      intro a ha d hd
      obtain ⟨s, hs, hpath⟩ := ha
      exact ⟨s, hs, Relation.ReflTransGen.tail hpath hd⟩)
    [] start.dedup (List.nodup_dedup start)
    (by intro a _ h; cases h)
    (by
      intro a ha
      unfold depsUniverse
      rw [List.mem_dedup]
      exact List.mem_append.mpr
        (Or.inl (List.mem_append.mpr (Or.inl (List.mem_dedup.mp ha)))))
    (by intro a ha; cases ha)
    (by
      intro a ha
      exact ⟨a, List.mem_dedup.mp ha, Relation.ReflTransGen.refl⟩)
    (by intro a ha; cases ha)
  obtain ⟨_, hstart, hP, hclosed⟩ := hmain
  constructor
  · intro hx
    exact hP x hx
  · rintro ⟨s, hs, hpath⟩
    induction hpath with
    | refl => exact hstart s (List.mem_dedup.mpr hs)
    | @tail b c _hab hbc ihab => exact hclosed b ihab c hbc


theorem depsGet_eq_of_mem {deps : List (Nat × List Nat)}
    (hk : (deps.map Prod.fst).Nodup) {n : Nat} {ds : List Nat}
    (h : (n, ds) ∈ deps) : depsGet deps n = ds := by
  induction deps with
  | nil => cases h
  | cons p rest ih =>
      obtain ⟨k, kds⟩ := p
      rw [List.map_cons] at hk
      obtain ⟨hk1, hk2⟩ := List.nodup_cons.mp hk
      rw [depsGet]
      by_cases hkn : k = n
      · subst hkn
        rw [if_pos rfl]
        rcases List.mem_cons.mp h with he | h2
        · injection he with _ he2
          exact he2.symm
        · exact absurd (List.mem_map_of_mem Prod.fst h2) hk1
      · rw [if_neg hkn]
        rcases List.mem_cons.mp h with he | h2
        · injection he with he1 _
          exact absurd he1.symm hkn
        · exact ih hk2 h2

theorem mem_keys_of_mem_depsGet {deps : List (Nat × List Nat)}
    {n d : Nat} (h : d ∈ depsGet deps n) : n ∈ deps.map Prod.fst := by
  induction deps with
  | nil => cases h
  | cons p rest ih =>
      obtain ⟨k, kds⟩ := p
      rw [depsGet] at h
      rw [List.map_cons]
      split at h
      · next he => exact he ▸ List.mem_cons_self _ _
      · exact List.mem_cons_of_mem _ (ih h)

theorem mem_allNodes_of_key {deps : List (Nat × List Nat)} {n : Nat}
    (h : n ∈ deps.map Prod.fst) : n ∈ allNodes deps := by
  unfold allNodes
  rw [List.mem_dedup]
  exact List.mem_append.mpr (Or.inl h)

theorem mem_allNodes_of_dep {deps : List (Nat × List Nat)} {n d : Nat}
    (h : d ∈ depsGet deps n) : d ∈ allNodes deps := by
  unfold allNodes
  rw [List.mem_dedup]
  exact List.mem_append.mpr (Or.inr (depsGet_subset_flatten deps n d h))

theorem mem_revAdj_iff {deps : List (Nat × List Nat)}
    (hk : (deps.map Prod.fst).Nodup) {n d : Nat} :
    n ∈ revAdj deps d ↔ (n ∈ deps.map Prod.fst ∧ d ∈ depsGet deps n) := by
  constructor
  · intro h
    unfold revAdj at h
    obtain ⟨p, hp, rfl⟩ := List.mem_map.mp h
    have hmem := List.mem_of_mem_filter hp
    have hd : d ∈ p.2 := by
      have := List.of_mem_filter hp
      simpa using this
    refine ⟨List.mem_map_of_mem Prod.fst hmem, ?_⟩
    rw [depsGet_eq_of_mem hk (show (p.1, p.2) ∈ deps from hmem)]
    exact hd
  · rintro ⟨hkey, hd⟩
    obtain ⟨p, hp, he⟩ := List.mem_map.mp hkey
    have hds : depsGet deps p.1 = p.2 :=
      depsGet_eq_of_mem hk (show (p.1, p.2) ∈ deps from hp)
    unfold revAdj
    refine List.mem_map.mpr ⟨p, ?_, he⟩
    refine List.mem_filter.mpr ⟨hp, ?_⟩
    subst he
    rw [hds] at hd
    simpa using hd

theorem nodup_depsGet {deps : List (Nat × List Nat)}
    (hd : ∀ p ∈ deps, p.2.Nodup) (n : Nat) : (depsGet deps n).Nodup := by
  induction deps with
  | nil => exact List.nodup_nil
  | cons p rest ih =>
      obtain ⟨k, kds⟩ := p
      rw [depsGet]
      split
      · exact hd (k, kds) (List.mem_cons_self _ _)
      · exact ih fun q hq => hd q (List.mem_cons_of_mem _ hq)

theorem filter_not_mem_append_single :
    ∀ {l : List Nat} {o : List Nat} {node : Nat}, l.Nodup → node ∈ l →
    node ∉ o →
    (l.filter fun d => decide (d ∉ o ++ [node])).length + 1 =
      (l.filter fun d => decide (d ∉ o)).length := by
  intro l o node hnd hmem hno
  induction l with
  | nil => cases hmem
  | cons a l ih =>
      obtain ⟨ha, hl⟩ := List.nodup_cons.mp hnd
      rcases List.mem_cons.mp hmem with he | h2
      · subst he
        rw [List.filter_cons, List.filter_cons]
        rw [if_neg (by simp), if_pos (by simpa using hno)]
        have hcongr : l.filter (fun d => decide (d ∉ o ++ [node]))
            = l.filter fun d => decide (d ∉ o) := by
          apply List.filter_congr
          intro x hx
          have hxa : x ≠ node := fun he2 => ha (he2 ▸ hx)
          simp [hxa]
        rw [hcongr, List.length_cons]
      · have hna : node ≠ a := by
          intro he
          subst he
          exact ha h2
        rw [List.filter_cons, List.filter_cons]
        by_cases hao : a ∈ o
        · rw [if_neg (by simp [hao]), if_neg (by simpa using hao)]
          exact ih hl h2
        · rw [if_pos (by
              simp only [List.mem_append, List.mem_cons, decide_eq_true_eq]
              push_neg
              exact ⟨hao, by simpa using fun he => hna he.symm⟩),
              if_pos (by simpa using hao)]
          simp only [List.length_cons]
          have := ih hl h2
          omega

theorem missingCount_append_mem {deps : List (Nat × List Nat)}
    {o : List Nat} {node n : Nat} (hnd : (depsGet deps n).Nodup)
    (hmem : node ∈ depsGet deps n) (hno : node ∉ o) :
    missingCount deps (o ++ [node]) n + 1 = missingCount deps o n := by
  unfold missingCount
  exact filter_not_mem_append_single hnd hmem hno

theorem missingCount_append_not_mem {deps : List (Nat × List Nat)}
    {o : List Nat} {node n : Nat} (hmem : node ∉ depsGet deps n) :
    missingCount deps (o ++ [node]) n = missingCount deps o n := by
  unfold missingCount
  apply congrArg
  apply List.filter_congr
  intro x hx
  have hxn : x ≠ node := fun he => hmem (he ▸ hx)
  simp [hxn]

theorem missingCount_eq_zero_iff {deps : List (Nat × List Nat)}
    {o : List Nat} {n : Nat} :
    missingCount deps o n = 0 ↔ ∀ d ∈ depsGet deps n, d ∈ o := by
  unfold missingCount
  rw [List.length_eq_zero, List.filter_eq_nil_iff]
  constructor
  · intro h d hd
    have := h d hd
    simpa using this
  · intro h d hd
    simpa using h d hd


/-- Loop invariant of the Kahn worklist in `_topo_sort`: the emitted
order and the queue are duplicate-free nodes of the graph, the
in-degree map counts exactly the dependencies not yet emitted, a node
has all dependencies emitted exactly when it has been emitted or
queued, and the emitted order respects dependencies. -/
structure KInv (deps : List (Nat × List Nat)) (q : List Nat)
    (f : Nat → Int) (o : List Nat) : Prop where
  nodupOQ : (o ++ q).Nodup
  subN : ∀ x ∈ o ++ q, x ∈ allNodes deps
  degEq : ∀ n ∈ allNodes deps, f n = (missingCount deps o n : Int)
  statusIff : ∀ n ∈ allNodes deps,
    ((∀ d ∈ depsGet deps n, d ∈ o) ↔ (n ∈ o ∨ n ∈ q))
  ordered : ∀ n ∈ o, ∀ d ∈ depsGet deps n,
    d ∈ o ∧ o.indexOf d < o.indexOf n

theorem kahn_step {deps : List (Nat × List Nat)}
    (hk : (deps.map Prod.fst).Nodup) (hd : ∀ p ∈ deps, p.2.Nodup)
    {node : Nat} {rest : List Nat} {f : Nat → Int} {o : List Nat}
    (hinv : KInv deps (node :: rest) f o) :
    KInv deps (processNeighbors f rest (revAdj deps node)).2
      (processNeighbors f rest (revAdj deps node)).1 (o ++ [node]) := by
  rw [processNeighbors_closed (revAdj deps node) (revAdj_nodup deps hk node)]
  dsimp only
  set N := allNodes deps with hN
  set new := (revAdj deps node).filter (fun nb => f nb == 1) with hnew
  have hsplit := List.nodup_append.mp hinv.nodupOQ
  have hnodeNotO : node ∉ o := fun h =>
    hsplit.2.2 h (List.mem_cons_self _ _)
  have hnodeN : node ∈ N :=
    hinv.subN node (List.mem_append.mpr (Or.inr (List.mem_cons_self _ _)))
  have hdepsnodeO : ∀ d ∈ depsGet deps node, d ∈ o :=
    (hinv.statusIff node hnodeN).mpr (Or.inr (List.mem_cons_self _ _))
  have hrestNodup : (node :: rest).Nodup := hsplit.2.1
  have hnodeNotRest : node ∉ rest := (List.nodup_cons.mp hrestNodup).1
  have hmemNew : ∀ x, x ∈ new ↔ (x ∈ revAdj deps node ∧ f x = 1) := by
    intro x
    rw [hnew, List.mem_filter]
    constructor
    · rintro ⟨h1, h2⟩
      exact ⟨h1, by simpa using h2⟩
    · rintro ⟨h1, h2⟩
      exact ⟨h1, by simpa using h2⟩
  have hnewNotOQ : ∀ x ∈ new, x ∉ o ∧ x ≠ node ∧ x ∉ rest := by
    intro x hx
    obtain ⟨hrev, hf1⟩ := (hmemNew x).mp hx
    obtain ⟨hxkey, hnodedep⟩ := (mem_revAdj_iff hk).mp hrev
    have hxN : x ∈ N := mem_allNodes_of_key hxkey
    have hxNotAll : ¬(∀ d ∈ depsGet deps x, d ∈ o) := by
      intro hall
      have h0 : missingCount deps o x = 0 := missingCount_eq_zero_iff.mpr hall
      have := hinv.degEq x hxN
      rw [h0] at this
      rw [this] at hf1
      simp at hf1
    have hxNotO : x ∉ o := by
      intro hxo
      exact hnodeNotO ((hinv.ordered x hxo node hnodedep).1)
    have hxNotQ : x ∉ node :: rest := by
      intro hxq
      exact hxNotAll ((hinv.statusIff x hxN).mpr (Or.inr hxq))
    refine ⟨hxNotO, ?_, ?_⟩
    · intro he
      exact hxNotQ (he ▸ List.mem_cons_self _ _)
    · intro he
      exact hxNotQ (List.mem_cons_of_mem _ he)
  have hoq2 : (o ++ [node]) ++ (rest ++ new) = (o ++ node :: rest) ++ new := by
    simp [List.append_assoc]
  refine ⟨?_, ?_, ?_, ?_, ?_⟩
  · -- nodup
    rw [hoq2, List.nodup_append]
    refine ⟨hinv.nodupOQ, ?_, ?_⟩
    · exact List.Nodup.filter _ (revAdj_nodup deps hk node)
    · intro x hx hxnew
      obtain ⟨h1, h2, h3⟩ := hnewNotOQ x hxnew
      rcases List.mem_append.mp hx with h | h
      · exact h1 h
      · rcases List.mem_cons.mp h with he | h4
        · exact h2 he
        · exact h3 h4
  · -- subset of N
    intro x hx
    rw [hoq2] at hx
    rcases List.mem_append.mp hx with h | h
    · exact hinv.subN x h
    · obtain ⟨hrev, _⟩ := (hmemNew x).mp h
      exact mem_allNodes_of_key ((mem_revAdj_iff hk).mp hrev).1
  · -- in-degree equation
    intro n hnN
    unfold decrAt
    by_cases hrev : n ∈ revAdj deps node
    · obtain ⟨hkey, hdep⟩ := (mem_revAdj_iff hk).mp hrev
      have hmc := missingCount_append_mem (nodup_depsGet hd n) hdep hnodeNotO
      have hdeg := hinv.degEq n hnN
      rw [if_pos hrev, hdeg]
      omega
    · have hnodep : node ∉ depsGet deps n := by
        intro hdep
        exact hrev ((mem_revAdj_iff hk).mpr
          ⟨mem_keys_of_mem_depsGet hdep, hdep⟩)
      rw [if_neg hrev, missingCount_append_not_mem hnodep]
      exact hinv.degEq n hnN
  · -- status iff
    intro n hnN
    constructor
    · intro hall2
      by_cases hall1 : ∀ d ∈ depsGet deps n, d ∈ o
      · rcases (hinv.statusIff n hnN).mp hall1 with h | h
        · exact Or.inl (List.mem_append.mpr (Or.inl h))
        · rcases List.mem_cons.mp h with he | h2
          · exact Or.inl (List.mem_append.mpr (Or.inr (he ▸ List.mem_cons_self _ _)))
          · exact Or.inr (List.mem_append.mpr (Or.inl h2))
      · push_neg at hall1
        obtain ⟨d0, hd0, hd0o⟩ := hall1
        have hd0node : d0 = node := by
          rcases List.mem_append.mp (hall2 d0 hd0) with h | h
          · exact absurd h hd0o
          · simpa using h
        rw [hd0node] at hd0 hd0o
        have hkey : n ∈ deps.map Prod.fst := mem_keys_of_mem_depsGet hd0
        have hrev : n ∈ revAdj deps node := (mem_revAdj_iff hk).mpr ⟨hkey, hd0⟩
        have hmc2 : missingCount deps (o ++ [node]) n = 0 :=
          missingCount_eq_zero_iff.mpr hall2
        have hmc := missingCount_append_mem (nodup_depsGet hd n) hd0 hd0o
        have hf1 : f n = 1 := by
          have := hinv.degEq n hnN
          omega
        refine Or.inr (List.mem_append.mpr (Or.inr ?_))
        exact (hmemNew n).mpr ⟨hrev, hf1⟩
    · intro hmem
      have hsub : ∀ d ∈ depsGet deps n, d ∈ o → d ∈ o ++ [node] := by
        intro d _ hdo
        exact List.mem_append.mpr (Or.inl hdo)
      rcases hmem with h | h
      · rcases List.mem_append.mp h with h2 | h2
        · intro d hd
          exact hsub d hd ((hinv.statusIff n hnN).mpr (Or.inl h2) d hd)
        · have he : n = node := by simpa using h2
          subst he
          intro d hd
          exact hsub d hd (hdepsnodeO d hd)
      · rcases List.mem_append.mp h with h2 | h2
        · intro d hd
          exact hsub d hd
            ((hinv.statusIff n hnN).mpr (Or.inr (List.mem_cons_of_mem _ h2)) d hd)
        · obtain ⟨hrev, hf1⟩ := (hmemNew n).mp h2
          obtain ⟨hkey, hdep⟩ := (mem_revAdj_iff hk).mp hrev
          have hmc := missingCount_append_mem (nodup_depsGet hd n) hdep hnodeNotO
          have hdeg := hinv.degEq n hnN
          have hmc2 : missingCount deps (o ++ [node]) n = 0 := by omega
          exact missingCount_eq_zero_iff.mp hmc2
  · -- ordering
    intro n hn d hd
    rcases List.mem_append.mp hn with h | h
    · obtain ⟨hdo, hidx⟩ := hinv.ordered n h d hd
      refine ⟨List.mem_append.mpr (Or.inl hdo), ?_⟩
      rw [List.indexOf_append_of_mem hdo, List.indexOf_append_of_mem h]
      exact hidx
    · have he : n = node := by simpa using h
      subst he
      have hdo : d ∈ o := hdepsnodeO d hd
      refine ⟨List.mem_append.mpr (Or.inl hdo), ?_⟩
      rw [List.indexOf_append_of_mem hdo,
          List.indexOf_append_of_not_mem hnodeNotO]
      have : o.indexOf d < o.length := List.indexOf_lt_length.mpr hdo
      omega


theorem kahnLoop_final {deps : List (Nat × List Nat)}
    (hk : (deps.map Prod.fst).Nodup) (hd : ∀ p ∈ deps, p.2.Nodup) :
    ∀ (q : List Nat) (f : Nat → Int) (o : List Nat), KInv deps q f o →
    (kahnLoop deps hk q f o).Nodup ∧
    (∀ x ∈ kahnLoop deps hk q f o, x ∈ allNodes deps) ∧
    (∀ n ∈ kahnLoop deps hk q f o, ∀ d ∈ depsGet deps n,
      d ∈ kahnLoop deps hk q f o ∧
        (kahnLoop deps hk q f o).indexOf d <
          (kahnLoop deps hk q f o).indexOf n) ∧
    (∀ n ∈ allNodes deps, (∀ d ∈ depsGet deps n, d ∈ kahnLoop deps hk q f o) →
      n ∈ kahnLoop deps hk q f o) := by
  intro q f o
  induction q, f, o using kahnLoop.induct deps hk with
  | case1 f o =>
      intro hinv
      rw [kahnLoop]
      have hnodup : o.Nodup := by
        have := hinv.nodupOQ
        simpa using this
      refine ⟨hnodup, ?_, hinv.ordered, ?_⟩
      · intro x hx
        exact hinv.subN x (by simpa using hx)
      · intro n hnN hall
        have := (hinv.statusIff n hnN).mp hall
        simpa using this
  | case2 node rest f o ih =>
      intro hinv
      rw [kahnLoop]
      exact ih (kahn_step hk hd hinv)

theorem kahn_initial {deps : List (Nat × List Nat)} :
    KInv deps ((allNodes deps).filter fun n => indeg0 deps n == 0)
      (indeg0 deps) [] := by
  have hNnodup : (allNodes deps).Nodup := by
    unfold allNodes
    exact List.nodup_dedup _
  refine ⟨?_, ?_, ?_, ?_, ?_⟩
  · simpa using List.Nodup.filter _ hNnodup
  · intro x hx
    simp only [List.nil_append] at hx
    exact List.mem_of_mem_filter hx
  · intro n _
    unfold indeg0 missingCount
    have : (depsGet deps n).filter (fun d => decide (d ∉ ([] : List Nat)))
        = depsGet deps n := by
      apply List.filter_eq_self.mpr
      intro a _
      simp
    rw [this]
  · intro n hnN
    constructor
    · intro hall
      refine Or.inr (List.mem_filter.mpr ⟨hnN, ?_⟩)
      have hnil : depsGet deps n = [] := by
        rcases h : depsGet deps n with _ | ⟨d, ds⟩
        · rfl
        · exact absurd (hall d (h ▸ List.mem_cons_self _ _)) (by simp)
      unfold indeg0
      rw [hnil]
      simp
    · intro hmem d hd
      rcases hmem with h | h
      · cases h
      · have := (List.mem_filter.mp h).2
        unfold indeg0 at this
        rcases hdg : depsGet deps n with _ | ⟨d0, ds⟩
        · rw [hdg] at hd
          cases hd
        · exfalso
          rw [hdg] at this
          simp at this
          omega
  · intro n hn
    cases hn

theorem exists_cycle_of_forall_step {S : Finset Nat} {rel : Nat → Nat → Prop}
    (hne : S.Nonempty) (hstep : ∀ r ∈ S, ∃ d, d ∈ S ∧ rel r d) :
    ∃ n ∈ S, Relation.TransGen rel n n := by
  classical
  obtain ⟨x0, hx0⟩ := hne
  have hstep2 : ∀ r : Nat, ∃ d : Nat, r ∈ S → (d ∈ S ∧ rel r d) := by
    intro r
    by_cases hr : r ∈ S
    · obtain ⟨d, hd⟩ := hstep r hr
      exact ⟨d, fun _ => hd⟩
    · exact ⟨r, fun h => absurd h hr⟩
  choose g hg using hstep2
  have hmemIter : ∀ (k : Nat) (x : Nat), x ∈ S → g^[k] x ∈ S := by
    intro k
    induction k with
    | zero => intro x hx; simpa using hx
    | succ k ih =>
        intro x hx
        rw [Function.iterate_succ_apply']
        exact (hg _ (ih x hx)).1
  have hiter : ∀ (k : Nat) (x : Nat), x ∈ S → 0 < k →
      Relation.TransGen rel x (g^[k] x) := by
    intro k
    induction k with
    | zero => intro x _ h; cases h
    | succ k ih =>
        intro x hx _
        rcases Nat.eq_zero_or_pos k with hk | hk
        · subst hk
          simpa using Relation.TransGen.single (hg x hx).2
        · rw [Function.iterate_succ_apply']
          exact Relation.TransGen.tail (ih x hx hk)
            (hg _ (hmemIter k x hx)).2
  have hmaps : ∀ i ∈ Finset.range (S.card + 1), g^[i] x0 ∈ S :=
    fun i _ => hmemIter i x0 hx0
  have hlt : S.card < (Finset.range (S.card + 1)).card := by simp
  obtain ⟨i, _, j, _, hne2, heq⟩ :=
    Finset.exists_ne_map_eq_of_card_lt_of_maps_to hlt hmaps
  have hmain : ∀ (a b : Nat), a < b → g^[a] x0 = g^[b] x0 →
      ∃ n ∈ S, Relation.TransGen rel n n := by
    intro a b hab hab2
    refine ⟨g^[a] x0, hmemIter a x0 hx0, ?_⟩
    have hsplit : g^[b] x0 = g^[b - a] (g^[a] x0) := by
      rw [← Function.iterate_add_apply]
      congr 1
      omega
    have ht := hiter (b - a) (g^[a] x0) (hmemIter a x0 hx0) (by omega)
    rw [← hsplit, ← hab2] at ht
    exact ht
  rcases Nat.lt_or_ge i j with hij | hij
  · exact hmain i j hij heq
  · rcases Nat.lt_or_ge j i with hji | hji
    · exact hmain j i hji heq.symm
    · exact absurd (Nat.le_antisymm hij hji).symm hne2

theorem mem_iff_of_nodup_subset_length {l N : List Nat} (hl : l.Nodup)
    (hN : N.Nodup) (hsub : ∀ x ∈ l, x ∈ N) (hlen : l.length = N.length) :
    ∀ x, x ∈ l ↔ x ∈ N := by
  have hfs : l.toFinset ⊆ N.toFinset := by
    intro x hx
    rw [List.mem_toFinset] at hx ⊢
    exact hsub x hx
  have hcard : N.toFinset.card ≤ l.toFinset.card := by
    rw [List.toFinset_card_of_nodup hl, List.toFinset_card_of_nodup hN]
    omega
  have heq := Finset.eq_of_subset_of_card_le hfs hcard
  intro x
  rw [← List.mem_toFinset, heq, List.mem_toFinset]

/-- Specification of `_topo_sort` on success: the returned order is a
duplicate-free enumeration of all nodes of the dict in which every
dependency precedes every dependent. -/
theorem topoSort_ok_spec {deps : List (Nat × List Nat)}
    {hk : (deps.map Prod.fst).Nodup} (hd : ∀ p ∈ deps, p.2.Nodup)
    {l : List Nat} (h : topoSort deps hk = Except.ok l) :
    l.Nodup ∧ (∀ x, x ∈ l ↔ x ∈ allNodes deps) ∧
    (∀ n ∈ l, ∀ d ∈ depsGet deps n,
      d ∈ l ∧ l.indexOf d < l.indexOf n) := by
  have hdef : topoSort deps hk =
      (if (kahnLoop deps hk
            ((allNodes deps).filter fun n => indeg0 deps n == 0)
            (indeg0 deps) []).length = (allNodes deps).length
       then Except.ok (kahnLoop deps hk
            ((allNodes deps).filter fun n => indeg0 deps n == 0)
            (indeg0 deps) [])
       else Except.error Exc.cycleDetected) := rfl
  rw [hdef] at h
  obtain ⟨hnodup, hsub, hord, _⟩ := kahnLoop_final hk hd
    ((allNodes deps).filter fun n => indeg0 deps n == 0) (indeg0 deps) []
    kahn_initial
  split at h
  · next hlen =>
      injection h with he
      subst he
      exact ⟨hnodup, mem_iff_of_nodup_subset_length hnodup
        (by unfold allNodes; exact List.nodup_dedup _) hsub hlen, hord⟩
  · cases h

/-- Specification of `_topo_sort` on failure: the cycle error implies a
real dependency cycle among the dict's nodes. -/
theorem topoSort_error_spec {deps : List (Nat × List Nat)}
    {hk : (deps.map Prod.fst).Nodup} (hd : ∀ p ∈ deps, p.2.Nodup)
    {e : Exc} (h : topoSort deps hk = Except.error e) :
    e = Exc.cycleDetected ∧
    ∃ n ∈ allNodes deps, Relation.TransGen (dependsOn deps) n n := by
  have hdef : topoSort deps hk =
      (if (kahnLoop deps hk
            ((allNodes deps).filter fun n => indeg0 deps n == 0)
            (indeg0 deps) []).length = (allNodes deps).length
       then Except.ok (kahnLoop deps hk
            ((allNodes deps).filter fun n => indeg0 deps n == 0)
            (indeg0 deps) [])
       else Except.error Exc.cycleDetected) := rfl
  rw [hdef] at h
  set order := kahnLoop deps hk
    ((allNodes deps).filter fun n => indeg0 deps n == 0) (indeg0 deps) []
    with horder
  obtain ⟨hnodup, hsub, _, hcomplete⟩ := kahnLoop_final hk hd
    ((allNodes deps).filter fun n => indeg0 deps n == 0) (indeg0 deps) []
    kahn_initial
  rw [← horder] at hnodup hsub hcomplete
  split at h
  · cases h
  · next hlen =>
      injection h with he
      refine ⟨he.symm, ?_⟩
      have hNnodup : (allNodes deps).Nodup := by
        unfold allNodes
        exact List.nodup_dedup _
      have hS : (allNodes deps).toFinset \ order.toFinset ≠ ∅ := by
        intro hempty
        apply hlen
        have hsub2 : ∀ x ∈ allNodes deps, x ∈ order := by
          intro x hx
          by_contra hxo
          have hxS : x ∈ (allNodes deps).toFinset \ order.toFinset := by
            rw [Finset.mem_sdiff, List.mem_toFinset, List.mem_toFinset]
            exact ⟨hx, hxo⟩
          rw [hempty] at hxS
          cases hxS
        have h1 : order.length ≤ (allNodes deps).length := by
          rw [← List.toFinset_card_of_nodup hnodup,
              ← List.toFinset_card_of_nodup hNnodup]
          apply Finset.card_le_card
          intro x hx
          rw [List.mem_toFinset] at hx ⊢
          exact hsub x hx
        have h2 : (allNodes deps).length ≤ order.length := by
          rw [← List.toFinset_card_of_nodup hnodup,
              ← List.toFinset_card_of_nodup hNnodup]
          apply Finset.card_le_card
          intro x hx
          rw [List.mem_toFinset] at hx ⊢
          exact hsub2 x hx
        omega
      obtain ⟨n, hnS, hcyc⟩ := exists_cycle_of_forall_step
        (Finset.nonempty_iff_ne_empty.mpr hS)
        (by
          intro r hr
          rw [Finset.mem_sdiff, List.mem_toFinset, List.mem_toFinset] at hr
          obtain ⟨hrN, hro⟩ := hr
          have hnot : ¬(∀ d ∈ depsGet deps r, d ∈ order) := by
            intro hall
            exact hro (hcomplete r hrN hall)
          push_neg at hnot
          obtain ⟨d, hd1, hd2⟩ := hnot
          refine ⟨d, ?_, hd1⟩
          rw [Finset.mem_sdiff, List.mem_toFinset, List.mem_toFinset]
          exact ⟨mem_allNodes_of_dep hd1, hd2⟩)
      rw [Finset.mem_sdiff, List.mem_toFinset] at hnS
      exact ⟨n, hnS.1, hcyc⟩


theorem map_fst_map_pair (g : Nat → List Nat) (l : List Nat) :
    (l.map fun n => (n, g n)).map Prod.fst = l := by
  induction l with
  | nil => rfl
  | cons a l ih =>
      simp only [List.map_cons]
      rw [ih]

theorem depsGet_map_pair (g : Nat → List Nat) {l : List Nat}
    (hl : l.Nodup) {n : Nat} (hn : n ∈ l) :
    depsGet (l.map fun x => (x, g x)) n = g n := by
  apply depsGet_eq_of_mem
  · rw [map_fst_map_pair]
    exact hl
  · exact List.mem_map.mpr ⟨n, hn, rfl⟩

theorem depsGet_eq_nil_of_not_key {deps : List (Nat × List Nat)} {n : Nat}
    (h : n ∉ deps.map Prod.fst) : depsGet deps n = [] := by
  rcases hdg : depsGet deps n with _ | ⟨d, ds⟩
  · rfl
  · exact absurd (mem_keys_of_mem_depsGet (hdg ▸ List.mem_cons_self d ds)) h

theorem topoSortSubgraph_ok_spec (deps : List (Nat × List Nat))
    (start : List Nat) (hd : ∀ p ∈ deps, p.2.Nodup) :
    (∀ l, topoSortSubgraph start deps = Except.ok l →
      (∀ x, x ∈ l ↔ ReachFrom deps start x) ∧ l.Nodup ∧
      (∀ n ∈ l, ∀ d ∈ depsGet deps n,
        d ∈ l ∧ l.indexOf d < l.indexOf n)) ∧
    (topoSortSubgraph start deps = Except.error Exc.cycleDetected →
      ∃ n, ReachFrom deps start n ∧
        Relation.TransGen (dependsOn deps) n n) := by
  have hsubnodup := getDependencies_nodup deps start
  have hreach := getDependencies_spec deps start
  have hclosure : ∀ x ∈ getDependencies deps start,
      ∀ d ∈ depsGet deps x, d ∈ getDependencies deps start := by
    intro x hx d hdx
    rw [hreach] at hx ⊢
    obtain ⟨s, hs, hpath⟩ := hx
    exact ⟨s, hs, Relation.ReflTransGen.tail hpath hdx⟩
  have hdg : ∀ n ∈ getDependencies deps start,
      depsGet ((getDependencies deps start).map fun x =>
        (x, (depsGet deps x).filter fun d =>
          decide (d ∈ getDependencies deps start))) n = depsGet deps n := by
    intro n hn
    rw [depsGet_map_pair _ hsubnodup hn]
    apply List.filter_eq_self.mpr
    intro d hdx
    exact decide_eq_true (hclosure n hn d hdx)
  have hdsub : ∀ p ∈ ((getDependencies deps start).map fun x =>
      (x, (depsGet deps x).filter fun d =>
        decide (d ∈ getDependencies deps start))), p.2.Nodup := by
    intro p hp
    obtain ⟨x, _, rfl⟩ := List.mem_map.mp hp
    exact List.Nodup.filter _ (nodup_depsGet hd x)
  have hkeys : ((getDependencies deps start).map fun x =>
      (x, (depsGet deps x).filter fun d =>
        decide (d ∈ getDependencies deps start))).map Prod.fst
      = getDependencies deps start := map_fst_map_pair _ _
  have hallsub : ∀ x, x ∈ allNodes ((getDependencies deps start).map fun x =>
      (x, (depsGet deps x).filter fun d =>
        decide (d ∈ getDependencies deps start))) ↔
      x ∈ getDependencies deps start := by
    intro x
    constructor
    · intro hx
      unfold allNodes at hx
      rw [List.mem_dedup, List.mem_append] at hx
      rcases hx with h | h
      · rw [hkeys] at h
        exact h
      · rw [List.mem_flatten] at h
        obtain ⟨ds, hds, hxds⟩ := h
        rw [List.map_map] at hds
        obtain ⟨y, _, rfl⟩ := List.mem_map.mp hds
        simp only [Function.comp] at hxds
        have := List.of_mem_filter hxds
        simpa using this
    · intro hx
      apply mem_allNodes_of_key
      rw [hkeys]
      exact hx
  constructor
  · intro l h
    unfold topoSortSubgraph at h
    obtain ⟨hnodup, hmem, hord⟩ := topoSort_ok_spec hdsub h
    refine ⟨?_, hnodup, ?_⟩
    · intro x
      rw [hmem x, hallsub x, hreach x]
    · intro n hn d hdn
      have hnsub : n ∈ getDependencies deps start := by
        rw [← hallsub, ← hmem]
        exact hn
      have := hord n hn d (by rw [hdg n hnsub]; exact hdn)
      exact this
  · intro h
    unfold topoSortSubgraph at h
    obtain ⟨_, n, hnN, hcyc⟩ := topoSort_error_spec hdsub h
    have hnsub : n ∈ getDependencies deps start := (hallsub n).mp hnN
    refine ⟨n, (hreach n).mp hnsub, ?_⟩
    refine Relation.TransGen.mono ?_ hcyc
    intro a b hab
    unfold dependsOn at hab ⊢
    by_cases ha : a ∈ getDependencies deps start
    · rw [hdg a ha] at hab
      exact hab
    · rw [depsGet_eq_nil_of_not_key (by rw [hkeys]; exact ha)] at hab
      cases hab

/-- C6 (confirmed): `topo_sort_subgraph` returns exactly the nodes
reachable from the targets, ordered so that every dependency precedes
every dependent; when the reachable subgraph has a dependency cycle it
fails with the cycle-detected error (a `ValueError`, the spec's
`CycleDetected`), and that error occurs only in that case.  The
hypothesis says each dependency set is duplicate-free, the Python
`set[int]` representation invariant. -/
theorem C6_topo_sort_subgraph (deps : List (Nat × List Nat))
    (start : List Nat) (hd : ∀ p ∈ deps, p.2.Nodup) :
    (∀ l, topoSortSubgraph start deps = Except.ok l →
      (∀ x, x ∈ l ↔ ReachFrom deps start x) ∧ l.Nodup ∧
      (∀ n ∈ l, ∀ d ∈ depsGet deps n,
        d ∈ l ∧ l.indexOf d < l.indexOf n)) ∧
    (topoSortSubgraph start deps = Except.error Exc.cycleDetected ↔
      ∃ n, ReachFrom deps start n ∧
        Relation.TransGen (dependsOn deps) n n) := by
  obtain ⟨hok, herr⟩ := topoSortSubgraph_ok_spec deps start hd
  refine ⟨hok, herr, ?_⟩
  rintro ⟨n, hnreach, hcyc⟩
  rcases hres : topoSortSubgraph start deps with e | l
  · have hdD : ∀ p ∈ ((getDependencies deps start).map fun x =>
        (x, (depsGet deps x).filter fun d =>
          decide (d ∈ getDependencies deps start))), p.2.Nodup := by
      intro p hp
      obtain ⟨x, _, rfl⟩ := List.mem_map.mp hp
      exact List.Nodup.filter _ (nodup_depsGet hd x)
    obtain ⟨he, _⟩ := topoSort_error_spec hdD
      (by unfold topoSortSubgraph at hres; exact hres)
    rw [he]
  · exfalso
    obtain ⟨hmem, _, hord⟩ := hok l hres
    have hdesc : ∀ a b, Relation.TransGen (dependsOn deps) a b →
        a ∈ l → b ∈ l ∧ l.indexOf b < l.indexOf a := by
      intro a b hab ha
      induction hab with
      | single h1 => exact hord a ha _ h1
      | tail h1 h2 ih =>
          obtain ⟨hb, hidx⟩ := ih
          obtain ⟨hc, hidx2⟩ := hord _ hb _ h2
          exact ⟨hc, lt_trans hidx2 hidx⟩
    have hnl : n ∈ l := (hmem n).mpr hnreach
    have := (hdesc n n hcyc hnl).2
    omega


/-- Witness for C6: on the three-node chain the sort succeeds with the
order `[1, 2, 3]`, which therefore enumerates exactly the reachable
nodes in dependency order. -/
theorem C6_topo_sort_subgraph_witness :
    (List.Nodup [1, 2, 3]) ∧ (∀ x, x ∈ [1, 2, 3] ↔ ReachFrom tdeps6 [3] x) := by
  obtain ⟨hok, _⟩ := C6_topo_sort_subgraph tdeps6 [3] (by decide)
  obtain ⟨hmem, hnodup, _⟩ := hok [1, 2, 3] (by
    simp [topoSortSubgraph, topoSort, getDependencies, getDepsAux, depsUniverse,
          addUnvisited, insertOnce, depsGet, allNodes, indeg0, kahnLoop,
          processNeighbors, revAdj, tdeps6])
  exact ⟨hnodup, hmem⟩


/-!
### Single-step characterizations of the `process_batch` item loop

Each lemma isolates one control-flow branch of `batchItems`; together
they delimit exactly which exceptions the fault-tolerance `try` absorbs.
-/

/-- A poisoned item (index already in the error list) is skipped: no
`prep_fn`, no node execution, no `post_fn`. -/
theorem batchItems_skip (fuel : Nat) (prep : HookFn) (post : Option HookFn)
    (ft : Bool) (nodeId : Nat) (isLast : Bool) (idx : Nat) (item : PyVal)
    (rest : List (Nat × PyVal)) (st : BatchSt) (h : idx ∈ st.errIdx) :
    batchItems fuel prep post ft nodeId isLast ((idx, item) :: rest) st =
      batchItems fuel prep post ft nodeId isLast rest st := by
  rw [batchItems, if_pos h]

/-- An exception in `prep_fn` is outside the `try`: it aborts the loop
at once, for both fault-tolerance settings, recording nothing. -/
theorem batchItems_prep_error (fuel : Nat) (prep : HookFn)
    (post : Option HookFn) (ft : Bool) (nodeId : Nat) (isLast : Bool)
    (idx : Nat) (item : PyVal) (rest : List (Nat × PyVal)) (st : BatchSt)
    (g2 : GState) (e : Exc) (h1 : idx ∉ st.errIdx)
    (h2 : prep idx item { st.g with autoSavePath := Option.none } =
      (g2, Except.error e)) :
    batchItems fuel prep post ft nodeId isLast ((idx, item) :: rest) st =
      ({ st with g := g2, log := st.log ++ [BCall.prepCall idx] },
       Option.some e) := by
  simp only [batchItems, if_neg h1, h2]

/-- A `prep_fn` that returns without binding a persistence path raises
`PrepMissingPersist`, also outside the `try`: immediate abort for both
fault-tolerance settings. -/
theorem batchItems_prep_no_persist (fuel : Nat) (prep : HookFn)
    (post : Option HookFn) (ft : Bool) (nodeId : Nat) (isLast : Bool)
    (idx : Nat) (item : PyVal) (rest : List (Nat × PyVal)) (st : BatchSt)
    (g2 : GState) (u : Unit) (h1 : idx ∉ st.errIdx)
    (h2 : prep idx item { st.g with autoSavePath := Option.none } =
      (g2, Except.ok u))
    (h3 : g2.autoSavePath.isNone = true) :
    batchItems fuel prep post ft nodeId isLast ((idx, item) :: rest) st =
      ({ st with g := g2, log := st.log ++ [BCall.prepCall idx] },
       Option.some Exc.prepMissingPersist) := by
  simp only [batchItems, if_neg h1, h2, h3, if_true]

/-- With `fault_tolerant=False`, any exception escaping the node
execution (`self._run_only(node)`) — engine-raised `TypeMismatch`,
`UnknownInput`, `UpstreamNotComputed` included — is re-raised at once
and no failure is recorded. -/
theorem batchItems_run_error_ff (fuel : Nat) (prep : HookFn)
    (post : Option HookFn) (nodeId : Nat) (isLast : Bool)
    (idx : Nat) (item : PyVal) (rest : List (Nat × PyVal)) (st : BatchSt)
    (g2 g3 : GState) (u : Unit) (ev : List Ev) (e : Exc)
    (h1 : idx ∉ st.errIdx)
    (h2 : prep idx item { st.g with autoSavePath := Option.none } =
      (g2, Except.ok u))
    (h3 : g2.autoSavePath.isNone = false)
    (h4 : internalRun fuel g2 nodeId = (g3, ev, Except.error e)) :
    batchItems fuel prep post false nodeId isLast ((idx, item) :: rest) st =
      ({ st with
          g := g3, evs := st.evs ++ ev,
          log := st.log ++ [BCall.prepCall idx, BCall.runCall nodeId idx] },
       Option.some e) := by
  simp only [batchItems, if_neg h1, h2, h3, h4, Bool.false_eq_true, if_false,
    List.append_assoc, List.singleton_append]

/-- With `fault_tolerant=True`, any exception escaping the node
execution — engine-raised ones included — is caught by the
`except Exception` handler: the (item, node, exception) triple is
appended to the failure log, the item index is poisoned, and the loop
continues with the remaining items. -/
theorem batchItems_run_error_ft (fuel : Nat) (prep : HookFn)
    (post : Option HookFn) (nodeId : Nat) (isLast : Bool)
    (idx : Nat) (item : PyVal) (rest : List (Nat × PyVal)) (st : BatchSt)
    (g2 g3 : GState) (u : Unit) (ev : List Ev) (e : Exc)
    (h1 : idx ∉ st.errIdx)
    (h2 : prep idx item { st.g with autoSavePath := Option.none } =
      (g2, Except.ok u))
    (h3 : g2.autoSavePath.isNone = false)
    (h4 : internalRun fuel g2 nodeId = (g3, ev, Except.error e)) :
    batchItems fuel prep post true nodeId isLast ((idx, item) :: rest) st =
      batchItems fuel prep post true nodeId isLast rest
        { st with
          g := g3, evs := st.evs ++ ev,
          log := st.log ++ [BCall.prepCall idx, BCall.runCall nodeId idx],
          errIdx := st.errIdx ++ [idx],
          stats := { st.stats with failures :=
            st.stats.failures ++ [⟨idx, item, nodeId, e⟩] } } := by
  simp only [batchItems, if_neg h1, h2, h3, h4, if_true, Bool.false_eq_true,
    if_false, List.append_assoc, List.singleton_append]

/-- After a successful node execution on the last node, the completed
counter is incremented and then `post_fn` runs; an exception in
`post_fn` is outside the `try` and aborts the loop — for both
fault-tolerance settings — with the completion already counted. -/
theorem batchItems_post_error (fuel : Nat) (prep : HookFn) (pf : HookFn)
    (ft : Bool) (nodeId : Nat)
    (idx : Nat) (item : PyVal) (rest : List (Nat × PyVal)) (st : BatchSt)
    (g2 g3 g4 : GState) (u : Unit) (ev : List Ev) (v : PyVal) (e : Exc)
    (h1 : idx ∉ st.errIdx)
    (h2 : prep idx item { st.g with autoSavePath := Option.none } =
      (g2, Except.ok u))
    (h3 : g2.autoSavePath.isNone = false)
    (h4 : internalRun fuel g2 nodeId = (g3, ev, Except.ok v))
    (h5 : pf idx item g3 = (g4, Except.error e)) :
    batchItems fuel prep (Option.some pf) ft nodeId true
        ((idx, item) :: rest) st =
      ({ st with
          g := g4, evs := st.evs ++ ev,
          log := st.log ++ [BCall.prepCall idx, BCall.runCall nodeId idx,
            BCall.postCall idx (st.stats.completed + 1)],
          stats := { st.stats with completed := st.stats.completed + 1 } },
       Option.some e) := by
  simp only [batchItems, if_neg h1, h2, h3, h4, h5, if_true,
    Bool.false_eq_true, if_false, List.append_assoc, List.singleton_append,
    List.cons_append, List.nil_append]

/-- An exception returned by the item loop on the first remaining node
propagates out of the node loop unchanged. -/
theorem batchNodes_error (fuel : Nat) (prep : HookFn) (post : Option HookFn)
    (ft : Bool) (ra : Option (List Nat)) (items : List (Nat × PyVal))
    (nodeId : Nat) (restNodes : List Nat) (st st1 : BatchSt) (e : Exc)
    (h : batchItems fuel prep post ft nodeId restNodes.isEmpty items st =
      (st1, Option.some e)) :
    batchNodes fuel prep post ft ra items (nodeId :: restNodes) st =
      (st1, Option.some e) := by
  simp only [batchNodes, h]

/-- A failed topological sort (`CycleDetected`) aborts `process_batch`
before any hook or node call, regardless of fault tolerance. -/
theorem processBatch_topo_error (s : GState) (items : List PyVal)
    (finalNodes : List Nat) (prep : HookFn) (post : Option HookFn)
    (ra : Option (List Nat)) (ft : Bool) (e : Exc)
    (h : topoSortSubgraph finalNodes s.deps = Except.error e) :
    processBatch s items finalNodes prep post ra ft =
      ({ g := s, stats := { completed := 0, failures := [] }
         errIdx := [], log := [], evs := [] }, Except.error e) := by
  simp only [processBatch, h]

/-- An exception propagating out of the node loop turns into a raise of
`process_batch` itself: no `BatchStats` is returned. -/
theorem processBatch_nodes_error (s : GState) (items : List PyVal)
    (finalNodes : List Nat) (prep : HookFn) (post : Option HookFn)
    (ra : Option (List Nat)) (ft : Bool) (order : List Nat)
    (st1 : BatchSt) (e : Exc)
    (h1 : topoSortSubgraph finalNodes s.deps = Except.ok order)
    (h2 : batchNodes (s.nodes.length + 1) prep post ft ra items.enum order
      { g := s, stats := { completed := 0, failures := [] }
        errIdx := [], log := [], evs := [] } = (st1, Option.some e)) :
    processBatch s items finalNodes prep post ra ft =
      (st1, Except.error e) := by
  simp only [processBatch, h1, h2]


/-!
### C1: which exceptions does fault tolerance absorb?
-/

/-- A successful lookup is a concrete heap entry. -/
theorem mem_of_lookupNode : ∀ (nodes : List (Nat × NodeRec)) (id : Nat)
    (n : NodeRec), lookupNode nodes id = Option.some n → (id, n) ∈ nodes := by
  intro nodes
  induction nodes with
  | nil => intro id n h; cases h
  | cons p rest ih =>
      obtain ⟨k, v⟩ := p
      intro id n h
      by_cases hk : k = id
      · subst hk
        simp only [lookupNode, if_pos rfl] at h
        injection h with h
        subst h
        exact List.mem_cons_self _ _
      · simp only [lookupNode, if_neg hk] at h
        exact List.mem_cons_of_mem _ (ih id n h)

/-- `setNode` only introduces the record it was given. -/
theorem mem_setNode : ∀ (nodes : List (Nat × NodeRec)) (id : Nat)
    (nv : NodeRec) (p : Nat × NodeRec), p ∈ setNode nodes id nv →
    p ∈ nodes ∨ p.2 = nv := by
  intro nodes
  induction nodes with
  | nil => intro id nv p h; cases h
  | cons q rest ih =>
      obtain ⟨k, v⟩ := q
      intro id nv p h
      by_cases hk : k = id
      · subst hk
        simp only [setNode, if_pos rfl] at h
        rcases List.mem_cons.mp h with h1 | h1
        · right
          rw [h1]
        · exact Or.inl (List.mem_cons_of_mem _ h1)
      · simp only [setNode, if_neg hk] at h
        rcases List.mem_cons.mp h with h1 | h1
        · exact Or.inl (h1 ▸ List.mem_cons_self _ _)
        · rcases ih id nv p h1 with h2 | h2
          · exact Or.inl (List.mem_cons_of_mem _ h2)
          · exact Or.inr h2

/-- A processor class that never raises the graph-construction errors
`UnknownInput` / `UnicityViolation` from `validate_args` or `process`.
In the source these two are raised only by `add_node` and
`set`/`set_value`; engine-side node execution raises neither. -/
def CleanClass (c : ProcClass) : Prop :=
  ∀ kwargs, c.validateFn kwargs ≠ Except.error Exc.unknownInput ∧
    c.validateFn kwargs ≠ Except.error Exc.unicityViolation ∧
    c.processFn kwargs ≠ Except.error Exc.unknownInput ∧
    c.processFn kwargs ≠ Except.error Exc.unicityViolation

/-- Every processor class on the heap is clean. -/
def CleanNodes (nodes : List (Nat × NodeRec)) : Prop :=
  ∀ p ∈ nodes, CleanClass p.2.pclass

/-- Rebinding one record with a clean class keeps the heap clean. -/
theorem cleanNodes_setNode {nodes : List (Nat × NodeRec)} {id : Nat}
    {nv : NodeRec} (h : CleanNodes nodes) (hc : CleanClass nv.pclass) :
    CleanNodes (setNode nodes id nv) := by
  intro p hp
  rcases mem_setNode nodes id nv p hp with h1 | h1
  · exact h p h1
  · rw [h1]
    exact hc

/-- The `_node` touch keeps the heap clean. -/
theorem touchInstance_clean {s : GState} {id : Nat}
    (h : CleanNodes s.nodes) :
    CleanNodes (touchInstance s id).1.nodes := by
  rcases hlk : lookupNode s.nodes id with _ | n
  · simpa [touchInstance, hlk] using h
  · by_cases hl : n.lazy_inited
    · simpa [touchInstance, hlk, hl] using h
    · simp only [touchInstance, hlk, hl, Bool.false_eq_true, if_false]
      exact cleanNodes_setNode h (h _ (mem_of_lookupNode s.nodes id n hlk))

/-- Error provenance of the mutual input-resolution functions on a
clean heap: the heap stays clean, and no error they return is
`UnknownInput` or `UnicityViolation`. -/
theorem mutual_clean : ∀ fuel : Nat,
    (∀ (s : GState) (inputs : List (String × InputVal)),
      CleanNodes s.nodes →
      CleanNodes (fillInputs fuel s inputs).1.nodes ∧
      ∀ e, (fillInputs fuel s inputs).2.2 = Except.error e →
        e ≠ Exc.unknownInput ∧ e ≠ Exc.unicityViolation) ∧
    (∀ (s : GState) (uid : Nat),
      CleanNodes s.nodes →
      CleanNodes (overridenResult fuel s uid).1.nodes ∧
      ∀ e, (overridenResult fuel s uid).2.2 = Except.error e →
        e ≠ Exc.unknownInput ∧ e ≠ Exc.unicityViolation) ∧
    (∀ (s : GState) (id : Nat),
      CleanNodes s.nodes →
      CleanNodes (filledInInputs fuel s id).1.nodes ∧
      ∀ e, (filledInInputs fuel s id).2.2 = Except.error e →
        e ≠ Exc.unknownInput ∧ e ≠ Exc.unicityViolation) := by
  intro fuel
  induction fuel using Nat.strong_induction_on with
  | _ fuel ih =>
  have hOv : ∀ (s : GState) (uid : Nat),
      CleanNodes s.nodes →
      CleanNodes (overridenResult fuel s uid).1.nodes ∧
      ∀ e, (overridenResult fuel s uid).2.2 = Except.error e →
        e ≠ Exc.unknownInput ∧ e ≠ Exc.unicityViolation := by
    intro s uid hcl
    rcases hlk : lookupNode s.nodes uid with _ | un
    · refine ⟨by simpa [overridenResult, hlk] using hcl, ?_⟩
      intro e he
      simp [overridenResult, hlk] at he
      subst he
      exact ⟨by simp, by simp⟩
    · rcases hov : un.manual_override with _ | f
      · refine ⟨by simpa [overridenResult, hlk, hov] using hcl, ?_⟩
        intro e he
        simp [overridenResult, hlk, hov] at he
      · cases fuel with
        | zero =>
            refine ⟨by simpa [overridenResult, hlk, hov] using hcl, ?_⟩
            intro e he
            simp [overridenResult, hlk, hov] at he
            subst he
            exact ⟨by simp, by simp⟩
        | succ fuel2 =>
            have hFd := (ih fuel2 (by omega)).2.2 s uid hcl
            rcases hfi : filledInInputs fuel2 s uid with ⟨s1, ev1, rf⟩
            rw [hfi] at hFd
            simp only at hFd
            obtain ⟨hcl1, herr1⟩ := hFd
            cases rf with
            | error e0 =>
                refine ⟨by simpa [overridenResult, hlk, hov, hfi] using hcl1,
                  ?_⟩
                intro e he
                simp [overridenResult, hlk, hov, hfi] at he
                subst he
                exact herr1 e0 rfl
            | ok kwargs =>
                rcases hlk1 : lookupNode s1.nodes uid with _ | un1
                · refine ⟨by simpa [overridenResult, hlk, hov, hfi, hlk1]
                      using hcl1, ?_⟩
                  intro e he
                  simp [overridenResult, hlk, hov, hfi, hlk1] at he
                  subst he
                  exact ⟨by simp, by simp⟩
                · by_cases hpe : pyEq un1.result (f un.result kwargs) = true
                  · refine ⟨by simpa [overridenResult, hlk, hov, hfi, hlk1,
                        hpe] using hcl1, ?_⟩
                    intro e he
                    simp [overridenResult, hlk, hov, hfi, hlk1, hpe] at he
                  · refine ⟨?_, ?_⟩
                    · have hstep : CleanNodes (setNode s1.nodes uid
                          { un1 with was_overridden := true }) :=
                        cleanNodes_setNode hcl1
                          (hcl1 _ (mem_of_lookupNode s1.nodes uid un1 hlk1))
                      simpa [overridenResult, hlk, hov, hfi, hlk1, hpe]
                        using hstep
                    · intro e he
                      simp [overridenResult, hlk, hov, hfi, hlk1, hpe] at he
  have hFill : ∀ (inputs : List (String × InputVal)) (s : GState),
      CleanNodes s.nodes →
      CleanNodes (fillInputs fuel s inputs).1.nodes ∧
      ∀ e, (fillInputs fuel s inputs).2.2 = Except.error e →
        e ≠ Exc.unknownInput ∧ e ≠ Exc.unicityViolation := by
    intro inputs
    induction inputs with
    | nil =>
        intro s hcl
        refine ⟨by simpa [fillInputs] using hcl, ?_⟩
        intro e he
        simp [fillInputs] at he
    | cons p rest ihr =>
        obtain ⟨nm, iv⟩ := p
        intro s hcl
        cases iv with
        | lit v =>
            have hR := ihr s hcl
            rcases hr : fillInputs fuel s rest with ⟨s2, ev2, r⟩
            rw [hr] at hR
            simp only at hR
            obtain ⟨hcl2, herr2⟩ := hR
            cases r with
            | error e0 =>
                refine ⟨by simpa [fillInputs, hr] using hcl2, ?_⟩
                intro e he
                simp [fillInputs, hr] at he
                subst he
                exact herr2 e0 rfl
            | ok kws =>
                refine ⟨by simpa [fillInputs, hr] using hcl2, ?_⟩
                intro e he
                simp [fillInputs, hr] at he
        | ref u =>
            rcases hlk : lookupNode s.nodes u with _ | un
            · refine ⟨by simpa [fillInputs, hlk] using hcl, ?_⟩
              intro e he
              simp [fillInputs, hlk] at he
              subst he
              exact ⟨by simp, by simp⟩
            · by_cases hres : hasResult un
              · have hO := hOv s u hcl
                rcases hov : overridenResult fuel s u with ⟨s1, ev1, r1⟩
                rw [hov] at hO
                simp only at hO
                obtain ⟨hcl1, herr1⟩ := hO
                cases r1 with
                | error e0 =>
                    refine ⟨by simpa [fillInputs, hlk, hres, hov] using hcl1,
                      ?_⟩
                    intro e he
                    simp [fillInputs, hlk, hres, hov] at he
                    subst he
                    exact herr1 e0 rfl
                | ok v1 =>
                    have hR := ihr s1 hcl1
                    rcases hr : fillInputs fuel s1 rest with ⟨s2, ev2, r⟩
                    rw [hr] at hR
                    simp only at hR
                    obtain ⟨hcl2, herr2⟩ := hR
                    cases r with
                    | error e0 =>
                        refine ⟨by simpa [fillInputs, hlk, hres, hov, hr]
                            using hcl2, ?_⟩
                        intro e he
                        simp [fillInputs, hlk, hres, hov, hr] at he
                        subst he
                        exact herr2 e0 rfl
                    | ok kws =>
                        refine ⟨by simpa [fillInputs, hlk, hres, hov, hr]
                            using hcl2, ?_⟩
                        intro e he
                        simp [fillInputs, hlk, hres, hov, hr] at he
              · refine ⟨by simpa [fillInputs, hlk, hres] using hcl, ?_⟩
                intro e he
                simp [fillInputs, hlk, hres] at he
                subst he
                exact ⟨by simp, by simp⟩
  refine ⟨fun s inputs => hFill inputs s, hOv, ?_⟩
  intro s id hcl
  rcases hlk : lookupNode s.nodes id with _ | n
  · refine ⟨by simpa [filledInInputs, hlk] using hcl, ?_⟩
    intro e he
    simp [filledInInputs, hlk] at he
    subst he
    exact ⟨by simp, by simp⟩
  · have hF := hFill n.inputs s hcl
    rcases hfi : fillInputs fuel s n.inputs with ⟨s1, ev1, r⟩
    rw [hfi] at hF
    simp only at hF
    obtain ⟨hcl1, herr1⟩ := hF
    cases r with
    | error e0 =>
        refine ⟨by simpa [filledInInputs, hlk, hfi] using hcl1, ?_⟩
        intro e he
        simp [filledInInputs, hlk, hfi] at he
        subst he
        exact herr1 e0 rfl
    | ok kwargs =>
        have hcl2 : CleanNodes (touchInstance s1 id).1.nodes :=
          touchInstance_clean hcl1
        rcases hti : touchInstance s1 id with ⟨s2, ev2⟩
        rw [hti] at hcl2
        simp only at hcl2
        have hcc : CleanClass n.pclass :=
          hcl _ (mem_of_lookupNode s.nodes id n hlk)
        cases hv : n.pclass.validateFn kwargs with
        | error e0 =>
            refine ⟨by simpa [filledInInputs, hlk, hfi, hti, hv] using hcl2,
              ?_⟩
            intro e he
            simp [filledInInputs, hlk, hfi, hti, hv] at he
            subst he
            refine ⟨fun hek => ?_, fun hek => ?_⟩
            · exact (hcc kwargs).1 (by rw [hv, hek])
            · exact (hcc kwargs).2.1 (by rw [hv, hek])
        | ok u =>
            refine ⟨by simpa [filledInInputs, hlk, hfi, hti, hv] using hcl2,
              ?_⟩
            intro e he
            simp [filledInInputs, hlk, hfi, hti, hv] at he

/-- On a clean heap, the node-execution call (`internal_run`, the code
guarded by the `try` of `process_batch`) never raises `UnknownInput` or
`UnicityViolation`: those are graph-construction errors. -/
theorem internalRun_clean (fuel : Nat) (s : GState) (id : Nat)
    (s2 : GState) (ev : List Ev) (e : Exc)
    (hcl : CleanNodes s.nodes)
    (h : internalRun fuel s id = (s2, ev, Except.error e)) :
    e ≠ Exc.unknownInput ∧ e ≠ Exc.unicityViolation := by
  rcases hlk : lookupNode s.nodes id with _ | n
  · simp only [internalRun, hlk] at h
    injection h with h1 h2
    injection h2 with h2 h3
    injection h3 with h3
    subst h3
    exact ⟨by simp, by simp⟩
  · simp only [internalRun, hlk] at h
    cases hnu : needsUpdate (lookupNode s.nodes) n with
    | false =>
        rw [hnu] at h
        simp at h
    | true =>
        rw [hnu] at h
        simp only [if_true] at h
        rcases hrr : refreshResult fuel s id with ⟨s1, ev1, r1⟩
        rw [hrr] at h
        cases r1 with
        | ok u =>
            dsimp only at h
            rcases hlk1 : lookupNode s1.nodes id with _ | n2
            · rw [hlk1] at h
              dsimp only at h
              injection h with h1 h2
              injection h2 with h2 h3
              injection h3 with h3
              subst h3
              exact ⟨by simp, by simp⟩
            · rw [hlk1] at h
              simp at h
        | error e1 =>
            dsimp only at h
            injection h with h1 h2
            injection h2 with h2 h3
            injection h3 with h3
            subst h3
            -- analyze refreshResult
            have hFd := (mutual_clean fuel).2.2 s id hcl
            rcases hfi : filledInInputs fuel s id with ⟨sf, evf, rf⟩
            rw [hfi] at hFd
            simp only at hFd
            obtain ⟨hclf, herrf⟩ := hFd
            simp only [refreshResult] at hrr
            rw [hfi] at hrr
            cases rf with
            | error e0 =>
                dsimp only at hrr
                injection hrr with g1 g2
                injection g2 with g2 g3
                injection g3 with g3
                rw [← g3]
                exact herrf e0 rfl
            | ok kwargs =>
                dsimp only at hrr
                rcases hlkf : lookupNode sf.nodes id with _ | nf
                · rw [hlkf] at hrr
                  dsimp only at hrr
                  injection hrr with g1 g2
                  injection g2 with g2 g3
                  injection g3 with g3
                  rw [← g3]
                  exact ⟨by simp, by simp⟩
                · rw [hlkf] at hrr
                  dsimp only at hrr
                  by_cases hdry : nf.dry_run
                  · rw [if_pos hdry] at hrr
                    simp at hrr
                  · rw [if_neg hdry] at hrr
                    rcases hpf : nf.pclass.processFn kwargs with e2 | pv
                    · rw [hpf] at hrr
                      dsimp only at hrr
                      injection hrr with g1 g2
                      injection g2 with g2 g3
                      injection g3 with g3
                      rw [← g3]
                      have hcc : CleanClass nf.pclass :=
                        hclf _ (mem_of_lookupNode sf.nodes id nf hlkf)
                      refine ⟨fun hek => ?_, fun hek => ?_⟩
                      · exact (hcc kwargs).2.2.1 (by rw [hpf, hek])
                      · exact (hcc kwargs).2.2.2 (by rw [hpf, hek])
                    · rw [hpf] at hrr
                      simp at hrr

/-- Processor class whose argument validation raises `TypeMismatch`. -/
def tmClass : ProcClass :=
  { pname := "tm"
    processFn := fun _ => Except.ok PyVal.none
    validateFn := fun _ => Except.error Exc.typeMismatch }

/-- One-node graph whose node fails validation with `TypeMismatch`. -/
def tmState : GState :=
  { nodes := [(1, { mkNode 1 with pclass := tmClass })]
    deps := [(1, [])]
    autoSavePath := Option.none
    times := fun _ => 0
    clock := 0 }

/-- One-node graph with a self-loop dependency. -/
def cycState : GState :=
  { nodes := [(1, mkNode 1)]
    deps := [(1, [1])]
    autoSavePath := Option.none
    times := fun _ => 0
    clock := 0 }

/-- Fresh batch state over a graph. -/
def batchSt0 (g : GState) : BatchSt :=
  { g := g, stats := { completed := 0, failures := [] }
    errIdx := [], log := [], evs := [] }

/-- `prep_fn` that calls `persist`, binding an auto-save path. -/
def prepSet : HookFn :=
  fun _ _ g => ({ g with autoSavePath := Option.some "b.json" }, Except.ok ())

/-- `prep_fn` that returns without calling `persist`. -/
def prepDrop : HookFn :=
  fun _ _ g => (g, Except.ok ())

/-- The graph of `tmState` after `prepSet` has bound the save path. -/
def g2c : GState := { tmState with autoSavePath := Option.some "b.json" }

/-- C1 counterexample: the engine-raised `TypeMismatch` (from argument
validation inside the node-execution call) IS caught by the
`except Exception` handler of `process_batch` when `fault_tolerant=True`:
the batch returns normally with the pair recorded in the failures list,
contradicting the claim that `TypeMismatch` is never caught and always
aborts the traversal. -/
theorem C1_engine_error_caught_counterexample :
    (processBatch tmState [PyVal.int 7] [1] prepSet Option.none Option.none
      true).2 =
    Except.ok { completed := 0
                failures := [⟨0, PyVal.int 7, 1, Exc.typeMismatch⟩] } := by
  simp [processBatch, topoSortSubgraph, topoSort, getDependencies, getDepsAux,
        depsUniverse, addUnvisited, insertOnce, depsGet, allNodes, indeg0,
        kahnLoop, processNeighbors, revAdj, batchNodes, batchItems, prepSet,
        internalRun, needsUpdate, refreshResult, filledInInputs, fillInputs,
        touchInstance, releaseAll, releaseNode, resetNode, tmState, tmClass,
        mkNode, lookupNode, setNode, List.enum]

/-- C1 (amended): the true fault-tolerance scope of `process_batch`.
(i) a `CycleDetected` from the topological sort aborts before any hook
or node call, for both fault-tolerance settings; (ii) `PrepMissingPersist`
is raised outside the `try` and always aborts; (iii) with
`fault_tolerant=False` ANY exception escaping the node-execution call —
engine-raised `TypeMismatch` / `UpstreamNotComputed` included — is
re-raised at once with nothing recorded; (iv) with `fault_tolerant=True`
ANY such exception — engine-raised ones included — is caught: the
(item index, item, node, exception) failure is recorded, the item is
poisoned, and the loop continues; (v) a poisoned item is skipped without
any hook or node call; (vi) the node-execution call itself never raises
`UnknownInput` or `UnicityViolation` (on a heap of processor classes
that do not raise them; in the source they are raised only by
`add_node` and `set`/`set_value`, never inside `_run_only`); (vii) and
(viii) the only way those two errors can surface in `process_batch` —
out of the user hooks `prep_fn` / `post_fn` — aborts the loop at once
for both fault-tolerance settings with nothing recorded, as the
original claim said.  Parts (iii) and (iv) refute the claim for
`TypeMismatch` and `UpstreamNotComputed` only. -/
theorem C1_fault_tolerance_scope :
    (∀ (s : GState) (items : List PyVal) (finalNodes : List Nat)
        (prep : HookFn) (post : Option HookFn) (ra : Option (List Nat))
        (ft : Bool) (e : Exc),
      topoSortSubgraph finalNodes s.deps = Except.error e →
      (processBatch s items finalNodes prep post ra ft).1.log = [] ∧
      (processBatch s items finalNodes prep post ra ft).2 = Except.error e) ∧
    (∀ (fuel : Nat) (prep : HookFn) (post : Option HookFn) (ft : Bool)
        (nodeId : Nat) (isLast : Bool) (idx : Nat) (item : PyVal)
        (rest : List (Nat × PyVal)) (st : BatchSt) (g2 : GState) (u : Unit),
      idx ∉ st.errIdx →
      prep idx item { st.g with autoSavePath := Option.none } =
        (g2, Except.ok u) →
      g2.autoSavePath.isNone = true →
      (batchItems fuel prep post ft nodeId isLast ((idx, item) :: rest)
        st).2 = Option.some Exc.prepMissingPersist) ∧
    (∀ (fuel : Nat) (prep : HookFn) (post : Option HookFn) (nodeId : Nat)
        (isLast : Bool) (idx : Nat) (item : PyVal)
        (rest : List (Nat × PyVal)) (st : BatchSt) (g2 g3 : GState)
        (u : Unit) (ev : List Ev) (e : Exc),
      idx ∉ st.errIdx →
      prep idx item { st.g with autoSavePath := Option.none } =
        (g2, Except.ok u) →
      g2.autoSavePath.isNone = false →
      internalRun fuel g2 nodeId = (g3, ev, Except.error e) →
      (batchItems fuel prep post false nodeId isLast ((idx, item) :: rest)
          st).2 = Option.some e ∧
      (batchItems fuel prep post false nodeId isLast ((idx, item) :: rest)
          st).1.stats.failures = st.stats.failures) ∧
    (∀ (fuel : Nat) (prep : HookFn) (post : Option HookFn) (nodeId : Nat)
        (isLast : Bool) (idx : Nat) (item : PyVal)
        (rest : List (Nat × PyVal)) (st : BatchSt) (g2 g3 : GState)
        (u : Unit) (ev : List Ev) (e : Exc),
      idx ∉ st.errIdx →
      prep idx item { st.g with autoSavePath := Option.none } =
        (g2, Except.ok u) →
      g2.autoSavePath.isNone = false →
      internalRun fuel g2 nodeId = (g3, ev, Except.error e) →
      batchItems fuel prep post true nodeId isLast ((idx, item) :: rest) st =
        batchItems fuel prep post true nodeId isLast rest
          { st with
            g := g3, evs := st.evs ++ ev,
            log := st.log ++ [BCall.prepCall idx, BCall.runCall nodeId idx],
            errIdx := st.errIdx ++ [idx],
            stats := { st.stats with failures :=
              st.stats.failures ++ [⟨idx, item, nodeId, e⟩] } }) ∧
    (∀ (fuel : Nat) (prep : HookFn) (post : Option HookFn) (ft : Bool)
        (nodeId : Nat) (isLast : Bool) (idx : Nat) (item : PyVal)
        (rest : List (Nat × PyVal)) (st : BatchSt),
      idx ∈ st.errIdx →
      batchItems fuel prep post ft nodeId isLast ((idx, item) :: rest) st =
        batchItems fuel prep post ft nodeId isLast rest st) ∧
    (∀ (fuel : Nat) (s : GState) (id : Nat) (s2 : GState) (ev : List Ev)
        (e : Exc),
      CleanNodes s.nodes →
      internalRun fuel s id = (s2, ev, Except.error e) →
      e ≠ Exc.unknownInput ∧ e ≠ Exc.unicityViolation) ∧
    (∀ (fuel : Nat) (prep : HookFn) (post : Option HookFn) (ft : Bool)
        (nodeId : Nat) (isLast : Bool) (idx : Nat) (item : PyVal)
        (rest : List (Nat × PyVal)) (st : BatchSt) (g2 : GState) (e : Exc),
      idx ∉ st.errIdx →
      prep idx item { st.g with autoSavePath := Option.none } =
        (g2, Except.error e) →
      (batchItems fuel prep post ft nodeId isLast ((idx, item) :: rest)
        st).2 = Option.some e ∧
      (batchItems fuel prep post ft nodeId isLast ((idx, item) :: rest)
        st).1.stats = st.stats) ∧
    (∀ (fuel : Nat) (prep : HookFn) (pf : HookFn) (ft : Bool) (nodeId : Nat)
        (idx : Nat) (item : PyVal) (rest : List (Nat × PyVal)) (st : BatchSt)
        (g2 g3 g4 : GState) (u : Unit) (ev : List Ev) (v : PyVal) (e : Exc),
      idx ∉ st.errIdx →
      prep idx item { st.g with autoSavePath := Option.none } =
        (g2, Except.ok u) →
      g2.autoSavePath.isNone = false →
      internalRun fuel g2 nodeId = (g3, ev, Except.ok v) →
      pf idx item g3 = (g4, Except.error e) →
      (batchItems fuel prep (Option.some pf) ft nodeId true
        ((idx, item) :: rest) st).2 = Option.some e ∧
      (batchItems fuel prep (Option.some pf) ft nodeId true
        ((idx, item) :: rest) st).1.stats.failures = st.stats.failures) := by
  refine ⟨?_, ?_, ?_, ?_, ?_, ?_, ?_, ?_⟩
  · intro s items finalNodes prep post ra ft e h
    rw [processBatch_topo_error s items finalNodes prep post ra ft e h]
    exact ⟨rfl, rfl⟩
  · intro fuel prep post ft nodeId isLast idx item rest st g2 u h1 h2 h3
    rw [batchItems_prep_no_persist fuel prep post ft nodeId isLast idx item
      rest st g2 u h1 h2 h3]
  · intro fuel prep post nodeId isLast idx item rest st g2 g3 u ev e
      h1 h2 h3 h4
    rw [batchItems_run_error_ff fuel prep post nodeId isLast idx item rest st
      g2 g3 u ev e h1 h2 h3 h4]
    exact ⟨rfl, rfl⟩
  · intro fuel prep post nodeId isLast idx item rest st g2 g3 u ev e
      h1 h2 h3 h4
    exact batchItems_run_error_ft fuel prep post nodeId isLast idx item rest
      st g2 g3 u ev e h1 h2 h3 h4
  · intro fuel prep post ft nodeId isLast idx item rest st h
    exact batchItems_skip fuel prep post ft nodeId isLast idx item rest st h
  · intro fuel s id s2 ev e hcl h
    exact internalRun_clean fuel s id s2 ev e hcl h
  · intro fuel prep post ft nodeId isLast idx item rest st g2 e h1 h2
    rw [batchItems_prep_error fuel prep post ft nodeId isLast idx item rest
      st g2 e h1 h2]
    exact ⟨rfl, rfl⟩
  · intro fuel prep pf ft nodeId idx item rest st g2 g3 g4 u ev v e
      h1 h2 h3 h4 h5
    rw [batchItems_post_error fuel prep pf ft nodeId idx item rest st
      g2 g3 g4 u ev v e h1 h2 h3 h4 h5]
    exact ⟨rfl, rfl⟩

/-- `prep_fn` that raises the engine's `UnknownInput`. -/
def prepUnknown : HookFn :=
  fun _ _ g => (g, Except.error Exc.unknownInput)

/-- `post_fn` that raises the engine's `UnicityViolation`. -/
def postUnicity : HookFn :=
  fun _ _ g => (g, Except.error Exc.unicityViolation)

/-- One trivially-succeeding node. -/
def okState : GState :=
  { nodes := [(1, mkNode 1)]
    deps := [(1, [])]
    autoSavePath := Option.none
    times := fun _ => 0
    clock := 0 }

/-- The graph of `okState` after `prepSet` has bound the save path. -/
def gok2 : GState := { okState with autoSavePath := Option.some "b.json" }

/-- Closed instance of every part of `C1_fault_tolerance_scope`: the
cycle abort, the missing-persist abort, the `fault_tolerant=False`
re-raise of the engine's `TypeMismatch`, the `fault_tolerant=True`
catch-record-continue of the same `TypeMismatch`, the skip of a
poisoned item, the provenance of the `TypeMismatch` escaping the
node-execution call (not `UnknownInput`, not `UnicityViolation`), an
`UnknownInput` surfacing from `prep_fn` aborting even under fault
tolerance, and a `UnicityViolation` surfacing from `post_fn` aborting
even under fault tolerance. -/
theorem C1_fault_tolerance_scope_witness :
    (processBatch cycState [] [1] prepSet Option.none Option.none true).2 =
      Except.error Exc.cycleDetected ∧
    (batchItems 2 prepDrop Option.none true 1 true [(0, PyVal.int 7)]
      (batchSt0 tmState)).2 = Option.some Exc.prepMissingPersist ∧
    (batchItems 2 prepSet Option.none false 1 true [(0, PyVal.int 7)]
      (batchSt0 tmState)).2 = Option.some Exc.typeMismatch ∧
    (batchItems 2 prepSet Option.none true 1 true [(0, PyVal.int 7)]
      (batchSt0 tmState)).1.stats.failures =
      [⟨0, PyVal.int 7, 1, Exc.typeMismatch⟩] ∧
    (batchItems 2 prepSet Option.none true 1 true [(0, PyVal.int 7)]
      { batchSt0 tmState with errIdx := [0] }).1.log = [] ∧
    (Exc.typeMismatch ≠ Exc.unknownInput ∧
      Exc.typeMismatch ≠ Exc.unicityViolation) ∧
    (batchItems 2 prepUnknown Option.none true 1 true [(0, PyVal.int 7)]
      (batchSt0 tmState)).2 = Option.some Exc.unknownInput ∧
    (batchItems 2 prepSet (Option.some postUnicity) true 1 true
      [(0, PyVal.int 7)] (batchSt0 okState)).2 =
      Option.some Exc.unicityViolation := by
  obtain ⟨c1, c2, c3, c4, c5, c6p, c7p, c8p⟩ := C1_fault_tolerance_scope
  have hcyc : topoSortSubgraph [1] cycState.deps =
      Except.error Exc.cycleDetected := by
    simp [topoSortSubgraph, topoSort, getDependencies, getDepsAux,
          depsUniverse, addUnvisited, insertOnce, depsGet, allNodes, indeg0,
          kahnLoop, processNeighbors, revAdj, cycState]
  have hrr : (internalRun 2 g2c 1).2.2 = Except.error Exc.typeMismatch := by
    simp [internalRun, needsUpdate, refreshResult, filledInInputs, fillInputs,
          touchInstance, g2c, tmState, tmClass, mkNode, lookupNode, setNode]
  have h4 : internalRun 2 g2c 1 =
      ((internalRun 2 g2c 1).1, (internalRun 2 g2c 1).2.1,
        Except.error Exc.typeMismatch) := by
    rw [← hrr]
  have hclean : CleanNodes g2c.nodes := by
    intro p hp
    simp [g2c, tmState] at hp
    subst hp
    intro kwargs
    refine ⟨?_, ?_, ?_, ?_⟩ <;> simp [tmClass]
  have hok : (internalRun 2 gok2 1).2.2 = Except.ok PyVal.none := by
    simp [internalRun, needsUpdate, refreshResult, filledInInputs, fillInputs,
          touchInstance, onNodeResult, saveTo, DRY_RUN, resultsDict, hasResult,
          okState, gok2, mkNode, trivialClass, lookupNode, setNode]
  have h4ok : internalRun 2 gok2 1 =
      ((internalRun 2 gok2 1).1, (internalRun 2 gok2 1).2.1,
        Except.ok PyVal.none) := by
    rw [← hok]
  refine ⟨(c1 cycState [] [1] prepSet Option.none Option.none true
      Exc.cycleDetected hcyc).2, ?_, ?_, ?_, ?_, ?_, ?_, ?_⟩
  · exact c2 2 prepDrop Option.none true 1 true 0 (PyVal.int 7) []
      (batchSt0 tmState) { tmState with autoSavePath := Option.none } ()
      (by simp [batchSt0]) rfl rfl
  · exact (c3 2 prepSet Option.none 1 true 0 (PyVal.int 7) []
      (batchSt0 tmState) g2c (internalRun 2 g2c 1).1
      () (internalRun 2 g2c 1).2.1 Exc.typeMismatch
      (by simp [batchSt0]) rfl rfl h4).1
  · rw [c4 2 prepSet Option.none 1 true 0 (PyVal.int 7) []
      (batchSt0 tmState) g2c (internalRun 2 g2c 1).1
      () (internalRun 2 g2c 1).2.1 Exc.typeMismatch
      (by simp [batchSt0]) rfl rfl h4]
    simp [batchItems, batchSt0]
  · rw [c5 2 prepSet Option.none true 1 true 0 (PyVal.int 7) []
      { batchSt0 tmState with errIdx := [0] } (by simp)]
    simp [batchItems, batchSt0]
  · exact c6p 2 g2c 1 (internalRun 2 g2c 1).1 (internalRun 2 g2c 1).2.1
      Exc.typeMismatch hclean h4
  · exact (c7p 2 prepUnknown Option.none true 1 true 0 (PyVal.int 7) []
      (batchSt0 tmState) { tmState with autoSavePath := Option.none }
      Exc.unknownInput (by simp [batchSt0]) rfl).1
  · exact (c8p 2 prepSet postUnicity true 1 0 (PyVal.int 7) []
      (batchSt0 okState) gok2 (internalRun 2 gok2 1).1
      (internalRun 2 gok2 1).1 () (internalRun 2 gok2 1).2.1 PyVal.none
      Exc.unicityViolation (by simp [batchSt0]) rfl rfl h4ok rfl).1

/-!
### C9: `prep_fn` / `post_fn` are outside the guarded region
-/

/-- `prep_fn` that raises a user exception. -/
def prepErr : HookFn :=
  fun _ _ g => (g, Except.error (Exc.userError 5))

/-- `post_fn` that raises a user exception. -/
def postErr : HookFn :=
  fun _ _ g => (g, Except.error (Exc.userError 9))

/-- C9: the `try` of `process_batch` wraps only the node-execution
call.  (i) an exception in `prep_fn` aborts the item loop at once for
both fault-tolerance settings, leaving the statistics untouched — no
failures entry; (ii) an exception in `post_fn` on the last node likewise
aborts for both settings with no failures entry, and it strikes after
the item has already been counted completed: the returned completed
count is incremented and the `post_fn` call was made with that
incremented count; (iii) an exception escaping the node loop makes
`process_batch` itself raise, so no `BatchStats` is returned; (iv) an
item-loop exception propagates out of the node loop unchanged. -/
theorem C9_hooks_unguarded :
    (∀ (fuel : Nat) (prep : HookFn) (post : Option HookFn) (ft : Bool)
        (nodeId : Nat) (isLast : Bool) (idx : Nat) (item : PyVal)
        (rest : List (Nat × PyVal)) (st : BatchSt) (g2 : GState) (e : Exc),
      idx ∉ st.errIdx →
      prep idx item { st.g with autoSavePath := Option.none } =
        (g2, Except.error e) →
      (batchItems fuel prep post ft nodeId isLast ((idx, item) :: rest)
        st).2 = Option.some e ∧
      (batchItems fuel prep post ft nodeId isLast ((idx, item) :: rest)
        st).1.stats = st.stats ∧
      (batchItems fuel prep post ft nodeId isLast ((idx, item) :: rest)
        st).1.log = st.log ++ [BCall.prepCall idx]) ∧
    (∀ (fuel : Nat) (prep : HookFn) (pf : HookFn) (ft : Bool) (nodeId : Nat)
        (idx : Nat) (item : PyVal) (rest : List (Nat × PyVal)) (st : BatchSt)
        (g2 g3 g4 : GState) (u : Unit) (ev : List Ev) (v : PyVal) (e : Exc),
      idx ∉ st.errIdx →
      prep idx item { st.g with autoSavePath := Option.none } =
        (g2, Except.ok u) →
      g2.autoSavePath.isNone = false →
      internalRun fuel g2 nodeId = (g3, ev, Except.ok v) →
      pf idx item g3 = (g4, Except.error e) →
      (batchItems fuel prep (Option.some pf) ft nodeId true
        ((idx, item) :: rest) st).2 = Option.some e ∧
      (batchItems fuel prep (Option.some pf) ft nodeId true
        ((idx, item) :: rest) st).1.stats.completed =
        st.stats.completed + 1 ∧
      (batchItems fuel prep (Option.some pf) ft nodeId true
        ((idx, item) :: rest) st).1.stats.failures = st.stats.failures ∧
      (batchItems fuel prep (Option.some pf) ft nodeId true
        ((idx, item) :: rest) st).1.log =
        st.log ++ [BCall.prepCall idx, BCall.runCall nodeId idx,
          BCall.postCall idx (st.stats.completed + 1)]) ∧
    (∀ (s : GState) (items : List PyVal) (finalNodes : List Nat)
        (prep : HookFn) (post : Option HookFn) (ra : Option (List Nat))
        (ft : Bool) (order : List Nat) (st1 : BatchSt) (e : Exc),
      topoSortSubgraph finalNodes s.deps = Except.ok order →
      batchNodes (s.nodes.length + 1) prep post ft ra items.enum order
        (batchSt0 s) = (st1, Option.some e) →
      processBatch s items finalNodes prep post ra ft =
        (st1, Except.error e)) ∧
    (∀ (fuel : Nat) (prep : HookFn) (post : Option HookFn) (ft : Bool)
        (ra : Option (List Nat)) (items : List (Nat × PyVal)) (nodeId : Nat)
        (restNodes : List Nat) (st st1 : BatchSt) (e : Exc),
      batchItems fuel prep post ft nodeId restNodes.isEmpty items st =
        (st1, Option.some e) →
      batchNodes fuel prep post ft ra items (nodeId :: restNodes) st =
        (st1, Option.some e)) := by
  refine ⟨?_, ?_, ?_, ?_⟩
  · intro fuel prep post ft nodeId isLast idx item rest st g2 e h1 h2
    rw [batchItems_prep_error fuel prep post ft nodeId isLast idx item rest
      st g2 e h1 h2]
    exact ⟨rfl, rfl, rfl⟩
  · intro fuel prep pf ft nodeId idx item rest st g2 g3 g4 u ev v e
      h1 h2 h3 h4 h5
    rw [batchItems_post_error fuel prep pf ft nodeId idx item rest st
      g2 g3 g4 u ev v e h1 h2 h3 h4 h5]
    exact ⟨rfl, rfl, rfl, rfl⟩
  · intro s items finalNodes prep post ra ft order st1 e h1 h2
    exact processBatch_nodes_error s items finalNodes prep post ra ft order
      st1 e h1 h2
  · intro fuel prep post ft ra items nodeId restNodes st st1 e h
    exact batchNodes_error fuel prep post ft ra items nodeId restNodes
      st st1 e h

/-- Closed instance of `C9_hooks_unguarded`: a raising `prep_fn` aborts
with untouched statistics even under fault tolerance; a raising
`post_fn` aborts with the completion already counted; the abort turns
into a raise of `process_batch` itself. -/
theorem C9_hooks_unguarded_witness :
    (batchItems 2 prepErr Option.none true 1 true [(0, PyVal.int 7)]
      (batchSt0 okState)).2 = Option.some (Exc.userError 5) ∧
    (batchItems 2 prepErr Option.none true 1 true [(0, PyVal.int 7)]
      (batchSt0 okState)).1.stats = (batchSt0 okState).stats ∧
    (batchItems 2 prepSet (Option.some postErr) true 1 true
      [(0, PyVal.int 7)] (batchSt0 okState)).2 =
      Option.some (Exc.userError 9) ∧
    (batchItems 2 prepSet (Option.some postErr) true 1 true
      [(0, PyVal.int 7)] (batchSt0 okState)).1.stats.completed = 1 ∧
    (batchItems 2 prepSet (Option.some postErr) true 1 true
      [(0, PyVal.int 7)] (batchSt0 okState)).1.stats.failures = [] ∧
    (processBatch okState [PyVal.int 7] [1] prepErr Option.none Option.none
      true).2 = Except.error (Exc.userError 5) := by
  obtain ⟨c1, c2, c3, c4⟩ := C9_hooks_unguarded
  have hok : (internalRun 2 gok2 1).2.2 = Except.ok PyVal.none := by
    simp [internalRun, needsUpdate, refreshResult, filledInInputs, fillInputs,
          touchInstance, onNodeResult, saveTo, DRY_RUN, resultsDict, hasResult,
          okState, gok2, mkNode, trivialClass, lookupNode, setNode]
  have h4 : internalRun 2 gok2 1 =
      ((internalRun 2 gok2 1).1, (internalRun 2 gok2 1).2.1,
        Except.ok PyVal.none) := by
    rw [← hok]
  obtain ⟨a1, a2, _⟩ := c1 2 prepErr Option.none true 1 true 0 (PyVal.int 7)
    [] (batchSt0 okState) { okState with autoSavePath := Option.none }
    (Exc.userError 5) (by simp [batchSt0]) rfl
  obtain ⟨b1, b2, b3, _⟩ := c2 2 prepSet postErr true 1 0 (PyVal.int 7) []
    (batchSt0 okState) gok2 (internalRun 2 gok2 1).1 (internalRun 2 gok2 1).1
    () (internalRun 2 gok2 1).2.1 PyVal.none (Exc.userError 9)
    (by simp [batchSt0]) rfl rfl h4 rfl
  have horder : topoSortSubgraph [1] okState.deps = Except.ok [1] := by
    simp [topoSortSubgraph, topoSort, getDependencies, getDepsAux,
          depsUniverse, addUnvisited, insertOnce, depsGet, allNodes, indeg0,
          kahnLoop, processNeighbors, revAdj, okState]
  have hbi := batchItems_prep_error 2 prepErr Option.none true 1
    (List.isEmpty ([] : List Nat)) 0 (PyVal.int 7) [] (batchSt0 okState)
    { okState with autoSavePath := Option.none } (Exc.userError 5)
    (by simp [batchSt0]) rfl
  have hbn := batchNodes_error 2 prepErr Option.none true Option.none
    [(0, PyVal.int 7)] 1 [] (batchSt0 okState) _ (Exc.userError 5) hbi
  have hpb := c3 okState [PyVal.int 7] [1] prepErr Option.none Option.none
    true [1] _ (Exc.userError 5) horder hbn
  exact ⟨a1, a2, b1, b2, b3, by rw [hpb]⟩

/-!
### C10: unconditional resource release at the end of `process_batch`
-/

/-- `release_resources` leaves a node with no live processor instance
and no in-memory result, timestamp, or compute time. -/
theorem releaseNode_clears (n : NodeRec) :
    (releaseNode n).1.lazy_inited = false ∧
    (releaseNode n).1.result = PyVal.none ∧
    (releaseNode n).1.result_timestamp = Option.none ∧
    (releaseNode n).1.time = Option.none := by
  by_cases h : n.lazy_inited <;> simp [releaseNode, resetNode, h]

/-- C10: whenever `process_batch` returns normally, the final
unconditional `release_resources()` — performed regardless of the
`release_after_nodes` argument, which is universally quantified here —
has released every node: every node of the returned graph has
`lazy_inited = False` and cleared `result`, `result_timestamp` and
`compute_time` (so computed results survive only in the persisted
files), the final graph and trailing events are exactly those of a
whole-graph release, and every node that still held a live processor
instance when the node loop finished had its `finalize` called. -/
theorem C10_batch_releases_everything (s : GState) (items : List PyVal)
    (finalNodes : List Nat) (prep : HookFn) (post : Option HookFn)
    (ra : Option (List Nat)) (ft : Bool) (st2 : BatchSt) (stats : BatchStats)
    (h : processBatch s items finalNodes prep post ra ft =
      (st2, Except.ok stats)) :
    (∀ p ∈ st2.g.nodes, (p.2).lazy_inited = false ∧
      (p.2).result = PyVal.none ∧ (p.2).result_timestamp = Option.none ∧
      (p.2).time = Option.none) ∧
    (∃ st1 : BatchSt,
      st2.g = (releaseAll st1.g).1 ∧
      st2.evs = st1.evs ++ (releaseAll st1.g).2 ∧
      stats = st1.stats ∧
      ∀ p ∈ st1.g.nodes, (p.2).lazy_inited = true →
        Ev.finalizeCall (p.2).id ∈ st2.evs) := by
  rcases htopo : topoSortSubgraph finalNodes s.deps with e | order
  · simp only [processBatch] at h
    rw [htopo] at h
    simp at h
  · simp only [processBatch] at h
    rw [htopo] at h
    dsimp only at h
    rcases hbn : batchNodes (s.nodes.length + 1) prep post ft ra items.enum
      order { g := s, stats := { completed := 0, failures := [] }
              errIdx := [], log := [], evs := [] } with ⟨st1, o⟩
    rw [hbn] at h
    cases o with
    | some e => simp at h
    | none =>
        dsimp only at h
        injection h with h1 h2
        injection h2 with h2
        subst h1
        have hnodes : (releaseAll st1.g).1.nodes =
            st1.g.nodes.map fun p => (p.1, (releaseNode p.2).1) := rfl
        constructor
        · intro p hp
          simp only at hp
          rw [hnodes] at hp
          obtain ⟨q, _, rfl⟩ := List.mem_map.mp hp
          exact releaseNode_clears q.2
        · refine ⟨st1, rfl, rfl, h2.symm, ?_⟩
          intro p hp hlazy
          show Ev.finalizeCall p.2.id ∈ st1.evs ++ (releaseAll st1.g).2
          apply List.mem_append_right
          have hfl : (releaseAll st1.g).2 =
              st1.g.nodes.flatMap fun q => (releaseNode q.2).2 := rfl
          rw [hfl]
          exact List.mem_flatMap.mpr
            ⟨p, hp, by simp [releaseNode, hlazy]⟩

/-- Closed instance of `C10_batch_releases_everything`: after a normal
one-item batch, every node of the returned graph is fully released. -/
theorem C10_batch_releases_everything_witness :
    ((processBatch okState [PyVal.int 7] [1] prepSet Option.none Option.none
      false).1.g.nodes.all fun p => !(p.2).lazy_inited &&
        (p.2).result_timestamp.isNone && (p.2).time.isNone) = true := by
  have hp2 : (processBatch okState [PyVal.int 7] [1] prepSet Option.none
      Option.none false).2 = Except.ok { completed := 1, failures := [] } := by
    simp [processBatch, topoSortSubgraph, topoSort, getDependencies,
          getDepsAux, depsUniverse, addUnvisited, insertOnce, depsGet,
          allNodes, indeg0, kahnLoop, processNeighbors, revAdj, batchNodes,
          batchItems, prepSet, internalRun, needsUpdate, refreshResult,
          filledInInputs, fillInputs, touchInstance, onNodeResult, saveTo,
          DRY_RUN, resultsDict, hasResult, releaseAll, releaseNode, resetNode,
          okState, mkNode, trivialClass, lookupNode, setNode, List.enum]
  have h : processBatch okState [PyVal.int 7] [1] prepSet Option.none
      Option.none false =
      ((processBatch okState [PyVal.int 7] [1] prepSet Option.none
        Option.none false).1,
       Except.ok { completed := 1, failures := [] }) := by
    rw [← hp2]
  obtain ⟨c1, _⟩ := C10_batch_releases_everything okState [PyVal.int 7] [1]
    prepSet Option.none Option.none false _ _ h
  rw [List.all_eq_true]
  intro p hp
  obtain ⟨h1, _, h3, h4⟩ := c1 p hp
  simp [h1, h3, h4]

/-!
### C8: frame lemmas for the traversal

The override-free lemmas below are the special case in which input
resolution is completely pure; the `coreOf` frame lemmas afterwards
handle arbitrary overrides, whose only footprint on foreign records is
the `was_overridden` / `lazy_inited` flags.
-/

/-- `setNode` leaves every other key's binding unchanged. -/
theorem lookupNode_setNode_ne (nodes : List (Nat × NodeRec)) (id j : Nat)
    (nv : NodeRec) (h : j ≠ id) :
    lookupNode (setNode nodes id nv) j = lookupNode nodes j := by
  induction nodes with
  | nil => rfl
  | cons p rest ih =>
      obtain ⟨k, w⟩ := p
      by_cases hk : k = id
      · subst hk
        simp [setNode, lookupNode, if_neg (by omega : ¬ k = j), h,
          Ne.symm h]
      · by_cases hj : k = j <;>
          simp [setNode, lookupNode, hk, hj, ih, h]

/-- `setNode` rebinds an existing key. -/
theorem lookupNode_setNode_self (nodes : List (Nat × NodeRec)) (id : Nat)
    (nv n : NodeRec) (h : lookupNode nodes id = Option.some n) :
    lookupNode (setNode nodes id nv) id = Option.some nv := by
  induction nodes with
  | nil => cases h
  | cons p rest ih =>
      obtain ⟨k, w⟩ := p
      by_cases hk : k = id
      · subst hk
        simp [setNode, lookupNode]
      · simp only [setNode, lookupNode, if_neg hk] at h ⊢
        exact ih h

/-- `setNode` does not create or delete bindings. -/
theorem lookupNode_setNode_isSome (nodes : List (Nat × NodeRec)) (id j : Nat)
    (nv : NodeRec) :
    (lookupNode (setNode nodes id nv) j).isSome =
      (lookupNode nodes j).isSome := by
  by_cases h : j = id
  · subst h
    induction nodes with
    | nil => rfl
    | cons p rest ih =>
        obtain ⟨k, w⟩ := p
        by_cases hk : k = j <;> simp [setNode, lookupNode, hk, ih]
  · rw [lookupNode_setNode_ne nodes id j nv h]

/-- The `_node` property touch preserves everything except possibly the
touched node's `lazy_inited` flag. -/
theorem touchInstance_spec (s : GState) (id : Nat) :
    (touchInstance s id).1.deps = s.deps ∧
    (touchInstance s id).1.times = s.times ∧
    (touchInstance s id).1.autoSavePath = s.autoSavePath ∧
    (touchInstance s id).1.clock = s.clock ∧
    (∀ j, j ≠ id →
      lookupNode (touchInstance s id).1.nodes j = lookupNode s.nodes j) ∧
    (∀ n, lookupNode s.nodes id = Option.some n →
      ∃ b, lookupNode (touchInstance s id).1.nodes id =
        Option.some { n with lazy_inited := b }) := by
  rcases hlk : lookupNode s.nodes id with _ | n
  · simp [touchInstance, hlk]
  · by_cases hl : n.lazy_inited
    · have ht1 : (touchInstance s id).1 = s := by simp [touchInstance, hlk, hl]
      refine ⟨by rw [ht1], by rw [ht1], by rw [ht1], by rw [ht1],
        fun j _ => by rw [ht1], ?_⟩
      intro n0 hn0
      injection hn0 with he
      subst he
      exact ⟨n.lazy_inited, by rw [ht1, hlk]⟩
    · refine ⟨?_, ?_, ?_, ?_, ?_, ?_⟩
      · simp [touchInstance, hlk, hl]
      · simp [touchInstance, hlk, hl]
      · simp [touchInstance, hlk, hl]
      · simp [touchInstance, hlk, hl]
      · intro j hj
        simp only [touchInstance, hlk, hl, Bool.false_eq_true, if_false]
        exact lookupNode_setNode_ne s.nodes id j _ hj
      · intro n0 hn0
        injection hn0 with he
        subst he
        refine ⟨true, ?_⟩
        simp only [touchInstance, hlk, hl, Bool.false_eq_true, if_false]
        exact lookupNode_setNode_self s.nodes id _ n hlk

/-- Without a manual override, reading a node's overridden result is
pure: no state change, no events, the raw stored result. -/
theorem overridenResult_pure (fuel : Nat) (s : GState) (u : Nat)
    (un : NodeRec) (h1 : lookupNode s.nodes u = Option.some un)
    (h2 : un.manual_override = Option.none) :
    overridenResult fuel s u = (s, [], Except.ok un.result) := by
  simp [overridenResult, h1, h2]

/-- Input resolution is pure when no referenced upstream carries a
manual override: the state is returned unchanged and no event fires. -/
theorem fillInputs_pure (fuel : Nat) (s : GState) :
    ∀ inputs : List (String × InputVal),
    (∀ nm u, (nm, InputVal.ref u) ∈ inputs → ∀ un,
      lookupNode s.nodes u = Option.some un →
      un.manual_override = Option.none) →
    (fillInputs fuel s inputs).1 = s ∧ (fillInputs fuel s inputs).2.1 = [] := by
  intro inputs
  induction inputs with
  | nil => intro _; simp [fillInputs]
  | cons p rest ih =>
      obtain ⟨nm, iv⟩ := p
      intro hmo
      have hrest := ih fun nm2 u2 hmem un hun =>
        hmo nm2 u2 (List.mem_cons_of_mem _ hmem) un hun
      cases iv with
      | lit v =>
          rcases hr : fillInputs fuel s rest with ⟨s2, ev2, r⟩
          rw [hr] at hrest
          simp only at hrest
          cases r <;>
            simp [fillInputs, hr, hrest.1, hrest.2]
      | ref u =>
          rcases hlk : lookupNode s.nodes u with _ | un
          · simp [fillInputs, hlk]
          · have hun : un.manual_override = Option.none :=
              hmo nm u (List.mem_cons_self _ _) un hlk
            by_cases hres : hasResult un
            · rcases hr : fillInputs fuel s rest with ⟨s2, ev2, r⟩
              rw [hr] at hrest
              simp only at hrest
              cases r <;>
                simp [fillInputs, hlk, hres,
                  overridenResult_pure fuel s u un hlk hun, hr,
                  hrest.1, hrest.2]
            · simp [fillInputs, hlk, hres]

/-- Without overrides, `_filled_in_inputs` either leaves the state
untouched or merely touches the processor instance of its own node. -/
theorem filledInInputs_state (fuel : Nat) (s : GState) (id : Nat)
    (hmo : ∀ n, lookupNode s.nodes id = Option.some n → ∀ nm u,
      (nm, InputVal.ref u) ∈ n.inputs → ∀ un,
      lookupNode s.nodes u = Option.some un →
      un.manual_override = Option.none) :
    (filledInInputs fuel s id).1 = s ∨
    (filledInInputs fuel s id).1 = (touchInstance s id).1 := by
  rcases hlk : lookupNode s.nodes id with _ | n
  · left
    simp [filledInInputs, hlk]
  · have hfp := fillInputs_pure fuel s n.inputs
      (fun nm u hmem un hun => hmo n hlk nm u hmem un hun)
    rcases hfi : fillInputs fuel s n.inputs with ⟨s1, ev1, r⟩
    rw [hfi] at hfp
    simp only at hfp
    cases r with
    | error e =>
        left
        simp [filledInInputs, hlk, hfi, hfp.1]
    | ok kwargs =>
        right
        have hs1 : s1 = s := hfp.1
        subst hs1
        rcases hti : touchInstance s1 id with ⟨s2, ev2⟩
        cases hv : n.pclass.validateFn kwargs <;>
          simp [filledInInputs, hlk, hfi, hti, hv]

/-- A node that is not stale is returned from cache: no state change,
no event, no `process` call. -/
theorem internalRun_cached (fuel : Nat) (s : GState) (id : Nat)
    (n : NodeRec) (hlk : lookupNode s.nodes id = Option.some n)
    (hnu : needsUpdate (lookupNode s.nodes) n = false) :
    internalRun fuel s id = (s, [], Except.ok n.result) := by
  simp [internalRun, hlk, hnu]

/-- Successful `_refresh_result` on an override-free graph: the clock
advances by three readings, only the refreshed node's record changes,
and that record keeps its identity fields while acquiring a result
stamped with the third clock reading and the node's current version. -/
theorem refreshResult_ok_spec (fuel : Nat) (s : GState) (id : Nat)
    (n : NodeRec) (s1 : GState) (ev1 : List Ev) (u : Unit)
    (hlk : lookupNode s.nodes id = Option.some n)
    (hmo : ∀ nm u2, (nm, InputVal.ref u2) ∈ n.inputs → ∀ un,
      lookupNode s.nodes u2 = Option.some un →
      un.manual_override = Option.none)
    (hrr : refreshResult fuel s id = (s1, ev1, Except.ok u)) :
    s1.deps = s.deps ∧ s1.times = s.times ∧
    s1.autoSavePath = s.autoSavePath ∧ s1.clock = s.clock + 3 ∧
    (∀ j, j ≠ id → lookupNode s1.nodes j = lookupNode s.nodes j) ∧
    ∃ n', lookupNode s1.nodes id = Option.some n' ∧
      n'.passive = n.passive ∧ n'.inputs = n.inputs ∧
      n'.version = n.version ∧
      n'.invalidate_before = n.invalidate_before ∧
      n'.manual_override = n.manual_override ∧
      n'.result_version = n.version ∧
      n'.result_timestamp = Option.some (s.times (s.clock + 2)) := by
  have hn0eq : ∀ n0, lookupNode s.nodes id = Option.some n0 → n0 = n := by
    intro n0 h0
    rw [hlk] at h0
    injection h0 with he
    exact he.symm
  have hst := filledInInputs_state fuel s id (fun n0 h0 nm u2 hmem un hun =>
    hmo nm u2 (hn0eq n0 h0 ▸ hmem) un hun)
  rcases hfi : filledInInputs fuel s id with ⟨sf, evf, rf⟩
  rw [hfi] at hst
  simp only at hst
  obtain ⟨htd, htt, hta, htc, htj, hti⟩ := touchInstance_spec s id
  have hsf : sf.deps = s.deps ∧ sf.times = s.times ∧
      sf.autoSavePath = s.autoSavePath ∧ sf.clock = s.clock ∧
      (∀ j, j ≠ id → lookupNode sf.nodes j = lookupNode s.nodes j) ∧
      ∃ b, lookupNode sf.nodes id =
        Option.some { n with lazy_inited := b } := by
    rcases hst with h | h
    · exact ⟨by rw [h], by rw [h], by rw [h], by rw [h],
        fun j _ => by rw [h], ⟨n.lazy_inited, by rw [h, hlk]⟩⟩
    · exact ⟨by rw [h, htd], by rw [h, htt], by rw [h, hta], by rw [h, htc],
        fun j hj => by rw [h]; exact htj j hj,
        by rw [h]; exact hti n hlk⟩
  obtain ⟨hd1, ht1, ha1, hc1, hj1, b, hb1⟩ := hsf
  simp only [refreshResult] at hrr
  rw [hfi] at hrr
  cases rf with
  | error e => simp at hrr
  | ok kwargs =>
      dsimp only at hrr
      rw [hb1] at hrr
      dsimp only at hrr
      by_cases hdry : n.dry_run
      · rw [if_pos hdry] at hrr
        injection hrr with hh1 hh2
        injection hh2 with hh2 hh3
        subst hh1
        refine ⟨by simpa using hd1, by simpa using ht1, by simpa using ha1,
          by simp [hc1], ?_, ?_⟩
        · intro j hj
          simpa [lookupNode_setNode_ne sf.nodes id j _ hj] using hj1 j hj
        · refine ⟨_, by simpa using
            lookupNode_setNode_self sf.nodes id _ _ hb1, ?_, ?_, ?_, ?_, ?_,
            ?_, ?_⟩ <;> simp [ht1, hc1]
      · rw [if_neg hdry] at hrr
        rcases hpf : n.pclass.processFn kwargs with e | pv
        · rw [hpf] at hrr
          simp at hrr
        · rw [hpf] at hrr
          injection hrr with hh1 hh2
          injection hh2 with hh2 hh3
          subst hh1
          refine ⟨by simpa using hd1, by simpa using ht1, by simpa using ha1,
            by simp [hc1], ?_, ?_⟩
          · intro j hj
            simpa [lookupNode_setNode_ne sf.nodes id j _ hj] using hj1 j hj
          · refine ⟨_, by simpa using
              lookupNode_setNode_self sf.nodes id _ _ hb1, ?_, ?_, ?_, ?_,
              ?_, ?_, ?_⟩ <;> simp [ht1, hc1]

/-- Successful `internal_run` on a stale node, override-free graph:
`refreshResult_ok_spec` plus the returned value being the freshly
stored result. -/
theorem internalRun_refresh_spec (fuel : Nat) (s : GState) (id : Nat)
    (n : NodeRec) (s' : GState) (ev : List Ev) (v : PyVal)
    (hlk : lookupNode s.nodes id = Option.some n)
    (hnu : needsUpdate (lookupNode s.nodes) n = true)
    (hmo : ∀ nm u2, (nm, InputVal.ref u2) ∈ n.inputs → ∀ un,
      lookupNode s.nodes u2 = Option.some un →
      un.manual_override = Option.none)
    (h : internalRun fuel s id = (s', ev, Except.ok v)) :
    s'.deps = s.deps ∧ s'.times = s.times ∧
    s'.autoSavePath = s.autoSavePath ∧ s'.clock = s.clock + 3 ∧
    (∀ j, j ≠ id → lookupNode s'.nodes j = lookupNode s.nodes j) ∧
    ∃ n', lookupNode s'.nodes id = Option.some n' ∧
      n'.passive = n.passive ∧ n'.inputs = n.inputs ∧
      n'.version = n.version ∧
      n'.invalidate_before = n.invalidate_before ∧
      n'.manual_override = n.manual_override ∧
      n'.result_version = n.version ∧
      n'.result_timestamp = Option.some (s.times (s.clock + 2)) ∧
      n'.result = v := by
  simp only [internalRun, hlk, hnu, if_true] at h
  rcases hrr : refreshResult fuel s id with ⟨s1, ev1, r1⟩
  rw [hrr] at h
  cases r1 with
  | error e => simp at h
  | ok u =>
      obtain ⟨c1, c2, c3, c4, c5, n', hn', f1, f2, f3, f4, f5, f6, f7⟩ :=
        refreshResult_ok_spec fuel s id n s1 ev1 u hlk hmo hrr
      dsimp only at h
      rw [hn'] at h
      dsimp only at h
      injection h with hh1 hh2
      injection hh2 with hh2 hh3
      subst hh1
      injection hh3 with hh3
      exact ⟨c1, c2, c3, c4, c5, n', hn', f1, f2, f3, f4, f5, f6, f7, hh3⟩

/-- The upstream staleness scan only consults the looked-up records of
the referenced inputs. -/
theorem needsUpdateInputs_congr (look look2 : Nat → Option NodeRec)
    (ts : Rat) :
    ∀ inputs : List (String × InputVal),
    (∀ nm u, (nm, InputVal.ref u) ∈ inputs → look u = look2 u) →
    needsUpdateInputs look ts inputs = needsUpdateInputs look2 ts inputs := by
  intro inputs
  induction inputs with
  | nil => intro _; rfl
  | cons p rest ih =>
      obtain ⟨nm, iv⟩ := p
      intro h
      have hrest := ih fun nm2 u2 hmem => h nm2 u2 (List.mem_cons_of_mem _ hmem)
      cases iv with
      | lit v => simpa [needsUpdateInputs] using hrest
      | ref u =>
          have he := h nm u (List.mem_cons_self _ _)
          simp only [needsUpdateInputs, he]
          cases look2 u with
          | none => exact hrest
          | some un =>
              dsimp only
              cases un.result_timestamp with
              | none => exact hrest
              | some uts =>
                  dsimp only
                  by_cases hc : ((!un.passive) && decide (ts < uts)) = true <;>
                    simp [hc, hrest]

/-- The upstream staleness scan stays quiet when every referenced
upstream's timestamp is bounded by the node's own. -/
theorem needsUpdateInputs_false_of_bound (look : Nat → Option NodeRec)
    (ts : Rat) :
    ∀ inputs : List (String × InputVal),
    (∀ nm u, (nm, InputVal.ref u) ∈ inputs → ∀ un uts,
      look u = Option.some un → un.result_timestamp = Option.some uts →
      uts ≤ ts) →
    needsUpdateInputs look ts inputs = false := by
  intro inputs
  induction inputs with
  | nil => intro _; rfl
  | cons p rest ih =>
      obtain ⟨nm, iv⟩ := p
      intro h
      have hrest := ih fun nm2 u2 hmem => h nm2 u2 (List.mem_cons_of_mem _ hmem)
      cases iv with
      | lit v => simpa [needsUpdateInputs] using hrest
      | ref u =>
          simp only [needsUpdateInputs]
          cases hlu : look u with
          | none => exact hrest
          | some un =>
              dsimp only
              cases hts : un.result_timestamp with
              | none => exact hrest
              | some uts =>
                  dsimp only
                  have hb := h nm u (List.mem_cons_self _ _) un uts hlu hts
                  have hlt : ¬ ts < uts := not_lt.mpr hb
                  simp [hlt, hrest]

/-- `_needs_update` only consults the looked-up records of the node's
referenced inputs. -/
theorem needsUpdate_congr (look look2 : Nat → Option NodeRec) (n : NodeRec)
    (h : ∀ nm u, (nm, InputVal.ref u) ∈ n.inputs → look u = look2 u) :
    needsUpdate look n = needsUpdate look2 n := by
  simp only [needsUpdate]
  cases n.result_timestamp with
  | none => rfl
  | some ts =>
      dsimp only
      rw [needsUpdateInputs_congr look look2 ts n.inputs h]

/-- In-memory result of a node, `None` when absent. -/
def resultAt (t : GState) (j : Nat) : PyVal :=
  match lookupNode t.nodes j with
  | Option.some n => n.result
  | Option.none => PyVal.none

/-- Result of the last node of a traversal, or the default when the
traversal is empty: the value `run_upto`'s loop returns. -/
def lastVal (t : GState) (l : List Nat) (dflt : PyVal) : PyVal :=
  match l.getLast? with
  | Option.none => dflt
  | Option.some j => resultAt t j

/-- One unfolding of the `run_upto` loop. -/
theorem runList_cons (fuel : Nat) (s : GState) (id : Nat) (rest : List Nat)
    (last : PyVal) :
    runList fuel s (id :: rest) last =
      match internalRun fuel s id with
      | (s1, ev1, Except.error e) => (s1, ev1, Except.error e)
      | (s1, ev1, Except.ok v) =>
          match runList fuel s1 rest v with
          | (s2, ev2, r) => (s2, ev1 ++ ev2, r) := rfl

/-- A traversal over nodes that are all fresh is a complete no-op: no
state change, no events (hence no `process` call), and the value read
from cache. -/
theorem runList_cached (fuel : Nat) (t : GState) :
    ∀ (l : List Nat) (last : PyVal),
    (∀ j ∈ l, ∃ n, lookupNode t.nodes j = Option.some n ∧
      needsUpdate (lookupNode t.nodes) n = false) →
    runList fuel t l last = (t, [], Except.ok (lastVal t l last)) := by
  intro l
  induction l with
  | nil => intro last _; simp [runList, lastVal]
  | cons m rest ih =>
      intro last h
      obtain ⟨nm, hlk, hnu⟩ := h m (List.mem_cons_self _ _)
      have hir := internalRun_cached fuel t m nm hlk hnu
      have hrest := ih nm.result (fun j hj => h j (List.mem_cons_of_mem _ hj))
      cases rest with
      | nil =>
          simp [runList, hir, lastVal, resultAt, hlk]
      | cons r rest2 =>
          rcases hgl : (r :: rest2).getLast? with _ | j
          · rw [List.getLast?_eq_none_iff] at hgl
            cases hgl
          · rw [runList_cons, hir]
            dsimp only
            rw [hrest]
            dsimp only
            simp [lastVal, List.getLast?_cons_cons, hgl]

/-- Among the nodes of a duplicate-free concatenation, anything placed
strictly before a member of the left part is itself in the left part. -/
theorem mem_left_of_indexOf_lt {p q : List Nat} (hnd : (p ++ q).Nodup)
    {a b : Nat} (ha : a ∈ p) (hb : b ∈ p ++ q)
    (hidx : (p ++ q).indexOf b < (p ++ q).indexOf a) : b ∈ p := by
  by_contra hbp
  have hbq : b ∈ q := (List.mem_append.mp hb).resolve_left hbp
  have h1 : (p ++ q).indexOf a < p.length := by
    rw [List.indexOf_append_of_mem ha]
    exact List.indexOf_lt_length.mpr ha
  have h2 : p.length ≤ (p ++ q).indexOf b := by
    clear hidx h1 hnd ha hb
    induction p with
    | nil => exact Nat.zero_le _
    | cons x p2 ih =>
        have hbx : b ≠ x := fun he => hbp (he ▸ List.mem_cons_self x p2)
        have hbp2 : b ∉ p2 := fun hm => hbp (List.mem_cons_of_mem _ hm)
        simp only [List.cons_append, List.length_cons]
        rw [List.indexOf_cons_ne _ (Ne.symm hbx)]
        exact Nat.succ_le_succ (ih hbp2)
  omega

/-- Core of a node record: every field except the two flags that input
resolution may flip (`was_overridden`, set by an override whose value
changed, and `lazy_inited`, set by a `_node` touch). -/
def coreOf (n : NodeRec) : NodeRec :=
  { n with was_overridden := false, lazy_inited := false }

/-- Core of an optional record. -/
def coreOfO (o : Option NodeRec) : Option NodeRec := o.map coreOf

/-- Two records with the same core agree on every field other than
`was_overridden` and `lazy_inited`. -/
theorem coreOf_eq_fields {a b : NodeRec} (h : coreOf a = coreOf b) :
    a.id = b.id ∧ a.version = b.version ∧ a.pclass = b.pclass ∧
    a.inputs = b.inputs ∧ a.invalidate_before = b.invalidate_before ∧
    a.manual_override = b.manual_override ∧ a.dry_run = b.dry_run ∧
    a.passive = b.passive ∧ a.result = b.result ∧
    a.result_version = b.result_version ∧
    a.result_timestamp = b.result_timestamp ∧ a.time = b.time := by
  simp only [coreOf, NodeRec.mk.injEq, and_true, true_and] at h
  obtain ⟨h1, h2, h3, h4, h5, h6, h7, h8, _, h10, h11, h12, h13⟩ := h
  exact ⟨h1, h2, h3, h4, h5, h6, h7, h8, h10, h11, h12, h13⟩

/-- Unfolding a core equality against a known `some`. -/
theorem coreOfO_some {o : Option NodeRec} {n : NodeRec}
    (h : coreOfO o = coreOfO (Option.some n)) :
    ∃ n2, o = Option.some n2 ∧ coreOf n2 = coreOf n := by
  cases o with
  | none => simp [coreOfO] at h
  | some n2 =>
      simp only [coreOfO, Option.map_some] at h
      injection h with h
      exact ⟨n2, rfl, h⟩

/-- Core equality preserves definedness. -/
theorem coreOfO_isSome (a b : Option NodeRec) (h : coreOfO a = coreOfO b) :
    a.isSome = b.isSome := by
  cases a <;> cases b <;> simp_all [coreOfO]

/-- The upstream staleness scan only reads fields inside the core of
the referenced records. -/
theorem needsUpdateInputs_congr_core (look look2 : Nat → Option NodeRec)
    (ts : Rat) :
    ∀ inputs : List (String × InputVal),
    (∀ nm u, (nm, InputVal.ref u) ∈ inputs →
      coreOfO (look u) = coreOfO (look2 u)) →
    needsUpdateInputs look ts inputs = needsUpdateInputs look2 ts inputs := by
  intro inputs
  induction inputs with
  | nil => intro _; rfl
  | cons p rest ih =>
      obtain ⟨nm, iv⟩ := p
      intro h
      have hrest := ih fun nm2 u2 hmem => h nm2 u2 (List.mem_cons_of_mem _ hmem)
      cases iv with
      | lit v => simpa [needsUpdateInputs] using hrest
      | ref u =>
          have he := h nm u (List.mem_cons_self _ _)
          simp only [needsUpdateInputs]
          cases hlu : look u with
          | none =>
              rw [hlu] at he
              cases hlu2 : look2 u with
              | none => exact hrest
              | some un2 =>
                  rw [hlu2] at he
                  simp [coreOfO] at he
          | some un =>
              rw [hlu] at he
              obtain ⟨un2, hlu2, hc⟩ := coreOfO_some he.symm
              rw [hlu2]
              dsimp only
              obtain ⟨_, _, _, _, _, _, _, hpass, _, _, hrts, _⟩ :=
                coreOf_eq_fields hc
              rw [hrts]
              cases un.result_timestamp with
              | none => exact hrest
              | some uts =>
                  dsimp only
                  rw [hpass]
                  by_cases hcnd : ((!un.passive) && decide (ts < uts)) = true <;>
                    simp [hcnd, hrest]

/-- `_needs_update` only reads fields inside the cores of the node and
of its referenced upstreams. -/
theorem needsUpdate_congr_core (look look2 : Nat → Option NodeRec)
    (n n2 : NodeRec) (hself : coreOf n = coreOf n2)
    (h : ∀ nm u, (nm, InputVal.ref u) ∈ n.inputs →
      coreOfO (look u) = coreOfO (look2 u)) :
    needsUpdate look2 n2 = needsUpdate look n := by
  obtain ⟨_, hver, _, hinp, hinv, _, _, hpass, _, hrv, hrts, _⟩ :=
    coreOf_eq_fields hself
  simp only [needsUpdate]
  rw [← hpass, ← hrts, ← hrv, ← hver, ← hinv, ← hinp]
  cases n.result_timestamp with
  | none => rfl
  | some ts =>
      dsimp only
      rw [needsUpdateInputs_congr_core look look2 ts n.inputs h]

/-- The `_node` touch changes no core. -/
theorem touchInstance_core (s : GState) (id : Nat) :
    ∀ j, coreOfO (lookupNode (touchInstance s id).1.nodes j) =
      coreOfO (lookupNode s.nodes j) := by
  intro j
  rcases hlk : lookupNode s.nodes id with _ | n
  · simp [touchInstance, hlk]
  · by_cases hl : n.lazy_inited
    · simp [touchInstance, hlk, hl]
    · simp only [touchInstance, hlk, hl, Bool.false_eq_true, if_false]
      by_cases hj : j = id
      · subst hj
        rw [lookupNode_setNode_self s.nodes j _ n hlk, hlk]
        rfl
      · rw [lookupNode_setNode_ne s.nodes id j _ hj]

/-- Frame of the mutual input-resolution functions, with no hypothesis
on overrides: the graph bookkeeping (dependency map, time source,
persistence path, clock) is untouched and every node record keeps its
core — only `was_overridden` and `lazy_inited` may flip. -/
theorem mutual_frame : ∀ fuel : Nat,
    (∀ (s : GState) (inputs : List (String × InputVal)),
      (fillInputs fuel s inputs).1.deps = s.deps ∧
      (fillInputs fuel s inputs).1.times = s.times ∧
      (fillInputs fuel s inputs).1.autoSavePath = s.autoSavePath ∧
      (fillInputs fuel s inputs).1.clock = s.clock ∧
      ∀ j, coreOfO (lookupNode (fillInputs fuel s inputs).1.nodes j) =
        coreOfO (lookupNode s.nodes j)) ∧
    (∀ (s : GState) (uid : Nat),
      (overridenResult fuel s uid).1.deps = s.deps ∧
      (overridenResult fuel s uid).1.times = s.times ∧
      (overridenResult fuel s uid).1.autoSavePath = s.autoSavePath ∧
      (overridenResult fuel s uid).1.clock = s.clock ∧
      ∀ j, coreOfO (lookupNode (overridenResult fuel s uid).1.nodes j) =
        coreOfO (lookupNode s.nodes j)) ∧
    (∀ (s : GState) (id : Nat),
      (filledInInputs fuel s id).1.deps = s.deps ∧
      (filledInInputs fuel s id).1.times = s.times ∧
      (filledInInputs fuel s id).1.autoSavePath = s.autoSavePath ∧
      (filledInInputs fuel s id).1.clock = s.clock ∧
      ∀ j, coreOfO (lookupNode (filledInInputs fuel s id).1.nodes j) =
        coreOfO (lookupNode s.nodes j)) := by
  intro fuel
  induction fuel using Nat.strong_induction_on with
  | _ fuel ih =>
  have hOv : ∀ (s : GState) (uid : Nat),
      (overridenResult fuel s uid).1.deps = s.deps ∧
      (overridenResult fuel s uid).1.times = s.times ∧
      (overridenResult fuel s uid).1.autoSavePath = s.autoSavePath ∧
      (overridenResult fuel s uid).1.clock = s.clock ∧
      ∀ j, coreOfO (lookupNode (overridenResult fuel s uid).1.nodes j) =
        coreOfO (lookupNode s.nodes j) := by
    intro s uid
    rcases hlk : lookupNode s.nodes uid with _ | un
    · refine ⟨?_, ?_, ?_, ?_, fun j => ?_⟩ <;>
        simp [overridenResult, hlk]
    · rcases hov : un.manual_override with _ | f
      · refine ⟨?_, ?_, ?_, ?_, fun j => ?_⟩ <;>
          simp [overridenResult, hlk, hov]
      · cases fuel with
        | zero =>
            refine ⟨?_, ?_, ?_, ?_, fun j => ?_⟩ <;>
              simp [overridenResult, hlk, hov]
        | succ fuel2 =>
            have hFd := (ih fuel2 (by omega)).2.2 s uid
            rcases hfi : filledInInputs fuel2 s uid with ⟨s1, ev1, rf⟩
            rw [hfi] at hFd
            simp only at hFd
            obtain ⟨hd1, ht1, ha1, hc1, hl1⟩ := hFd
            cases rf with
            | error e =>
                refine ⟨?_, ?_, ?_, ?_, fun j => ?_⟩ <;>
                  simp [overridenResult, hlk, hov, hfi, hd1, ht1, ha1, hc1,
                    hl1]
            | ok kwargs =>
                obtain ⟨un1, hun1l, hun1c⟩ := coreOfO_some
                  (show coreOfO (lookupNode s1.nodes uid) =
                    coreOfO (Option.some un) from by rw [hl1 uid, hlk])
                by_cases hpe : pyEq un1.result (f un.result kwargs) = true
                · refine ⟨?_, ?_, ?_, ?_, fun j => ?_⟩ <;>
                    simp [overridenResult, hlk, hov, hfi, hun1l, hpe, hd1,
                      ht1, ha1, hc1, hl1]
                · have hset : ∀ j, coreOfO (lookupNode
                      (setNode s1.nodes uid
                        { un1 with was_overridden := true }) j) =
                      coreOfO (lookupNode s.nodes j) := by
                    intro j
                    by_cases hj : j = uid
                    · subst hj
                      rw [lookupNode_setNode_self s1.nodes j _ un1 hun1l,
                        hlk]
                      show Option.some (coreOf _) = Option.some (coreOf un)
                      rw [← hun1c]
                      rfl
                    · rw [lookupNode_setNode_ne s1.nodes uid j _ hj]
                      exact hl1 j
                  refine ⟨?_, ?_, ?_, ?_, fun j => ?_⟩ <;>
                    simp [overridenResult, hlk, hov, hfi, hun1l, hpe, hd1,
                      ht1, ha1, hc1, hset]
  have hFill : ∀ (inputs : List (String × InputVal)) (s : GState),
      (fillInputs fuel s inputs).1.deps = s.deps ∧
      (fillInputs fuel s inputs).1.times = s.times ∧
      (fillInputs fuel s inputs).1.autoSavePath = s.autoSavePath ∧
      (fillInputs fuel s inputs).1.clock = s.clock ∧
      ∀ j, coreOfO (lookupNode (fillInputs fuel s inputs).1.nodes j) =
        coreOfO (lookupNode s.nodes j) := by
    intro inputs
    induction inputs with
    | nil =>
        intro s
        refine ⟨?_, ?_, ?_, ?_, fun j => ?_⟩ <;> simp [fillInputs]
    | cons p rest ihr =>
        obtain ⟨nm, iv⟩ := p
        intro s
        cases iv with
        | lit v =>
            have hR := ihr s
            rcases hr : fillInputs fuel s rest with ⟨s2, ev2, r⟩
            rw [hr] at hR
            simp only at hR
            obtain ⟨h1, h2, h3, h4, h5⟩ := hR
            cases r with
            | error e =>
                refine ⟨?_, ?_, ?_, ?_, fun j => ?_⟩ <;>
                  simp [fillInputs, hr, h1, h2, h3, h4, h5]
            | ok kws =>
                refine ⟨?_, ?_, ?_, ?_, fun j => ?_⟩ <;>
                  simp [fillInputs, hr, h1, h2, h3, h4, h5]
        | ref u =>
            rcases hlk : lookupNode s.nodes u with _ | un
            · refine ⟨?_, ?_, ?_, ?_, fun j => ?_⟩ <;>
                simp [fillInputs, hlk]
            · by_cases hres : hasResult un
              · have hO := hOv s u
                rcases hov : overridenResult fuel s u with ⟨s1, ev1, r1⟩
                rw [hov] at hO
                simp only at hO
                obtain ⟨o1, o2, o3, o4, o5⟩ := hO
                cases r1 with
                | error e =>
                    refine ⟨?_, ?_, ?_, ?_, fun j => ?_⟩ <;>
                      simp [fillInputs, hlk, hres, hov, o1, o2, o3, o4, o5]
                | ok v1 =>
                    have hR := ihr s1
                    rcases hr : fillInputs fuel s1 rest with ⟨s2, ev2, r⟩
                    rw [hr] at hR
                    simp only at hR
                    obtain ⟨h1, h2, h3, h4, h5⟩ := hR
                    have h5o : ∀ j2, coreOfO (lookupNode s2.nodes j2) =
                        coreOfO (lookupNode s.nodes j2) :=
                      fun j2 => (h5 j2).trans (o5 j2)
                    cases r with
                    | error e =>
                        refine ⟨?_, ?_, ?_, ?_, fun j => ?_⟩ <;>
                          simp [fillInputs, hlk, hres, hov, hr, h1, h2, h3,
                            h4, o1, o2, o3, o4, h5o]
                    | ok kws =>
                        refine ⟨?_, ?_, ?_, ?_, fun j => ?_⟩ <;>
                          simp [fillInputs, hlk, hres, hov, hr, h1, h2, h3,
                            h4, o1, o2, o3, o4, h5o]
              · refine ⟨?_, ?_, ?_, ?_, fun j => ?_⟩ <;>
                  simp [fillInputs, hlk, hres]
  refine ⟨fun s inputs => hFill inputs s, hOv, ?_⟩
  intro s id
  rcases hlk : lookupNode s.nodes id with _ | n
  · refine ⟨?_, ?_, ?_, ?_, fun j => ?_⟩ <;>
      simp [filledInInputs, hlk]
  · have hF := hFill n.inputs s
    rcases hfi : fillInputs fuel s n.inputs with ⟨s1, ev1, r⟩
    rw [hfi] at hF
    simp only at hF
    obtain ⟨h1, h2, h3, h4, h5⟩ := hF
    cases r with
    | error e =>
        refine ⟨?_, ?_, ?_, ?_, fun j => ?_⟩ <;>
          simp [filledInInputs, hlk, hfi, h1, h2, h3, h4, h5]
    | ok kwargs =>
        obtain ⟨td, tt, ta, tc, _, _⟩ := touchInstance_spec s1 id
        have tcore := touchInstance_core s1 id
        rcases hti : touchInstance s1 id with ⟨s2, ev2⟩
        rw [hti] at td tt ta tc tcore
        simp only at td tt ta tc tcore
        have tcomp : ∀ j2, coreOfO (lookupNode s2.nodes j2) =
            coreOfO (lookupNode s.nodes j2) :=
          fun j2 => (tcore j2).trans (h5 j2)
        cases hv : n.pclass.validateFn kwargs with
        | error e =>
            refine ⟨?_, ?_, ?_, ?_, fun j => ?_⟩ <;>
              simp [filledInInputs, hlk, hfi, hti, hv, td.trans h1,
                tt.trans h2, ta.trans h3, tc.trans h4, tcomp]
        | ok u =>
            refine ⟨?_, ?_, ?_, ?_, fun j => ?_⟩ <;>
              simp [filledInInputs, hlk, hfi, hti, hv, td.trans h1,
                tt.trans h2, ta.trans h3, tc.trans h4, tcomp]

/-- Successful `_refresh_result`, with no hypothesis on overrides: the
clock advances by three readings, every other record keeps its core,
and the refreshed record keeps its identity fields while acquiring a
result stamped with the third clock reading and the node's current
version. -/
theorem refreshResult_ok_core (fuel : Nat) (s : GState) (id : Nat)
    (n : NodeRec) (s1 : GState) (ev1 : List Ev) (u : Unit)
    (hlk : lookupNode s.nodes id = Option.some n)
    (hrr : refreshResult fuel s id = (s1, ev1, Except.ok u)) :
    s1.deps = s.deps ∧ s1.times = s.times ∧
    s1.autoSavePath = s.autoSavePath ∧ s1.clock = s.clock + 3 ∧
    (∀ j, j ≠ id → coreOfO (lookupNode s1.nodes j) =
      coreOfO (lookupNode s.nodes j)) ∧
    ∃ n2, lookupNode s1.nodes id = Option.some n2 ∧
      n2.passive = n.passive ∧ n2.inputs = n.inputs ∧
      n2.version = n.version ∧
      n2.invalidate_before = n.invalidate_before ∧
      n2.manual_override = n.manual_override ∧
      n2.result_version = n.version ∧
      n2.result_timestamp = Option.some (s.times (s.clock + 2)) := by
  have hFd := (mutual_frame fuel).2.2 s id
  rcases hfi : filledInInputs fuel s id with ⟨sf, evf, rf⟩
  rw [hfi] at hFd
  simp only at hFd
  obtain ⟨hd1, ht1, ha1, hc1, hl1⟩ := hFd
  simp only [refreshResult] at hrr
  rw [hfi] at hrr
  cases rf with
  | error e => simp at hrr
  | ok kwargs =>
      dsimp only at hrr
      obtain ⟨nf, hnf, hnfc⟩ := coreOfO_some
        (show coreOfO (lookupNode sf.nodes id) =
          coreOfO (Option.some n) from by rw [hl1 id, hlk])
      obtain ⟨_, hver, _, hinp, hinv2, hmo2, hdry, hpass2, _, _, _, _⟩ :=
        coreOf_eq_fields hnfc
      rw [hnf] at hrr
      dsimp only at hrr
      by_cases hdryb : nf.dry_run
      · rw [if_pos hdryb] at hrr
        injection hrr with hh1 hh2
        injection hh2 with hh2 hh3
        subst hh1
        refine ⟨by simpa using hd1, by simpa using ht1, by simpa using ha1,
          by simp [hc1], ?_, ?_⟩
        · intro j hj
          have : lookupNode (setNode sf.nodes id
              { nf with result := PyVal.none
                        time := Option.some (sf.times (sf.clock + 1) -
                          sf.times sf.clock)
                        result_timestamp :=
                          Option.some (sf.times (sf.clock + 1 + 1))
                        result_version := nf.version }) j =
              lookupNode sf.nodes j :=
            lookupNode_setNode_ne sf.nodes id j _ hj
          simpa [this] using hl1 j
        · refine ⟨_, by simpa using
            lookupNode_setNode_self sf.nodes id _ _ hnf, ?_, ?_, ?_, ?_, ?_,
            ?_, ?_⟩ <;>
            simp [ht1, hc1, hpass2, hinp, hver, hinv2, hmo2]
      · rw [if_neg hdryb] at hrr
        rcases hpf : nf.pclass.processFn kwargs with e | pv
        · rw [hpf] at hrr
          simp at hrr
        · rw [hpf] at hrr
          injection hrr with hh1 hh2
          injection hh2 with hh2 hh3
          subst hh1
          refine ⟨by simpa using hd1, by simpa using ht1, by simpa using ha1,
            by simp [hc1], ?_, ?_⟩
          · intro j hj
            have : lookupNode (setNode sf.nodes id
                { nf with result := pv
                          time := Option.some (sf.times (sf.clock + 1) -
                            sf.times sf.clock)
                          result_timestamp :=
                            Option.some (sf.times (sf.clock + 1 + 1))
                          result_version := nf.version }) j =
                lookupNode sf.nodes j :=
              lookupNode_setNode_ne sf.nodes id j _ hj
            simpa [this] using hl1 j
          · refine ⟨_, by simpa using
              lookupNode_setNode_self sf.nodes id _ _ hnf, ?_, ?_, ?_, ?_,
              ?_, ?_, ?_⟩ <;>
              simp [ht1, hc1, hpass2, hinp, hver, hinv2, hmo2]

/-- Successful `internal_run` on a stale node, with no hypothesis on
overrides: `refreshResult_ok_core` plus the returned value being the
freshly stored result. -/
theorem internalRun_refresh_core (fuel : Nat) (s : GState) (id : Nat)
    (n : NodeRec) (s2 : GState) (ev : List Ev) (v : PyVal)
    (hlk : lookupNode s.nodes id = Option.some n)
    (hnu : needsUpdate (lookupNode s.nodes) n = true)
    (h : internalRun fuel s id = (s2, ev, Except.ok v)) :
    s2.deps = s.deps ∧ s2.times = s.times ∧
    s2.autoSavePath = s.autoSavePath ∧ s2.clock = s.clock + 3 ∧
    (∀ j, j ≠ id → coreOfO (lookupNode s2.nodes j) =
      coreOfO (lookupNode s.nodes j)) ∧
    ∃ n2, lookupNode s2.nodes id = Option.some n2 ∧
      n2.passive = n.passive ∧ n2.inputs = n.inputs ∧
      n2.version = n.version ∧
      n2.invalidate_before = n.invalidate_before ∧
      n2.manual_override = n.manual_override ∧
      n2.result_version = n.version ∧
      n2.result_timestamp = Option.some (s.times (s.clock + 2)) ∧
      n2.result = v := by
  simp only [internalRun, hlk, hnu, if_true] at h
  rcases hrr : refreshResult fuel s id with ⟨s1, ev1, r1⟩
  rw [hrr] at h
  cases r1 with
  | error e => simp at h
  | ok u =>
      obtain ⟨c1, c2, c3, c4, c5, n2, hn2, f1, f2, f3, f4, f5, f6, f7⟩ :=
        refreshResult_ok_core fuel s id n s1 ev1 u hlk hrr
      dsimp only at h
      rw [hn2] at h
      dsimp only at h
      injection h with hh1 hh2
      injection hh2 with hh2 hh3
      subst hh1
      injection hh3 with hh3
      exact ⟨c1, c2, c3, c4, c5, n2, hn2, f1, f2, f3, f4, f5, f6, f7, hh3⟩

/-- Invariant of the first `run_upto` traversal over `order`, after the
prefix `done` has been executed: the clock only advanced, untraversed
records keep their cores (overrides may flip `was_overridden`, touches
may flip `lazy_inited`), every timestamp of an order node is bounded by
the current clock reading, identity fields are preserved, and every
executed node is fresh. -/
def C8Inv (s0 : GState) (order done : List Nat) (t : GState) : Prop :=
  t.deps = s0.deps ∧ t.times = s0.times ∧ s0.clock ≤ t.clock ∧
  (∀ j, j ∉ done →
    coreOfO (lookupNode t.nodes j) = coreOfO (lookupNode s0.nodes j)) ∧
  (∀ j, (lookupNode t.nodes j).isSome = (lookupNode s0.nodes j).isSome) ∧
  (∀ j ∈ order, ∀ n ts, lookupNode t.nodes j = Option.some n →
    n.result_timestamp = Option.some ts → ts ≤ s0.times t.clock) ∧
  (∀ j ∈ order, ∀ n0, lookupNode s0.nodes j = Option.some n0 →
    ∃ n, lookupNode t.nodes j = Option.some n ∧
      n.passive = n0.passive ∧ n.inputs = n0.inputs ∧
      n.manual_override = n0.manual_override ∧
      n.invalidate_before = n0.invalidate_before) ∧
  (∀ j ∈ done, ∃ n, lookupNode t.nodes j = Option.some n ∧
    needsUpdate (lookupNode t.nodes) n = false)

/-- Main induction for the idempotence claim: a successful first
traversal establishes the invariant with every traversed node fresh,
and returns the stored result of the last traversed node.  Overrides
are unconstrained: the frame lemmas confine their effect to the
`was_overridden` flags, which staleness never reads. -/
theorem c8_run1_aux (s0 : GState) (order : List Nat)
    (mono : ∀ i j : Nat, i ≤ j → s0.times i ≤ s0.times j)
    (hnd : order.Nodup)
    (hclosed : ∀ j ∈ order, ∀ d ∈ depsGet s0.deps j, d ∈ order)
    (hbefore : ∀ (done2 : List Nat) (m2 : Nat) (rest3 : List Nat),
      order = done2 ++ m2 :: rest3 → ∀ d ∈ depsGet s0.deps m2, d ∈ done2)
    (hdclosed : ∀ (done2 rest3 : List Nat), order = done2 ++ rest3 →
      ∀ j ∈ done2, ∀ d ∈ depsGet s0.deps j, d ∈ done2)
    (hpass : ∀ j ∈ order, ∀ n, lookupNode s0.nodes j = Option.some n →
      n.passive = false)
    (hwf : ∀ j ∈ order, ∀ n, lookupNode s0.nodes j = Option.some n →
      ∀ nm u, (nm, InputVal.ref u) ∈ n.inputs → u ∈ depsGet s0.deps j)
    (hinv : ∀ j ∈ order, ∀ n, lookupNode s0.nodes j = Option.some n →
      n.invalidate_before ≤ s0.times s0.clock)
    (fuel : Nat) :
    ∀ (rest done : List Nat) (t : GState) (last : PyVal),
    order = done ++ rest → C8Inv s0 order done t →
    ∀ t2 ev v, runList fuel t rest last = (t2, ev, Except.ok v) →
    C8Inv s0 order order t2 ∧ v = lastVal t2 rest last := by
  intro rest
  induction rest with
  | nil =>
      intro done t last horder hInv t2 ev v hrl
      simp only [runList] at hrl
      injection hrl with hq1 hq2
      injection hq2 with hq2 hq3
      injection hq3 with hq3
      subst hq1
      subst hq3
      rw [List.append_nil] at horder
      subst horder
      exact ⟨hInv, by simp [lastVal]⟩
  | cons m rest2 ih =>
      intro done t last horder hInv t2 ev v hrl
      obtain ⟨Id, It, Ic, Iu, Ie, Its, Icore, Idone⟩ := hInv
      have hmOrd : m ∈ order := by
        rw [horder]
        exact List.mem_append_right _ (List.mem_cons_self _ _)
      have hmnd : m ∉ done := by
        intro hm
        have hnd2 := hnd
        rw [horder] at hnd2
        obtain ⟨_, _, hdisj⟩ := List.nodup_append.mp hnd2
        exact hdisj hm (List.mem_cons_self _ _)
      have hmt : coreOfO (lookupNode t.nodes m) =
          coreOfO (lookupNode s0.nodes m) := Iu m hmnd
      rw [runList_cons] at hrl
      rcases hir : internalRun fuel t m with ⟨t1, ev1, r1⟩
      rw [hir] at hrl
      cases r1 with
      | error e => simp at hrl
      | ok v1 =>
          dsimp only at hrl
          rcases hrl2 : runList fuel t1 rest2 v1 with ⟨t2b, ev2, r2⟩
          rw [hrl2] at hrl
          dsimp only at hrl
          injection hrl with hq1 hq2
          injection hq2 with hq2 hq3
          subst hq1
          subst hq3
          rcases hlkt : lookupNode t.nodes m with _ | nm
          · rw [show internalRun fuel t m = (t, [], Except.error Exc.keyError)
              from by simp [internalRun, hlkt]] at hir
            simp at hir
          · have hmt2 := hmt
            rw [hlkt] at hmt2
            obtain ⟨nm0, hlk0, hc0⟩ := coreOfO_some hmt2.symm
            obtain ⟨_, hverM, _, hinpM, hinvM, hmoM, _, hpassM, _, _, _, _⟩ :=
              coreOf_eq_fields hc0
            have hpassm : nm.passive = false := by
              rw [← hpassM]
              exact hpass m hmOrd nm0 hlk0
            have hwfm : ∀ nm2 u, (nm2, InputVal.ref u) ∈ nm.inputs →
                u ∈ depsGet s0.deps m := by
              intro nm2 u hmem
              exact hwf m hmOrd nm0 hlk0 nm2 u (by rw [hinpM]; exact hmem)
            have hinvm : nm.invalidate_before ≤ s0.times s0.clock := by
              rw [← hinvM]
              exact hinv m hmOrd nm0 hlk0
            have hdepm : ∀ d ∈ depsGet s0.deps m, d ∈ done :=
              hbefore done m rest2 horder
            cases hnu : needsUpdate (lookupNode t.nodes) nm with
            | false =>
                have hir0 := internalRun_cached fuel t m nm hlkt hnu
                rw [hir0] at hir
                injection hir with hw1 hw2
                injection hw2 with hw2 hw3
                injection hw3 with hw3
                subst hw1
                subst hw3
                have hInv2 : C8Inv s0 order (done ++ [m]) t := by
                  refine ⟨Id, It, Ic, ?_, Ie, Its, Icore, ?_⟩
                  · intro j hj
                    exact Iu j fun hmem => hj (List.mem_append_left _ hmem)
                  · intro j hj
                    rcases List.mem_append.mp hj with hj1 | hj2
                    · exact Idone j hj1
                    · rw [List.mem_singleton] at hj2
                      subst hj2
                      exact ⟨nm, hlkt, hnu⟩
                have horder2 : order = (done ++ [m]) ++ rest2 := by
                  rw [horder]
                  simp
                obtain ⟨hFin, hv⟩ :=
                  ih (done ++ [m]) t nm.result horder2 hInv2 t2b ev2 v hrl2
                refine ⟨hFin, ?_⟩
                cases rest2 with
                | nil =>
                    simp only [runList] at hrl2
                    injection hrl2 with hz1 hz2
                    injection hz2 with hz2 hz3
                    injection hz3 with hz3
                    subst hz1
                    rw [← hz3]
                    simp [lastVal, resultAt, hlkt]
                | cons r rest3 =>
                    rcases hgl : (r :: rest3).getLast? with _ | jj
                    · rw [List.getLast?_eq_none_iff] at hgl
                      cases hgl
                    · rw [hv]
                      simp [lastVal, List.getLast?_cons_cons, hgl]
            | true =>
                obtain ⟨c1, c2, c3, c4, c5, n', hn', f1, f2, f3, f4, f5, f6,
                  f7, f8⟩ := internalRun_refresh_core fuel t m nm t1 ev1 v1
                    hlkt hnu hir
                have hts2 : n'.result_timestamp =
                    Option.some (s0.times (t.clock + 2)) := by
                  rw [f7, It]
                have hInv2 : C8Inv s0 order (done ++ [m]) t1 := by
                  refine ⟨by rw [c1, Id], by rw [c2, It],
                    by rw [c4]; omega, ?_, ?_, ?_, ?_, ?_⟩
                  · intro j hj
                    have hjm : j ≠ m := fun he =>
                      hj (he ▸ List.mem_append_right _
                        (List.mem_singleton.mpr rfl))
                    exact (c5 j hjm).trans
                      (Iu j fun hmem => hj (List.mem_append_left _ hmem))
                  · intro j
                    by_cases hjm : j = m
                    · subst hjm
                      rw [hn', hlk0]
                      rfl
                    · exact (coreOfO_isSome _ _ (c5 j hjm)).trans (Ie j)
                  · intro j hj n ts hln hts
                    have hcl : s0.times t.clock ≤ s0.times t1.clock :=
                      mono _ _ (by rw [c4]; omega)
                    by_cases hjm : j = m
                    · subst hjm
                      rw [hn'] at hln
                      injection hln with he
                      subst he
                      rw [hts2] at hts
                      injection hts with he2
                      subst he2
                      exact mono _ _ (by rw [c4]; omega)
                    · have hx := c5 j hjm
                      rw [hln] at hx
                      obtain ⟨nnt, hlnt, hcc⟩ := coreOfO_some hx.symm
                      obtain ⟨_, _, _, _, _, _, _, _, _, _, hrtseq, _⟩ :=
                        coreOf_eq_fields hcc
                      exact le_trans
                        (Its j hj nnt ts hlnt (hrtseq.trans hts)) hcl
                  · intro j hj n0 h0
                    by_cases hjm : j = m
                    · subst hjm
                      have he : n0 = nm0 := by
                        rw [hlk0] at h0
                        injection h0 with he
                        exact he.symm
                      subst he
                      exact ⟨n', hn', by rw [f1, ← hpassM],
                        by rw [f2, ← hinpM], by rw [f5, ← hmoM],
                        by rw [f4, ← hinvM]⟩
                    · obtain ⟨nn, hnn, hp2, hi2, hm2, hv2⟩ :=
                        Icore j hj n0 h0
                      have hx := c5 j hjm
                      rw [hnn] at hx
                      obtain ⟨nn1, hnn1, hcc⟩ := coreOfO_some hx
                      obtain ⟨_, _, _, hi3, hv3, hm3, _, hp3, _, _, _, _⟩ :=
                        coreOf_eq_fields hcc
                      -- note: coreOf_eq_fields hcc relates nn1 to nn
                      exact ⟨nn1, hnn1, hp3.trans hp2, hi3.trans hi2,
                        hm3.trans hm2, hv3.trans hv2⟩
                  · intro j hj
                    rcases List.mem_append.mp hj with hj1 | hj2
                    · obtain ⟨nj, hnj, hnuj⟩ := Idone j hj1
                      have hjm : j ≠ m := fun he => hmnd (he ▸ hj1)
                      have hjOrd : j ∈ order := by
                        rw [horder]
                        exact List.mem_append_left _ hj1
                      have hsome : (lookupNode s0.nodes j).isSome := by
                        rw [← Ie j, hnj]
                        rfl
                      rcases h0j : lookupNode s0.nodes j with _ | n0j
                      · rw [h0j] at hsome
                        simp at hsome
                      · obtain ⟨nj2, hnj2, _, hinp, _, _⟩ :=
                          Icore j hjOrd n0j h0j
                        have he : nj2 = nj := by
                          rw [hnj] at hnj2
                          injection hnj2 with he
                          exact he.symm
                        subst he
                        have hx := c5 j hjm
                        rw [hnj] at hx
                        obtain ⟨nj1, hnj1, hcj⟩ := coreOfO_some hx
                        -- hnj1 : lookup t1 j = some nj1, hcj : coreOf nj1 = coreOf nj2
                        refine ⟨nj1, hnj1, ?_⟩
                        have hcong : needsUpdate (lookupNode t1.nodes) nj1 =
                            needsUpdate (lookupNode t.nodes) nj2 := by
                          apply needsUpdate_congr_core _ _ nj2 nj1 hcj.symm
                          intro nm2 u hmem
                          have hu_dep : u ∈ depsGet s0.deps j :=
                            hwf j hjOrd n0j h0j nm2 u
                              (by rw [← hinp]; exact hmem)
                          have hu_done : u ∈ done :=
                            hdclosed done (m :: rest2) horder j hj1 u hu_dep
                          have hum : u ≠ m := fun he2 => hmnd (he2 ▸ hu_done)
                          exact (c5 u hum).symm
                        rw [hcong]
                        exact hnuj
                    · rw [List.mem_singleton] at hj2
                      subst hj2
                      refine ⟨n', hn', ?_⟩
                      have hpassf : n'.passive = false := by
                        rw [f1]
                        exact hpassm
                      have hveq : n'.result_version = n'.version :=
                        f6.trans f3.symm
                      have hinvle : n'.invalidate_before ≤
                          s0.times (t.clock + 2) := by
                        rw [f4]
                        exact le_trans hinvm (mono _ _ (by omega))
                      have hbound : needsUpdateInputs (lookupNode t1.nodes)
                          (s0.times (t.clock + 2)) n'.inputs = false := by
                        apply needsUpdateInputs_false_of_bound
                        intro nm2 u hmem un uts hlu huts
                        have hmem2 : (nm2, InputVal.ref u) ∈ nm.inputs :=
                          f2 ▸ hmem
                        have hu_dep := hwfm nm2 u hmem2
                        have hu_done : u ∈ done := hdepm u hu_dep
                        have hu_ord : u ∈ order := hclosed j hmOrd u hu_dep
                        have hum : u ≠ j := fun he2 => hmnd (he2 ▸ hu_done)
                        have hx := c5 u hum
                        rw [hlu] at hx
                        obtain ⟨unt, hlut, hcu⟩ := coreOfO_some hx.symm
                        obtain ⟨_, _, _, _, _, _, _, _, _, _, hrtsu, _⟩ :=
                          coreOf_eq_fields hcu
                        exact le_trans
                          (Its u hu_ord unt uts hlut (hrtsu.trans huts))
                          (mono _ _ (by omega))
                      simp only [needsUpdate, hpassf, Bool.false_eq_true,
                        if_false, hts2]
                      rw [if_neg (fun h => h hveq)]
                      rw [if_neg (not_lt.mpr hinvle)]
                      exact hbound
                have horder2 : order = (done ++ [m]) ++ rest2 := by
                  rw [horder]
                  simp
                obtain ⟨hFin, hv⟩ :=
                  ih (done ++ [m]) t1 v1 horder2 hInv2 t2b ev2 v hrl2
                refine ⟨hFin, ?_⟩
                cases rest2 with
                | nil =>
                    simp only [runList] at hrl2
                    injection hrl2 with hz1 hz2
                    injection hz2 with hz2 hz3
                    injection hz3 with hz3
                    subst hz1
                    rw [← hz3]
                    simp [lastVal, resultAt, hn', f8]
                | cons r rest3 =>
                    rcases hgl : (r :: rest3).getLast? with _ | jj
                    · rw [List.getLast?_eq_none_iff] at hgl
                      cases hgl
                    · rw [hv]
                      simp [lastVal, List.getLast?_cons_cons, hgl]

/-- C8 (amended): under the claim's freshness hypotheses strengthened
with a non-decreasing wall clock and no pre-existing timestamp lying in
the clock's future, a second `run_upto` over the same targets is a
complete no-op: it returns the same value with no state change and no
events at all — in particular zero `process` calls.  The strict
greater-than upstream comparison is what lets the equal-timestamp case
through.  Without the added hypotheses the claim fails, as
`C8_future_timestamp_counterexample` shows. -/
theorem C8_second_run_is_noop (s : GState) (targets order : List Nat)
    (hd : ∀ p ∈ s.deps, p.2.Nodup)
    (horder : topoSortSubgraph targets s.deps = Except.ok order)
    (mono : ∀ i j : Nat, i ≤ j → s.times i ≤ s.times j)
    (hpass : ∀ j ∈ order, ∀ n, lookupNode s.nodes j = Option.some n →
      n.passive = false)
    (hwf : ∀ j ∈ order, ∀ n, lookupNode s.nodes j = Option.some n →
      ∀ nm u, (nm, InputVal.ref u) ∈ n.inputs → u ∈ depsGet s.deps j)
    (hinv : ∀ j ∈ order, ∀ n, lookupNode s.nodes j = Option.some n →
      n.invalidate_before ≤ s.times s.clock)
    (hts : ∀ j ∈ order, ∀ n ts, lookupNode s.nodes j = Option.some n →
      n.result_timestamp = Option.some ts → ts ≤ s.times s.clock)
    (s1 : GState) (ev1 : List Ev) (v : PyVal)
    (hrun1 : runUpto s targets = (s1, ev1, Except.ok v)) :
    runUpto s1 targets = (s1, [], Except.ok v) := by
  obtain ⟨hok, _⟩ := topoSortSubgraph_ok_spec s.deps targets hd
  obtain ⟨hmem, hnodup, hord⟩ := hok order horder
  have hclosed : ∀ j ∈ order, ∀ d ∈ depsGet s.deps j, d ∈ order :=
    fun j hj d hd2 => (hord j hj d hd2).1
  have hbefore : ∀ (done2 : List Nat) (m2 : Nat) (rest3 : List Nat),
      order = done2 ++ m2 :: rest3 → ∀ d ∈ depsGet s.deps m2, d ∈ done2 := by
    intro done2 m2 rest3 heq d hd2
    have hm2 : m2 ∈ order := by
      rw [heq]
      exact List.mem_append_right _ (List.mem_cons_self _ _)
    obtain ⟨hdmem, hidx⟩ := hord m2 hm2 d hd2
    have heq2 : order = (done2 ++ [m2]) ++ rest3 := by
      rw [heq]
      simp
    rw [heq2] at hdmem hidx
    have hnd2 : ((done2 ++ [m2]) ++ rest3).Nodup := by
      rw [← heq2]
      exact hnodup
    have hdm := mem_left_of_indexOf_lt hnd2
      (List.mem_append_right _ (List.mem_singleton.mpr rfl)) hdmem hidx
    rcases List.mem_append.mp hdm with h | h
    · exact h
    · rw [List.mem_singleton] at h
      subst h
      omega
  have hdclosed : ∀ (done2 rest3 : List Nat), order = done2 ++ rest3 →
      ∀ j ∈ done2, ∀ d ∈ depsGet s.deps j, d ∈ done2 := by
    intro done2 rest3 heq j hj d hd2
    have hjo : j ∈ order := by
      rw [heq]
      exact List.mem_append_left _ hj
    obtain ⟨hdmem, hidx⟩ := hord j hjo d hd2
    rw [heq] at hdmem hidx
    have hnd2 : (done2 ++ rest3).Nodup := by
      rw [← heq]
      exact hnodup
    exact mem_left_of_indexOf_lt hnd2 hj hdmem hidx
  simp only [runUpto] at hrun1
  rw [horder] at hrun1
  dsimp only at hrun1
  have hInv0 : C8Inv s order [] s :=
    ⟨rfl, rfl, le_refl _, fun _ _ => rfl, fun _ => rfl, hts,
     fun j _ n0 h0 => ⟨n0, h0, rfl, rfl, rfl, rfl⟩,
     fun j hj => absurd hj (List.not_mem_nil j)⟩
  obtain ⟨hFin, hv⟩ := c8_run1_aux s order mono hnodup hclosed hbefore
    hdclosed hpass hwf hinv (s.nodes.length + 1) order [] s PyVal.none
    rfl hInv0 s1 ev1 v hrun1
  obtain ⟨Fd, Ft, Fc, Fu, Fe, Fts, Fcore, Fdone⟩ := hFin
  have horder1 : topoSortSubgraph targets s1.deps = Except.ok order := by
    rw [Fd]
    exact horder
  have hcached := runList_cached (s1.nodes.length + 1) s1 order PyVal.none
    (fun j hj => Fdone j hj)
  simp only [runUpto]
  rw [horder1]
  dsimp only
  rw [hcached, hv]

/-- Two-node chain whose upstream carries a pre-existing result stamped
in the wall clock's future: every traversed node is non-passive, not
overridden, with `invalidate_before` at or before the first run. -/
def c8Bad : GState :=
  { nodes := [(1, { mkNode 1 with
                    result := PyVal.int 5
                    result_timestamp := Option.some 100 }),
              (2, { mkNode 2 with inputs := [("a", InputVal.ref 1)] })]
    deps := [(1, []), (2, [1])]
    autoSavePath := Option.none
    times := fun i => (i : Rat)
    clock := 0 }

/-- The same chain with no pre-existing result anywhere. -/
def c8Good : GState :=
  { nodes := [(1, mkNode 1),
              (2, { mkNode 2 with inputs := [("a", InputVal.ref 1)] })]
    deps := [(1, []), (2, [1])]
    autoSavePath := Option.none
    times := fun i => (i : Rat)
    clock := 0 }

/-- C8 counterexample: on `c8Bad` — which satisfies every hypothesis the
claim states (non-passive, not forced, `invalidate_before` not later
than the first run) — both the first and the second back-to-back
`run_upto([2])` invoke `process` on node 2: the downstream's fresh
stamp (wall time 2) is strictly older than the upstream's pre-existing
timestamp 100, so the strict upstream comparison re-triggers it.  The
second run is not process-free and node 2's `process` runs twice in
total, refuting the claim as stated. -/
theorem C8_future_timestamp_counterexample :
    Ev.processCall 2 ∈ (runUpto c8Bad [2]).2.1 ∧
    Ev.processCall 2 ∈ (runUpto (runUpto c8Bad [2]).1 [2]).2.1 := by
  constructor <;>
    norm_num [runUpto, topoSortSubgraph, topoSort, getDependencies,
      getDepsAux, depsUniverse, addUnvisited, insertOnce, depsGet, allNodes,
      indeg0, kahnLoop, processNeighbors, revAdj, runList, internalRun,
      needsUpdate, needsUpdateInputs, refreshResult, filledInInputs,
      fillInputs, overridenResult, touchInstance, onNodeResult, hasResult,
      c8Bad, mkNode, trivialClass, lookupNode, setNode]

/-- Closed instance of `C8_second_run_is_noop`: on the fresh two-node
chain the second back-to-back run changes nothing, emits no event, and
returns the same value. -/
theorem C8_second_run_is_noop_witness :
    runUpto (runUpto c8Good [2]).1 [2] =
      ((runUpto c8Good [2]).1, [], Except.ok PyVal.none) := by
  have hd : ∀ p ∈ c8Good.deps, p.2.Nodup := by decide
  have horder : topoSortSubgraph [2] c8Good.deps = Except.ok [1, 2] := by
    simp [topoSortSubgraph, topoSort, getDependencies, getDepsAux,
      depsUniverse, addUnvisited, insertOnce, depsGet, allNodes, indeg0,
      kahnLoop, processNeighbors, revAdj, c8Good]
  have mono : ∀ i j : Nat, i ≤ j → c8Good.times i ≤ c8Good.times j := by
    intro i j h
    simpa [c8Good] using (Nat.cast_le.mpr h : ((i : Rat) ≤ (j : Rat)))
  have hpass : ∀ j ∈ [1, 2], ∀ n,
      lookupNode c8Good.nodes j = Option.some n → n.passive = false := by
    intro j hj n hn
    fin_cases hj <;>
      (simp [c8Good, lookupNode, mkNode] at hn; simp [← hn, mkNode])
  have hwf : ∀ j ∈ [1, 2], ∀ n,
      lookupNode c8Good.nodes j = Option.some n →
      ∀ nm u, (nm, InputVal.ref u) ∈ n.inputs →
      u ∈ depsGet c8Good.deps j := by
    intro j hj n hn nm u hmem
    fin_cases hj <;>
      simp [c8Good, lookupNode, mkNode] at hn <;>
      rw [← hn] at hmem <;>
      simp [mkNode] at hmem
    obtain ⟨_, hu⟩ := hmem
    subst hu
    simp [c8Good, depsGet]
  have hinv : ∀ j ∈ [1, 2], ∀ n,
      lookupNode c8Good.nodes j = Option.some n →
      n.invalidate_before ≤ c8Good.times c8Good.clock := by
    intro j hj n hn
    fin_cases hj <;>
      (simp [c8Good, lookupNode, mkNode] at hn; simp [← hn, mkNode, c8Good])
  have hts : ∀ j ∈ [1, 2], ∀ n ts,
      lookupNode c8Good.nodes j = Option.some n →
      n.result_timestamp = Option.some ts →
      ts ≤ c8Good.times c8Good.clock := by
    intro j hj n ts hn hts2
    fin_cases hj <;>
      simp [c8Good, lookupNode, mkNode] at hn <;>
      rw [← hn] at hts2 <;>
      simp [mkNode] at hts2
  have h22 : (runUpto c8Good [2]).2.2 = Except.ok PyVal.none := by
    norm_num [runUpto, topoSortSubgraph, topoSort, getDependencies,
      getDepsAux, depsUniverse, addUnvisited, insertOnce, depsGet, allNodes,
      indeg0, kahnLoop, processNeighbors, revAdj, runList, internalRun,
      needsUpdate, needsUpdateInputs, refreshResult, filledInInputs,
      fillInputs, overridenResult, touchInstance, onNodeResult, hasResult,
      c8Good, mkNode, trivialClass, lookupNode, setNode]
  have hrun1 : runUpto c8Good [2] =
      ((runUpto c8Good [2]).1, (runUpto c8Good [2]).2.1,
        Except.ok PyVal.none) := by
    rw [← h22]
  exact C8_second_run_is_noop c8Good [2] [1, 2] hd horder mono hpass
    hwf hinv hts _ _ _ hrun1

end VideoFlow
